import Mathlib

/-!
Verification of the lsky-uploader Obsidian plugin (TypeScript sources under
src/).  The TypeScript code is shallowly embedded: text is `List Char`,
the JavaScript regular-expression scans used by the plugin are embedded as
fuel-based left-to-right scanners that mirror the engine's lazy/greedy
backtracking for the concrete patterns appearing in the source, async
control flow is embedded as explicit traces / state machines, and the
platform collaborators (URL parser, percent-decoder, vault, network) are
explicit parameters.
-/

set_option maxRecDepth 4000

namespace Lsky

/-- Text, as the JavaScript string contents. -/
abbrev Str := List Char

/-- Shorthand turning a Lean string literal into embedded text. -/
def str (s : String) : Str := s.toList

/-- JavaScript line terminators, the characters that `.` in a regex does
not match (ECMA-262 LineTerminator). -/
def isLineTerm (c : Char) : Bool :=
  c = '\n' || c = '\r' || c = (Char.ofNat 0x2028) || c = (Char.ofNat 0x2029)

/-- ASCII lowercasing, for the case-insensitive `/^https?:\/\//i` test. -/
def lowerEq (a b : Char) : Bool := a.toLower = b.toLower

/-- Case-insensitive prefix test (ASCII folding), mirroring a `/.../i`
anchored regex on the given literal. -/
def ciPre : Str → Str → Bool
  | [], _ => true
  | _ :: _, [] => false
  | a :: as, b :: bs => lowerEq a b && ciPre as bs

/-- `CustomUploader.isLocalPath` (src/src/features/upload.ts:31-37): a path is
local when it is truthy (nonempty) and matches none of `/^https?:\/\//i`,
`/^\/\//`, `/^data:/`. -/
def isLocalPath (path : Str) : Bool :=
  if path.isEmpty then false
  else
    let isHttp := ciPre (str "http://") path || ciPre (str "https://") path
    let isProtocolRelative := (str "//").isPrefixOf path
    let isData := (str "data:").isPrefixOf path
    !isHttp && !isProtocolRelative && !isData

/-- The three prefix conditions named by the claim: starts with `http://` or
`https://` case-insensitively, is protocol-relative, or is a `data:` URI. -/
def hasRemoteMarker (path : Str) : Bool :=
  ciPre (str "http://") path || ciPre (str "https://") path ||
    (str "//").isPrefixOf path || (str "data:").isPrefixOf path

/-- C9 counterexample: the empty string has none of the three remote
prefixes, yet `isLocalPath` classifies it as not local (the code first
rejects falsy paths), so `isLocalPath p` is not equivalent to the absence
of the three prefixes. -/
theorem c9_counterexample :
    hasRemoteMarker [] = false ∧ isLocalPath [] = false := by
  constructor <;> rfl

/-- C9 (amended): for every raw path `p`, `isLocalPath p` is true exactly
when `p` is nonempty and starts with none of `http://`/`https://`
(case-insensitive), `//`, `data:`. -/
theorem c9_isLocalPath_iff (p : Str) :
    isLocalPath p = true ↔ p ≠ [] ∧ hasRemoteMarker p = false := by
  unfold isLocalPath hasRemoteMarker
  cases p with
  | nil => simp
  | cons c cs =>
    cases h1 : ciPre (str "http://") (c :: cs) <;>
      cases h2 : ciPre (str "https://") (c :: cs) <;>
        cases h3 : (str "//").isPrefixOf (c :: cs) <;>
          cases h4 : (str "data:").isPrefixOf (c :: cs) <;>
            simp [h1, h2, h3, h4]

/-! ## Remote client: authorized requests (src/unnamed/part_000) -/

/-- `LskyAuthConfig` (src/unnamed/part_000:3-8). -/
structure LskyAuthConfig where
  serverUrl : Str
  email : Str
  password : Str
  token : Option Str

/-- JavaScript truthiness of `this.config.token`: `undefined` and the empty
string are falsy. -/
def tokenTruthy : Option Str → Bool
  | none => false
  | some t => !t.isEmpty

/-- The `Authorization` bearer value attached by `authorizedFetch`
(`if (this.config.token) headers['Authorization'] = ...`). -/
def bearerOf (cfg : LskyAuthConfig) : Option Str :=
  if tokenTruthy cfg.token then cfg.token else none

/-- One HTTP request as it reaches the network layer. -/
structure IssuedRequest where
  url : Str
  authHeader : Option Str
  retryAllowed : Bool
deriving DecidableEq

/-- Trace of one `authorizedFetch` call: the data requests issued in order,
how many `POST /tokens` authentication requests `getToken` issued, the
value given back to the caller (a thrown message or the response status),
and the config token afterwards. -/
structure FetchOutcome where
  requests : List IssuedRequest
  tokenRequests : Nat
  result : Except Str Nat
  finalToken : Option Str

/-- `LskyClient.authorizedFetch` with `retry401 = false`
(src/unnamed/part_000:64-76): attach the bearer header when the token is
truthy, issue the request, return the response whatever its status.
`statusOf n` is the status the network gives the n-th data request. -/
def authorizedFetchNR (cfg : LskyAuthConfig) (url : Str) (statusOf : Nat → Nat) :
    FetchOutcome :=
  ⟨[⟨url, bearerOf cfg, false⟩], 0, .ok (statusOf 0), cfg.token⟩

/-- `LskyClient.authorizedFetch` (src/unnamed/part_000:64-76).  The single
recursive call passes `retry401 = false`, so the recursion is unrolled into
`authorizedFetchNR`.  `tokenNet` is the outcome of the `POST /tokens`
request `getToken` would issue: an error message or the fresh token. -/
def authorizedFetch (cfg : LskyAuthConfig) (url : Str) (statusOf : Nat → Nat)
    (tokenNet : Except Str Str) (retry401 : Bool) : FetchOutcome :=
  if retry401 then
    let req : IssuedRequest := ⟨url, bearerOf cfg, true⟩
    let s := statusOf 0
    if s = 401 then
      match tokenNet with
      | .error e => ⟨[req], 1, .error e, cfg.token⟩
      | .ok newTok =>
          let rest := authorizedFetchNR { cfg with token := some newTok } url
            (fun n => statusOf (n + 1))
          ⟨req :: rest.requests, 1 + rest.tokenRequests, rest.result, rest.finalToken⟩
    else ⟨[req], 0, .ok s, cfg.token⟩
  else authorizedFetchNR cfg url statusOf

/-- C4: through `authorizedFetch` with retry allowed, (1) the request
carries the configured bearer token whenever one is present; (2) on a 401
response the token is refreshed by exactly one authentication request and
the request re-issued exactly once, with retry disabled and the fresh
token attached; (3) a second 401 is returned to the caller unchanged (the
callers treat the non-success status as a failure); (4) any first status
other than 401 causes no authentication request and no re-issue. -/
theorem c4_authorizedFetch_behavior (cfg : LskyAuthConfig) (url : Str)
    (statusOf : Nat → Nat) (tokenNet : Except Str Str) :
    (tokenTruthy cfg.token = true →
      (authorizedFetch cfg url statusOf tokenNet true).requests.head? =
        some ⟨url, cfg.token, true⟩) ∧
    (statusOf 0 = 401 → ∀ t, tokenNet = .ok t → t ≠ [] →
      (authorizedFetch cfg url statusOf tokenNet true).tokenRequests = 1 ∧
      (authorizedFetch cfg url statusOf tokenNet true).requests =
        [⟨url, bearerOf cfg, true⟩, ⟨url, some t, false⟩] ∧
      (authorizedFetch cfg url statusOf tokenNet true).result = .ok (statusOf 1) ∧
      (authorizedFetch cfg url statusOf tokenNet true).finalToken = some t) ∧
    (statusOf 0 ≠ 401 →
      (authorizedFetch cfg url statusOf tokenNet true).requests =
        [⟨url, bearerOf cfg, true⟩] ∧
      (authorizedFetch cfg url statusOf tokenNet true).tokenRequests = 0 ∧
      (authorizedFetch cfg url statusOf tokenNet true).result = .ok (statusOf 0)) := by
  refine ⟨?_, ?_, ?_⟩
  · intro htok
    unfold authorizedFetch authorizedFetchNR
    have hb : bearerOf cfg = cfg.token := by unfold bearerOf; simp [htok]
    by_cases h : statusOf 0 = 401 <;> cases tokenNet <;> simp [h, hb]
  · intro h401 t hok ht
    subst hok
    unfold authorizedFetch authorizedFetchNR
    simp only [h401, if_true, if_pos rfl]
    have hb : bearerOf { cfg with token := some t } = some t := by
      unfold bearerOf tokenTruthy
      cases t with
      | nil => simp at ht
      | cons a as => simp
    simp [hb]
  · intro hne
    unfold authorizedFetch authorizedFetchNR
    simp [hne]

/-- C4 witness: a concrete 401-then-200 run through `authorizedFetch`. -/
theorem c4_authorizedFetch_behavior_witness :
    (authorizedFetch ⟨str "https://h/api", str "e", str "pw", some (str "old")⟩
        (str "https://h/api/upload") (fun n => if n = 0 then 401 else 200)
        (.ok (str "fresh")) true).tokenRequests = 1 ∧
    (authorizedFetch ⟨str "https://h/api", str "e", str "pw", some (str "old")⟩
        (str "https://h/api/upload") (fun n => if n = 0 then 401 else 200)
        (.ok (str "fresh")) true).requests =
      [⟨str "https://h/api/upload", some (str "old"), true⟩,
       ⟨str "https://h/api/upload", some (str "fresh"), false⟩] ∧
    (authorizedFetch ⟨str "https://h/api", str "e", str "pw", some (str "old")⟩
        (str "https://h/api/upload") (fun n => if n = 0 then 401 else 200)
        (.ok (str "fresh")) true).result = .ok 200 := by
  have h := (c4_authorizedFetch_behavior
    ⟨str "https://h/api", str "e", str "pw", some (str "old")⟩
    (str "https://h/api/upload") (fun n => if n = 0 then 401 else 200)
    (.ok (str "fresh"))).2.1 (by decide) (str "fresh") rfl (by decide)
  refine ⟨h.1, ?_, ?_⟩
  · have h2 := h.2.1
    have hb : bearerOf ⟨str "https://h/api", str "e", str "pw", some (str "old")⟩ =
        some (str "old") := by decide
    rw [hb] at h2
    exact h2
  · have h3 := h.2.2.1
    simpa using h3

/-! ## Remote client: paginated listing (src/unnamed/part_000:95-110) -/

/-- `links` payload of `LskyImageItem` (src/unnamed/part_000:16). -/
structure LskyLinks where
  url : Str
  thumbnail_url : Option Str
deriving DecidableEq

/-- `LskyImageItem` (src/unnamed/part_000:10-17). -/
structure LskyImageItem where
  key : Str
  name : Str
  origin_name : Option Str
  pathname : Option Str
  size : Option Nat
  links : LskyLinks
deriving DecidableEq

/-- One `GET /images?page=N` response as the code consumes it: `ok` is
`res.ok`, `last_page` the reported last page (`0` models a falsy or absent
value, handled by `json?.data?.last_page || page`), `items` the page
payload. -/
structure LskyPage where
  ok : Bool
  current_page : Nat
  last_page : Nat
  items : List LskyImageItem

/-- Trace of `listAllImages`: the thrown message or collected items, the
pages requested in order, and how many pacing delays were awaited. -/
structure ListOutcome where
  result : Except Str (List LskyImageItem)
  requested : List Nat
  sleeps : Nat

/-- The do/while loop of `LskyClient.listAllImages`
(src/unnamed/part_000:99-108), fuel-indexed because a misbehaving server
can keep raising `last_page` forever.  The carried `last` variable of the
source is overwritten from the current response before every loop test, so
it is not a parameter here. -/
def listLoop (pages : Nat → LskyPage) :
    Nat → Nat → List LskyImageItem → List Nat → Nat → ListOutcome
  | 0, _, _, req, sl => ⟨.error (str "fuel exhausted"), req, sl⟩
  | fuel + 1, page, acc, req, sl =>
    let p := pages page
    if p.ok = false then ⟨.error (str "HTTP"), req ++ [page], sl⟩
    else
      let acc2 := acc ++ p.items
      let last2 := if p.last_page = 0 then page else p.last_page
      let page2 := page + 1
      let sl2 := sl + 1
      if page2 ≤ last2 then listLoop pages fuel page2 acc2 (req ++ [page]) sl2
      else ⟨.ok acc2, req ++ [page], sl2⟩

/-- `LskyClient.listAllImages` (src/unnamed/part_000:95-110): start at page
1 with `last = 1`. -/
def listAllImages (pages : Nat → LskyPage) (fuel : Nat) : ListOutcome :=
  listLoop pages fuel 1 [] [] 0

/-- Concatenation of the items of pages `k, k+1, ..., k+n-1` in page
order. -/
def pageItems (pages : Nat → LskyPage) (k n : Nat) : List LskyImageItem :=
  (List.range' k n).flatMap (fun p => (pages p).items)

theorem listLoop_ok (pages : Nat → LskyPage) (L : Nat)
    (hw : ∀ p, 1 ≤ p → p ≤ L → (pages p).ok = true ∧ (pages p).last_page = L) :
    ∀ n k acc req sl fuel, k + n = L + 1 → 1 ≤ k → 1 ≤ n → n ≤ fuel →
      listLoop pages fuel k acc req sl =
        ⟨.ok (acc ++ pageItems pages k n), req ++ List.range' k n, sl + n⟩ := by
  intro n
  induction n with
  | zero => intro k acc req sl fuel _ _ h1 _; omega
  | succ m ih =>
    intro k acc req sl fuel hkn hk _ hfuel
    obtain ⟨f, rfl⟩ : ∃ f, fuel = f + 1 := ⟨fuel - 1, by omega⟩
    have hkL : k ≤ L := by omega
    obtain ⟨hok, hlast⟩ := hw k hk hkL
    have hL1 : 1 ≤ L := le_trans hk hkL
    have hlast0 : (pages k).last_page ≠ 0 := by omega
    show listLoop pages (f + 1) k acc req sl = _
    rw [listLoop]
    simp only [hok, hlast]
    rw [if_neg (by decide : ¬(true = false)), if_neg (by omega : ¬L = 0)]
    by_cases hstep : k + 1 ≤ L
    · have hm1 : 1 ≤ m := by omega
      rw [if_pos hstep]
      rw [ih (k + 1) (acc ++ (pages k).items) (req ++ [k]) (sl + 1) f
        (by omega) (by omega) hm1 (by omega)]
      have hitems : acc ++ (pages k).items ++ pageItems pages (k + 1) m =
          acc ++ pageItems pages k (m + 1) := by
        simp [pageItems, List.range'_succ, List.append_assoc]
      have hrange : req ++ [k] ++ List.range' (k + 1) m = req ++ List.range' k (m + 1) := by
        simp [List.range'_succ]
      rw [hitems, hrange]
      congr 1
      omega
    · have hm0 : m = 0 := by omega
      subst hm0
      rw [if_neg hstep]
      simp [pageItems, List.range'_succ]

/-- C8: on well-formed list responses (every page up to the server-reported
last page `L` is `ok` and reports `last_page = L`), `listAllImages`
requests exactly pages `1..L` in order, returns the concatenation of the
page payloads in page order, and awaits one fixed pacing delay after every
page request (in particular between any two consecutive requests). -/
theorem c8_listAllImages_paginates (pages : Nat → LskyPage) (L fuel : Nat)
    (hL : 1 ≤ L) (hfuel : L ≤ fuel)
    (hw : ∀ p, 1 ≤ p → p ≤ L → (pages p).ok = true ∧ (pages p).last_page = L) :
    (listAllImages pages fuel).result = .ok (pageItems pages 1 L) ∧
    (listAllImages pages fuel).requested = List.range' 1 L ∧
    (listAllImages pages fuel).sleeps = (listAllImages pages fuel).requested.length := by
  have h := listLoop_ok pages L hw L 1 [] [] 0 fuel (by omega) le_rfl hL hfuel
  unfold listAllImages
  rw [h]
  simp

/-- C8 witness: a two-page inventory is fetched as pages `[1, 2]` with the
payloads concatenated in order. -/
theorem c8_listAllImages_paginates_witness :
    (listAllImages
        (fun p => ⟨true, p, 2,
          [⟨str "k" ++ [Char.ofNat (48 + p)], str "n", none, none, none,
            ⟨str "https://h/img" ++ [Char.ofNat (48 + p)], none⟩⟩]⟩) 2).result =
      .ok [⟨str "k1", str "n", none, none, none, ⟨str "https://h/img1", none⟩⟩,
           ⟨str "k2", str "n", none, none, none, ⟨str "https://h/img2", none⟩⟩] ∧
    (listAllImages
        (fun p => ⟨true, p, 2,
          [⟨str "k" ++ [Char.ofNat (48 + p)], str "n", none, none, none,
            ⟨str "https://h/img" ++ [Char.ofNat (48 + p)], none⟩⟩]⟩) 2).requested = [1, 2] := by
  have h := c8_listAllImages_paginates
    (fun p => ⟨true, p, 2,
      [⟨str "k" ++ [Char.ofNat (48 + p)], str "n", none, none, none,
        ⟨str "https://h/img" ++ [Char.ofNat (48 + p)], none⟩⟩]⟩) 2 2
    (by omega) (by omega) (fun p _ _ => ⟨rfl, rfl⟩)
  refine ⟨?_, ?_⟩
  · rw [h.1]
    rfl
  · rw [h.2.1]
    rfl

/-! ## Reconciliation (src/src/features/cleanup.ts) -/

/-- Terminal report of one `cleanupUnusedImages` run. -/
inductive CleanupReport where
  | invalidServer
  | nothingToClean
  | cancelled
  | finished (success failed : List Str)
deriving DecidableEq

/-- Trace of one `cleanupUnusedImages` run: whether the used-set scan and
inventory listing were performed at all, the `DELETE /images/{key}`
requests issued in order, the terminal report, and the pacing delays
awaited. -/
structure CleanupOutcome where
  listedInventory : Bool
  deleteRequests : List Str
  report : CleanupReport
  sleeps : Nat
deriving DecidableEq

/-- The orphan set (src/src/features/cleanup.ts:73):
`all.filter(img => !used.includes(img.links.url))`. -/
def toDelete (used : List Str) (all : List LskyImageItem) : List LskyImageItem :=
  all.filter (fun img => !(used.contains img.links.url))

/-- State of the deletion loop: successes, failures, issued requests,
pacing delays. -/
structure DeleteRun where
  success : List Str
  failed : List Str
  requests : List Str
  sleeps : Nat
deriving DecidableEq

/-- The deletion loop (src/src/features/cleanup.ts:81-86): one
`deleteImageByKey` per orphan, failures isolated into the failure list, a
fixed pacing delay after each deletion. -/
def deleteLoop (delOk : Str → Bool) (td : List LskyImageItem) : DeleteRun :=
  td.foldl
    (fun st img =>
      if delOk img.key then
        ⟨st.success ++ [img.links.url], st.failed, st.requests ++ [img.key], st.sleeps + 1⟩
      else
        ⟨st.success, st.failed ++ [img.links.url], st.requests ++ [img.key], st.sleeps + 1⟩)
    ⟨[], [], [], 0⟩

/-- `cleanupUnusedImages` (src/src/features/cleanup.ts:65-89), with the
collaborators explicit: `origin` is the `getServerOrigin` result, `used`
the `collectUsedImageUrls` result, `all` the `listAllImages` result,
`confirmed` the user's answer to `confirmCleanup`, and `delOk` whether a
given key's deletion request succeeds. -/
def cleanupUnusedImages (origin : Option Str) (used : List Str)
    (all : List LskyImageItem) (confirmed : Bool) (delOk : Str → Bool) :
    CleanupOutcome :=
  match origin with
  | none => ⟨false, [], .invalidServer, 0⟩
  | some _ =>
    let td := toDelete used all
    if td.isEmpty then ⟨true, [], .nothingToClean, 0⟩
    else if confirmed = false then ⟨true, [], .cancelled, 0⟩
    else
      let run := deleteLoop delOk td
      ⟨true, run.requests, .finished run.success run.failed, run.sleeps⟩

/-- The remote inventory after a set of deletion requests. -/
def applyDeletions (inv : List LskyImageItem) (keys : List Str) : List LskyImageItem :=
  inv.filter (fun img => !(keys.contains img.key))

/-- C3: with a valid origin, (1) the orphan set is exactly the inventory
items whose `links.url` is absent from the used-URL set; (2) an empty
orphan set stops the run reporting nothing to clean, with no deletion
request; (3) a declined confirmation returns without a single deletion
request, leaving the remote inventory unchanged. -/
theorem c3_cleanup_orphans (o : Str) (used : List Str) (all : List LskyImageItem)
    (confirmed : Bool) (delOk : Str → Bool) :
    (∀ img, img ∈ toDelete used all ↔ img ∈ all ∧ img.links.url ∉ used) ∧
    (toDelete used all = [] →
      (cleanupUnusedImages (some o) used all confirmed delOk).report = .nothingToClean ∧
      (cleanupUnusedImages (some o) used all confirmed delOk).deleteRequests = []) ∧
    (confirmed = false →
      (cleanupUnusedImages (some o) used all confirmed delOk).deleteRequests = [] ∧
      applyDeletions all
        (cleanupUnusedImages (some o) used all confirmed delOk).deleteRequests = all) := by
  refine ⟨?_, ?_, ?_⟩
  · intro img
    unfold toDelete
    rw [List.mem_filter]
    simp [List.elem_iff]
  · intro hempty
    unfold cleanupUnusedImages
    simp [hempty]
  · intro hconf
    subst hconf
    unfold cleanupUnusedImages
    by_cases hempty : (toDelete used all).isEmpty <;>
      simp [hempty, applyDeletions]

/-- A deletion collaborator that always succeeds. -/
def delOkAlways : Str → Bool := fun _ => true

/-- C3 witness: the claim's own example, inventory `{A, B, C}` with
used-set `{B}`: the orphan set is `{A, C}`, and a declined confirmation
issues no deletion request and leaves the inventory unchanged. -/
theorem c3_cleanup_orphans_witness :
    toDelete [str "https://h/B"]
        [⟨str "kA", str "A", none, none, none, ⟨str "https://h/A", none⟩⟩,
         ⟨str "kB", str "B", none, none, none, ⟨str "https://h/B", none⟩⟩,
         ⟨str "kC", str "C", none, none, none, ⟨str "https://h/C", none⟩⟩] =
      [⟨str "kA", str "A", none, none, none, ⟨str "https://h/A", none⟩⟩,
       ⟨str "kC", str "C", none, none, none, ⟨str "https://h/C", none⟩⟩] ∧
    (cleanupUnusedImages (some (str "https://h")) [str "https://h/B"]
        [⟨str "kA", str "A", none, none, none, ⟨str "https://h/A", none⟩⟩,
         ⟨str "kB", str "B", none, none, none, ⟨str "https://h/B", none⟩⟩,
         ⟨str "kC", str "C", none, none, none, ⟨str "https://h/C", none⟩⟩]
        false delOkAlways).deleteRequests = [] ∧
    applyDeletions
        [⟨str "kA", str "A", none, none, none, ⟨str "https://h/A", none⟩⟩,
         ⟨str "kB", str "B", none, none, none, ⟨str "https://h/B", none⟩⟩,
         ⟨str "kC", str "C", none, none, none, ⟨str "https://h/C", none⟩⟩]
        (cleanupUnusedImages (some (str "https://h")) [str "https://h/B"]
          [⟨str "kA", str "A", none, none, none, ⟨str "https://h/A", none⟩⟩,
           ⟨str "kB", str "B", none, none, none, ⟨str "https://h/B", none⟩⟩,
           ⟨str "kC", str "C", none, none, none, ⟨str "https://h/C", none⟩⟩]
          false delOkAlways).deleteRequests =
      [⟨str "kA", str "A", none, none, none, ⟨str "https://h/A", none⟩⟩,
       ⟨str "kB", str "B", none, none, none, ⟨str "https://h/B", none⟩⟩,
       ⟨str "kC", str "C", none, none, none, ⟨str "https://h/C", none⟩⟩] := by
  have h := (c3_cleanup_orphans (str "https://h") [str "https://h/B"]
    [⟨str "kA", str "A", none, none, none, ⟨str "https://h/A", none⟩⟩,
     ⟨str "kB", str "B", none, none, none, ⟨str "https://h/B", none⟩⟩,
     ⟨str "kC", str "C", none, none, none, ⟨str "https://h/C", none⟩⟩]
    false delOkAlways).2.2 rfl
  refine ⟨by decide, h.1, ?_⟩
  have h2 := h.2
  rw [h.1] at h2
  rw [h.1]
  exact h2

/-! ## Token acquisition under the cooperative scheduler
(src/unnamed/part_000:41-62)

`getToken` checks `isFetchingToken`; if set it awaits a 200ms timer and
re-invokes itself, otherwise it sets the flag, issues `POST /tokens`,
and clears the flag when the response arrives.  The check and the
flag-set are separated by no await point, so they are atomic under the
single-threaded cooperative scheduler.  Two concurrent `getToken` calls
are two tasks; the nondeterministic schedule decides which suspended
task resumes next. -/

/-- Control position of one `getToken` task: about to run the flag check
(`ready`, both on first entry and when its sleep timer fires it
immediately re-invokes and re-checks), suspended in the 200ms wait loop
(`sleeping`), awaiting its own `POST /tokens` response (`fetching`), or
returned (`done`). -/
inductive TokPC where
  | ready
  | sleeping
  | fetching
  | done
deriving DecidableEq

/-- Shared state of two concurrent `getToken` calls: the two task
positions, the `isFetchingToken` flag, the number of `POST /tokens`
requests currently in flight at the network layer, and the total number
ever issued. -/
structure TokState where
  pcA : TokPC
  pcB : TokPC
  flag : Bool
  inFlight : Nat
  total : Nat
deriving DecidableEq

/-- Scheduler events: a task runs its (atomic) flag check — either on
first entry or when its sleep timer fires — or a task's in-flight
authentication request resolves. -/
inductive TokLabel where
  | pollA
  | pollB
  | resolveA
  | resolveB
deriving DecidableEq

/-- The flag check of `getToken` run by one task, atomically: with the
flag set the task goes (back) to the wait loop; with it clear the task
sets the flag and issues its own `POST /tokens`. -/
def tokPoll (pc : TokPC) (s : TokState) : TokPC × Bool × Nat × Nat :=
  match pc with
  | .ready | .sleeping =>
    if s.flag then (.sleeping, s.flag, s.inFlight, s.total)
    else (.fetching, true, s.inFlight + 1, s.total + 1)
  | pc => (pc, s.flag, s.inFlight, s.total)

/-- One scheduler step. -/
def tokStep (s : TokState) (l : TokLabel) : TokState :=
  match l with
  | .pollA =>
    let r := tokPoll s.pcA s
    ⟨r.1, s.pcB, r.2.1, r.2.2.1, r.2.2.2⟩
  | .pollB =>
    let r := tokPoll s.pcB s
    ⟨s.pcA, r.1, r.2.1, r.2.2.1, r.2.2.2⟩
  | .resolveA =>
    match s.pcA with
    | .fetching => ⟨.done, s.pcB, false, s.inFlight - 1, s.total⟩
    | _ => s
  | .resolveB =>
    match s.pcB with
    | .fetching => ⟨s.pcA, .done, false, s.inFlight - 1, s.total⟩
    | _ => s

/-- Run a schedule from a state. -/
def tokRun (s : TokState) (sched : List TokLabel) : TokState :=
  sched.foldl tokStep s

/-- Initial state: two tasks about to call `getToken`, flag clear, no
authentication request issued. -/
def tokInit : TokState := ⟨.ready, .ready, false, 0, 0⟩

/-- How many of the two tasks are awaiting their own `POST /tokens`. -/
def cntFetching (s : TokState) : Nat :=
  (if s.pcA = .fetching then 1 else 0) + (if s.pcB = .fetching then 1 else 0)

/-- How many of the two tasks have issued their `POST /tokens` (whether
still in flight or already resolved). -/
def cntIssued (s : TokState) : Nat :=
  (if s.pcA = .fetching ∨ s.pcA = .done then 1 else 0) +
    (if s.pcB = .fetching ∨ s.pcB = .done then 1 else 0)

/-- Reachability invariant of the two-task `getToken` system. -/
def TokInv (s : TokState) : Prop :=
  s.inFlight = cntFetching s ∧ (s.flag = true ↔ cntFetching s = 1) ∧
    cntFetching s ≤ 1 ∧ s.total = cntIssued s

theorem tokInv_init : TokInv tokInit := by
  refine ⟨rfl, ?_, ?_, rfl⟩ <;> simp [tokInit, cntFetching]

theorem tokInv_step (s : TokState) (l : TokLabel) (h : TokInv s) :
    TokInv (tokStep s l) := by
  obtain ⟨h1, h2, h3, h4⟩ := h
  cases l <;>
    cases hA : s.pcA <;> cases hB : s.pcB <;>
      cases hf : s.flag <;>
        simp_all [tokStep, tokPoll, TokInv, cntFetching, cntIssued]

theorem tokInv_run (sched : List TokLabel) : TokInv (tokRun tokInit sched) := by
  suffices h : ∀ s, TokInv s → TokInv (tokRun s sched) from h tokInit tokInv_init
  induction sched with
  | nil => intro s hs; exact hs
  | cons l rest ih =>
    intro s hs
    exact ih (tokStep s l) (tokInv_step s l hs)

/-- C1 counterexample: a completed interleaving of two concurrent
`getToken` calls in which the waiter polls while the first acquisition is
in flight, then — after the first completes — re-invokes and issues its
own `POST /tokens`: both tasks finish and exactly two authentication
requests reached the network layer, not one; the outcome of the first
request is not shared with the waiter. -/
theorem c1_counterexample :
    (tokRun tokInit [.pollA, .pollB, .resolveA, .pollB, .resolveB]).pcA = .done ∧
    (tokRun tokInit [.pollA, .pollB, .resolveA, .pollB, .resolveB]).pcB = .done ∧
    (tokRun tokInit [.pollA, .pollB, .resolveA, .pollB, .resolveB]).total = 2 := by
  refine ⟨rfl, rfl, rfl⟩

/-- C1 (amended): under every interleaving, at most one authentication
request is in flight at a time (the busy flag makes the second caller
wait), and in every interleaving in which both concurrent callers
complete, exactly two authentication requests reached the network layer —
the waiter re-invokes after the first completes and issues its own
request instead of sharing the first outcome. -/
theorem c1_single_flight_two_requests (sched : List TokLabel) :
    (tokRun tokInit sched).inFlight ≤ 1 ∧
    ((tokRun tokInit sched).pcA = .done → (tokRun tokInit sched).pcB = .done →
      (tokRun tokInit sched).total = 2) := by
  obtain ⟨h1, _h2, h3, h4⟩ := tokInv_run sched
  constructor
  · omega
  · intro hA hB
    rw [h4]
    unfold cntIssued
    rw [hA, hB]
    rfl

/-- C1 witness: the amended claim evaluated on the counterexample
schedule. -/
theorem c1_single_flight_two_requests_witness :
    (tokRun tokInit [.pollA, .pollB, .resolveA, .pollB, .resolveB]).inFlight ≤ 1 ∧
    (tokRun tokInit [.pollA, .pollB, .resolveA, .pollB, .resolveB]).total = 2 := by
  have h := c1_single_flight_two_requests [.pollA, .pollB, .resolveA, .pollB, .resolveB]
  exact ⟨h.1, h.2 rfl rfl⟩

/-! ## Regex scanning primitives

The plugin manipulates text exclusively through a handful of concrete
JavaScript regexes.  Each regex is embedded as a matcher
`Str → Option (Nat × α)` giving, at a position, the length the engine
consumes there (and a payload: the capture, or `Unit`), mirroring the
engine's lazy/greedy backtracking for that concrete pattern.  Global
`exec`/`match`/`replace` loops are fuel-indexed left-to-right scans; the
fuel is the text length, which suffices because every matcher consumes at
least one character. -/

/-- Lazy `.*?` scanning: try the rest of the pattern (`hit`) at each
offset, stopping at the first success; `.` does not match a line
terminator, so the scan fails once one is reached. -/
def lazyScan (hit : Str → Option (Nat × α)) : Str → Option (Nat × α)
  | [] => none
  | c :: rest =>
    match hit (c :: rest) with
    | some r => some r
    | none =>
      if isLineTerm c then none
      else (lazyScan hit rest).map (fun r => (r.1 + 1, r.2))

/-- Greedy `[^>]+` backtracking for the `<img[^>]+...` patterns: try the
rest of the pattern (`hit`) after consuming `j` characters, for `j` from
the given bound down to `1`. -/
def gBack (hit : Str → Option (Nat × α)) (tl : Str) : Nat → Option (Nat × α)
  | 0 => none
  | j + 1 =>
    match hit (tl.drop (j + 1)) with
    | some r => some (j + 1 + r.1, r.2)
    | none => gBack hit tl j

/-- Global capture collection (the `while ((m = re.exec(content)))` loops
and `content.match(/…/g)`): scan left to right, consume each match,
advance one character where nothing matches. -/
def scanCaps (m : Str → Option (Nat × α)) : Nat → Str → List α
  | 0, _ => []
  | _ + 1, [] => []
  | fuel + 1, c :: rest =>
    match m (c :: rest) with
    | some r => r.2 :: scanCaps m fuel ((c :: rest).drop r.1)
    | none => scanCaps m fuel rest

/-- `scanCaps` with enough fuel. -/
def scanAll (m : Str → Option (Nat × α)) (s : Str) : List α :=
  scanCaps m s.length s

/-- Global replacement (`content.replace(/…/g, repl)` with a constant
replacement string): scan left to right, replace matches, keep other
characters. -/
def replScan (m : Str → Option (Nat × α)) (repl : Str) : Nat → Str → Str
  | 0, s => s
  | _ + 1, [] => []
  | fuel + 1, c :: rest =>
    match m (c :: rest) with
    | some r => repl ++ replScan m repl fuel ((c :: rest).drop r.1)
    | none => c :: replScan m repl fuel rest

/-- `replScan` with enough fuel. -/
def replAll (m : Str → Option (Nat × α)) (repl : Str) (s : Str) : Str :=
  replScan m repl s.length s

/-! ### The concrete matchers -/

/-- Tail of `/!\[.*?\]\(([^)]+)\)/`: at the current offset, match `\](`
then the greedy nonempty `[^)]+` capture then `\)`. -/
def mdHit (u : Str) : Option (Nat × Str) :=
  if (str "](").isPrefixOf u then
    let v := u.drop 2
    let run := v.takeWhile (fun c => c != ')')
    if run.isEmpty then none
    else if (v.drop run.length).head? = some ')' then
      some (2 + (run.length + 1), run)
    else none
  else none

/-- `/!\[.*?\]\(([^)]+)\)/` at a position: `![`, lazy gap, `mdHit`. -/
def mdExtractMatch (s : Str) : Option (Nat × Str) :=
  if (str "![").isPrefixOf s then
    (lazyScan mdHit (s.drop 2)).map (fun r => (2 + r.1, r.2))
  else none

/-- Tail of `/<img[^>]+src="([^">]+)"/` after the greedy gap: `src="`,
the greedy nonempty `[^">]+` capture, `"`. -/
def srcHit (u : Str) : Option (Nat × Str) :=
  if (str "src=\"").isPrefixOf u then
    let v := u.drop 5
    let run := v.takeWhile (fun c => c != '"' && c != '>')
    if run.isEmpty then none
    else if (v.drop run.length).head? = some '"' then
      some (5 + (run.length + 1), run)
    else none
  else none

/-- `/<img[^>]+src="([^">]+)"/` at a position: `<img`, greedy `[^>]+`
(longest first), `srcHit`. -/
def htmlExtractMatch (s : Str) : Option (Nat × Str) :=
  if (str "<img").isPrefixOf s then
    let tl := s.drop 4
    (gBack srcHit tl (tl.takeWhile (fun c => c != '>')).length).map
      (fun r => (4 + r.1, r.2))
  else none

/-- `/!\[\[([^\]]+)\]\]/` at a position: `![[`, greedy nonempty `[^\]]+`
capture, `]]`. -/
def wikiExtractMatch (s : Str) : Option (Nat × Str) :=
  if (str "![[").isPrefixOf s then
    let v := s.drop 3
    let run := v.takeWhile (fun c => c != ']')
    if run.isEmpty then none
    else if (str "]]").isPrefixOf (v.drop run.length) then
      some (3 + run.length + 2, run)
    else none
  else none

/-- Tail of ``new RegExp(`!\\[.*?\\]\\(${escapedPath}\\)`)``: the literal
`](` + path + `)` (the code escapes the path for literal matching). -/
def mdRHit (p : Str) (u : Str) : Option (Nat × Unit) :=
  if (str "](" ++ p ++ str ")").isPrefixOf u then some (2 + p.length + 1, ()) else none

/-- ``/!\[.*?\]\(p\)/`` at a position, `p` matched literally. -/
def mdReplaceMatch (p : Str) (s : Str) : Option (Nat × Unit) :=
  if (str "![").isPrefixOf s then
    (lazyScan (mdRHit p) (s.drop 2)).map (fun r => (2 + r.1, r.2))
  else none

/-- Tail of ``/<img[^>]+src="p"/`` (upload rewrite): the literal
`src="` + path + `"`. -/
def srcHitU (p : Str) (u : Str) : Option (Nat × Unit) :=
  if (str "src=\"" ++ p ++ str "\"").isPrefixOf u then
    some (5 + p.length + 1, ())
  else none

/-- ``/<img[^>]+src="p"/`` at a position (upload rewrite): the match ends
at the closing quote, leaving the rest of the tag in place. -/
def htmlReplaceMatchU (p : Str) (s : Str) : Option (Nat × Unit) :=
  if (str "<img").isPrefixOf s then
    let tl := s.drop 4
    (gBack (srcHitU p) tl (tl.takeWhile (fun c => c != '>')).length).map
      (fun r => (4 + r.1, r.2))
  else none

/-- Tail of ``/<img[^>]+src="p"[^>]*>/`` (download rewrite): the literal
`src="` + path + `"`, then greedy `[^>]*`, then `>`. -/
def srcHitD (p : Str) (u : Str) : Option (Nat × Unit) :=
  if (str "src=\"" ++ p ++ str "\"").isPrefixOf u then
    let v := u.drop (5 + p.length + 1)
    let run := v.takeWhile (fun c => c != '>')
    if (v.drop run.length).head? = some '>' then
      some (5 + p.length + 1 + run.length + 1, ())
    else none
  else none

/-- ``/<img[^>]+src="p"[^>]*>/`` at a position (download rewrite): the
match swallows the whole tag. -/
def htmlReplaceMatchD (p : Str) (s : Str) : Option (Nat × Unit) :=
  if (str "<img").isPrefixOf s then
    let tl := s.drop 4
    (gBack (srcHitD p) tl (tl.takeWhile (fun c => c != '>')).length).map
      (fun r => (4 + r.1, r.2))
  else none

/-- ``/!\[\[p\]\]/`` at a position, `p` matched literally. -/
def wikiReplaceMatch (p : Str) (s : Str) : Option (Nat × Unit) :=
  if (str "![[" ++ p ++ str "]]").isPrefixOf s then
    some (3 + p.length + 2, ())
  else none

/-! ### The extraction and rewriting functions of the plugin -/

/-- The characters JavaScript `String.prototype.trim` strips (and the
`\s` class matches), per ECMA-262: WhiteSpace (TAB, VT, FF, ZWNBSP and
the Unicode Space_Separator category) and LineTerminator (LF, CR, LS,
PS). -/
def isJsWS (c : Char) : Bool :=
  c = ' ' || c = '\t' || c = '\n' || c = '\r' ||
    c = (Char.ofNat 0x0b) || c = (Char.ofNat 0x0c) ||
    c = (Char.ofNat 0xa0) || c = (Char.ofNat 0x1680) ||
    (0x2000 ≤ c.toNat && c.toNat ≤ 0x200a) ||
    c = (Char.ofNat 0x2028) || c = (Char.ofNat 0x2029) ||
    c = (Char.ofNat 0x202f) || c = (Char.ofNat 0x205f) ||
    c = (Char.ofNat 0x3000) || c = (Char.ofNat 0xfeff)

/-- `String.prototype.trim`. -/
def jsTrim (s : Str) : Str :=
  ((s.dropWhile isJsWS).reverse.dropWhile isJsWS).reverse

/-- Insertion-ordered de-duplication: `Array.from(new Set(...))` /
repeated `Set.prototype.add`. -/
def dedupFirst (l : List Str) : List Str :=
  l.foldl (fun acc p => if acc.contains p then acc else acc ++ [p]) []

/-- The `$`-substitution JavaScript `String.replace` applies to its
replacement string: `$$` is a dollar sign, `$&` the matched substring,
U+0060 `$`-backquote the portion of the original string before the match,
U+0027 `$`-quote the portion after it; anything else after `$` stays
literal (the patterns used by this plugin have no capture groups, so
`$` + digit is also literal). -/
def dollarExpand (matched pre post : Str) : Str → Str
  | [] => []
  | c :: t =>
    if c = '$' then
      match t with
      | [] => ['$']
      | d :: t2 =>
        if d = '$' then '$' :: dollarExpand matched pre post t2
        else if d = '&' then matched ++ dollarExpand matched pre post t2
        else if d = Char.ofNat 0x60 then pre ++ dollarExpand matched pre post t2
        else if d = Char.ofNat 0x27 then post ++ dollarExpand matched pre post t2
        else '$' :: dollarExpand matched pre post (d :: t2)
    else c :: dollarExpand matched pre post t

/-- Global replace with `$`-substitution (JS `content.replace(/…/g, repl)`
for an arbitrary replacement string): `pre` accumulates the already
scanned part of the original string, needed by the backquote/quote
substitutions. -/
def replScanD (m : Str → Option (Nat × α)) (repl : Str) : Nat → Str → Str → Str
  | 0, _, s => s
  | _ + 1, _, [] => []
  | fuel + 1, pre, c :: rest =>
    match m (c :: rest) with
    | some r =>
      dollarExpand ((c :: rest).take r.1) pre ((c :: rest).drop r.1) repl ++
        replScanD m repl fuel (pre ++ (c :: rest).take r.1) ((c :: rest).drop r.1)
    | none => c :: replScanD m repl fuel (pre ++ [c]) rest

/-- `replScanD` with enough fuel, starting with an empty scanned part. -/
def replAllD (m : Str → Option (Nat × α)) (repl : Str) (s : Str) : Str :=
  replScanD m repl s.length [] s

/-- `CustomUploader.extractLocalImagePaths`
(src/src/features/upload.ts:39-49): run the three regex scans in order
(markdown image, inline HTML `img`, wiki embed), trim each capture, keep
the local ones, de-duplicate by insertion order. -/
def extractLocalImagePaths (content : Str) : List Str :=
  let mds := scanAll mdExtractMatch content
  let htmls := scanAll htmlExtractMatch content
  let wikis := scanAll wikiExtractMatch content
  dedupFirst (((mds ++ htmls ++ wikis).map jsTrim).filter isLocalPath)

/-- `CustomUploader.replaceImageLink` (src/src/features/upload.ts:23-29):
three sequential global replaces — markdown and wiki occurrences of the
path become `![](newUrl)`, while an HTML occurrence only has
`<img ... src="path"` replaced by `<img src="newUrl"`, keeping the tag's
tail. -/
def replaceImageLink (content oldPath newUrl : Str) : Str :=
  let c1 := replAllD (mdReplaceMatch oldPath) (str "![](" ++ newUrl ++ str ")") content
  let c2 := replAllD (htmlReplaceMatchU oldPath) (str "<img src=\"" ++ newUrl ++ str "\"") c1
  replAllD (wikiReplaceMatch oldPath) (str "![](" ++ newUrl ++ str ")") c2

/-- `replaceUrlWithRelative` (src/src/features/download.ts:26-33): all
three forms of the url become the wiki embed `![[fileName]]` (the HTML
pattern swallows the whole tag here). -/
def replaceUrlWithRelative (content url fileName : Str) : Str :=
  let c1 := replAllD (mdReplaceMatch url) (str "![[" ++ fileName ++ str "]]") content
  let c2 := replAllD (htmlReplaceMatchD url) (str "![[" ++ fileName ++ str "]]") c1
  replAllD (wikiReplaceMatch url) (str "![[" ++ fileName ++ str "]]") c2

/-! ### Well-formed reference layouts

A text "containing N well-formed image references" is formalised as a
rendering: an interleaving of reference blocks in the three recognized
forms and inert separator text.  The side conditions below keep each
block's syntax well-formed and prevent a reference from bleeding into its
neighbours under the regex scans. -/

/-- One image reference in one of the three recognized forms. -/
inductive RefBlock where
  | md (alt path : Str)
  | htmlTag (mid path post : Str)
  | wiki (path : Str)
deriving DecidableEq

/-- The literal text of one reference. -/
def renderBlock : RefBlock → Str
  | .md alt path => str "![" ++ alt ++ str "](" ++ path ++ str ")"
  | .htmlTag mid path post =>
      str "<img" ++ mid ++ str "src=\"" ++ path ++ str "\"" ++ post ++ str ">"
  | .wiki path => str "![[" ++ path ++ str "]]"

/-- The raw path of one reference. -/
def blockPath : RefBlock → Str
  | .md _ path => path
  | .htmlTag _ path _ => path
  | .wiki path => path

/-- Blocks followed by their separator text. -/
def render : List (RefBlock × Str) → Str
  | [] => []
  | (b, sep) :: rest => renderBlock b ++ sep ++ render rest

/-- A whole document: leading separator text, then the blocks. -/
def renderAll (sep0 : Str) (bs : List (RefBlock × Str)) : Str :=
  sep0 ++ render bs

/-- Characters allowed in an embedded raw path: no regex-delimiter
characters of the three patterns, no whitespace, no `=` (so that `src="`
cannot occur inside a path). -/
def pathChar (c : Char) : Bool :=
  !(['!', '<', '>', '"', '(', ')', '[', ']', '=', ' ', '\t', '\x0b', '\x0c'].contains c) &&
    !isLineTerm c && !isJsWS c

/-- Characters allowed in a markdown alt text. -/
def altChar (c : Char) : Bool :=
  !(['!', '<', '[', ']'].contains c) && !isLineTerm c

/-- Characters allowed in the attribute text of an HTML `img` tag (both
before and after the `src` attribute). -/
def attrChar (c : Char) : Bool :=
  !(['!', '<', '>', '"'].contains c)

/-- Characters allowed in separator text: nothing that can open a
reference (`!`, `<`) and nothing that can complete a markdown tail
(`]`, `(`). -/
def sepChar (c : Char) : Bool :=
  !(['!', '<', ']', '('].contains c)

/-- Well-formedness of one reference block. -/
def goodBlock : RefBlock → Bool
  | .md alt path => alt.all altChar && !path.isEmpty && path.all pathChar
  | .htmlTag mid path post =>
      !mid.isEmpty && mid.all attrChar && post.all attrChar &&
        !path.isEmpty && path.all pathChar
  | .wiki path => !path.isEmpty && path.all pathChar

/-- Well-formedness of the block list: every block good, every separator
inert, and every separator that is followed by another block contains a
line break (so the lazy `.*?` of the markdown pattern cannot reach across
it). -/
def goodBlocks : List (RefBlock × Str) → Bool
  | [] => true
  | [(b, sep)] => goodBlock b && sep.all sepChar
  | (b, sep) :: rest =>
      goodBlock b && sep.all sepChar && sep.contains '\n' && goodBlocks rest

/-- C2 counterexample: a text rendering N = 2 well-formed markdown
references, both with literal raw path `a.png`; extraction returns one
entry, not two — the scan de-duplicates by raw path. -/
theorem c2_counterexample :
    str "![](a.png)\n![](a.png)" =
      renderAll [] [(.md [] (str "a.png"), str "\n"), (.md [] (str "a.png"), [])] ∧
    goodBlocks [(.md [] (str "a.png"), str "\n"), (.md [] (str "a.png"), [])] = true ∧
    extractLocalImagePaths (str "![](a.png)\n![](a.png)") = [str "a.png"] := by
  refine ⟨by decide, by decide, by decide⟩

/-- C5 counterexample: (1) rewriting an HTML-form occurrence for an upload
does not produce the canonical link form `![](r)` — only the tag's
`src` prefix is replaced and the tag remains a tag; (2) rewriting is not
idempotent on every text: on `![![x](p)](p)` a second application with
the same arguments changes the text again. -/
theorem c5_counterexample :
    replaceImageLink (str "<img width=\"5\" src=\"a.png\">") (str "a.png") (str "u") =
      str "<img src=\"u\">" ∧
    str "<img src=\"u\">" ≠ str "![](u)" ∧
    replaceImageLink (replaceImageLink (str "![![x](p)](p)") (str "p") (str "r"))
        (str "p") (str "r") ≠
      replaceImageLink (str "![![x](p)](p)") (str "p") (str "r") := by
  refine ⟨by decide, by decide, by decide⟩

/-! ### Generic scan lemmas -/

theorem all_takeWhile_app (p : Char → Bool) (a : Str) (c : Char) (b : Str)
    (ha : a.all p = true) (hc : p c = false) :
    (a ++ c :: b).takeWhile p = a := by
  induction a with
  | nil => simp [List.takeWhile_cons, hc]
  | cons d a' ih =>
    simp only [List.all_cons, Bool.and_eq_true] at ha
    simp [List.takeWhile_cons, ha.1, ih ha.2]

theorem scanCaps_ext (m : Str → Option (Nat × α))
    (hm : ∀ s r, m s = some r → 1 ≤ r.1) :
    ∀ fuel fuel2 s, s.length ≤ fuel → s.length ≤ fuel2 →
      scanCaps m fuel s = scanCaps m fuel2 s := by
  intro fuel
  induction fuel with
  | zero =>
    intro fuel2 s hs _
    cases s with
    | nil => cases fuel2 <;> rfl
    | cons c r => simp at hs
  | succ f ih =>
    intro fuel2 s hs hs2
    cases s with
    | nil => cases fuel2 <;> rfl
    | cons c rest =>
      obtain ⟨f2, rfl⟩ : ∃ f2, fuel2 = f2 + 1 := by
        cases fuel2 with
        | zero => simp at hs2
        | succ f2 => exact ⟨f2, rfl⟩
      simp only [List.length_cons] at hs hs2
      cases hmatch : m (c :: rest) with
      | none =>
        simp only [scanCaps, hmatch]
        exact ih f2 rest (by omega) (by omega)
      | some r =>
        have h1 : 1 ≤ r.1 := hm _ _ hmatch
        simp only [scanCaps, hmatch]
        refine congrArg _ (ih f2 _ ?_ ?_) <;>
          simp only [List.length_drop, List.length_cons] <;> omega

theorem scanCaps_eq_scanAll (m : Str → Option (Nat × α))
    (hm : ∀ s r, m s = some r → 1 ≤ r.1) (fuel : Nat) (s : Str)
    (h : s.length ≤ fuel) : scanCaps m fuel s = scanAll m s :=
  scanCaps_ext m hm fuel s.length s h le_rfl

theorem scanAll_cons_none (m : Str → Option (Nat × α)) (c : Char) (rest : Str)
    (h : m (c :: rest) = none) :
    scanAll m (c :: rest) = scanAll m rest := by
  show scanCaps m (rest.length + 1) (c :: rest) = _
  simp only [scanCaps, h]
  rfl

theorem scanAll_cons_some (m : Str → Option (Nat × α))
    (hm : ∀ s r, m s = some r → 1 ≤ r.1) (c : Char) (rest : Str) (r : Nat × α)
    (h : m (c :: rest) = some r) :
    scanAll m (c :: rest) = r.2 :: scanAll m ((c :: rest).drop r.1) := by
  show scanCaps m (rest.length + 1) (c :: rest) = _
  simp only [scanCaps, h]
  have h1 : 1 ≤ r.1 := hm _ _ h
  refine congrArg _ (scanCaps_eq_scanAll m hm rest.length _ ?_)
  simp only [List.length_drop, List.length_cons]
  omega

theorem scanAll_skip_pos (m : Str → Option (Nat × α)) (a b : Str)
    (h : ∀ a1 a2, a = a1 ++ a2 → a2 ≠ [] → m (a2 ++ b) = none) :
    scanAll m (a ++ b) = scanAll m b := by
  induction a with
  | nil => rfl
  | cons c a' ih =>
    have h0 := h [] (c :: a') rfl (by simp)
    rw [List.cons_append, scanAll_cons_none m c (a' ++ b) (by simpa using h0)]
    exact ih (fun a1 a2 heq hne => h (c :: a1) a2 (by simp [heq]) hne)

theorem scanAll_skip_char (m : Str → Option (Nat × α)) (P : Char → Bool)
    (hfail : ∀ c t, P c = true → m (c :: t) = none) (a b : Str)
    (ha : a.all P = true) :
    scanAll m (a ++ b) = scanAll m b := by
  refine scanAll_skip_pos m a b ?_
  intro a1 a2 heq hne
  cases a2 with
  | nil => exact absurd rfl hne
  | cons c a2' =>
    have hc : P c = true := by
      have hmem : c ∈ a := by
        rw [heq]
        exact List.mem_append_right _ (List.mem_cons_self c a2')
      exact List.all_eq_true.mp ha c hmem
    simpa using hfail c (a2' ++ b) hc

theorem replScan_ext (m : Str → Option (Nat × α)) (repl : Str)
    (hm : ∀ s r, m s = some r → 1 ≤ r.1) :
    ∀ fuel fuel2 s, s.length ≤ fuel → s.length ≤ fuel2 →
      replScan m repl fuel s = replScan m repl fuel2 s := by
  intro fuel
  induction fuel with
  | zero =>
    intro fuel2 s hs _
    cases s with
    | nil => cases fuel2 <;> rfl
    | cons c r => simp at hs
  | succ f ih =>
    intro fuel2 s hs hs2
    cases s with
    | nil => cases fuel2 <;> rfl
    | cons c rest =>
      obtain ⟨f2, rfl⟩ : ∃ f2, fuel2 = f2 + 1 := by
        cases fuel2 with
        | zero => simp at hs2
        | succ f2 => exact ⟨f2, rfl⟩
      simp only [List.length_cons] at hs hs2
      cases hmatch : m (c :: rest) with
      | none =>
        simp only [replScan, hmatch]
        rw [ih f2 rest (by omega) (by omega)]
      | some r =>
        have h1 : 1 ≤ r.1 := hm _ _ hmatch
        simp only [replScan, hmatch]
        refine congrArg _ (ih f2 _ ?_ ?_) <;>
          simp only [List.length_drop, List.length_cons] <;> omega

theorem replScan_eq_replAll (m : Str → Option (Nat × α)) (repl : Str)
    (hm : ∀ s r, m s = some r → 1 ≤ r.1) (fuel : Nat) (s : Str)
    (h : s.length ≤ fuel) : replScan m repl fuel s = replAll m repl s :=
  replScan_ext m repl hm fuel s.length s h le_rfl

theorem replAll_cons_none (m : Str → Option (Nat × α)) (repl : Str) (c : Char)
    (rest : Str) (h : m (c :: rest) = none) :
    replAll m repl (c :: rest) = c :: replAll m repl rest := by
  show replScan m repl (rest.length + 1) (c :: rest) = _
  simp only [replScan, h]
  rfl

theorem replAll_cons_some (m : Str → Option (Nat × α)) (repl : Str)
    (hm : ∀ s r, m s = some r → 1 ≤ r.1) (c : Char) (rest : Str) (r : Nat × α)
    (h : m (c :: rest) = some r) :
    replAll m repl (c :: rest) = repl ++ replAll m repl ((c :: rest).drop r.1) := by
  show replScan m repl (rest.length + 1) (c :: rest) = _
  simp only [replScan, h]
  have h1 : 1 ≤ r.1 := hm _ _ h
  refine congrArg _ (replScan_eq_replAll m repl hm rest.length _ ?_)
  simp only [List.length_drop, List.length_cons]
  omega

theorem replAll_skip_pos (m : Str → Option (Nat × α)) (repl : Str) (a b : Str)
    (h : ∀ a1 a2, a = a1 ++ a2 → a2 ≠ [] → m (a2 ++ b) = none) :
    replAll m repl (a ++ b) = a ++ replAll m repl b := by
  induction a with
  | nil => rfl
  | cons c a' ih =>
    have h0 := h [] (c :: a') rfl (by simp)
    rw [List.cons_append, replAll_cons_none m repl c (a' ++ b) (by simpa using h0)]
    rw [ih (fun a1 a2 heq hne => h (c :: a1) a2 (by simp [heq]) hne)]
    rfl

theorem replAll_skip_char (m : Str → Option (Nat × α)) (repl : Str) (P : Char → Bool)
    (hfail : ∀ c t, P c = true → m (c :: t) = none) (a b : Str)
    (ha : a.all P = true) :
    replAll m repl (a ++ b) = a ++ replAll m repl b := by
  refine replAll_skip_pos m repl a b ?_
  intro a1 a2 heq hne
  cases a2 with
  | nil => exact absurd rfl hne
  | cons c a2' =>
    have hc : P c = true := by
      have hmem : c ∈ a := by
        rw [heq]
        exact List.mem_append_right _ (List.mem_cons_self c a2')
      exact List.all_eq_true.mp ha c hmem
    simpa using hfail c (a2' ++ b) hc

theorem lazyScan_hit (hit : Str → Option (Nat × α)) (c : Char) (t : Str) (r : Nat × α)
    (h : hit (c :: t) = some r) : lazyScan hit (c :: t) = some r := by
  simp only [lazyScan, h]

theorem lazyScan_none_cons (hit : Str → Option (Nat × α)) (c : Char) (t : Str)
    (h : hit (c :: t) = none) (ht : lazyScan hit t = none) :
    lazyScan hit (c :: t) = none := by
  simp only [lazyScan, h]
  by_cases hterm : isLineTerm c <;> simp [hterm, ht]

theorem lazyScan_term (hit : Str → Option (Nat × α)) (c : Char) (t : Str)
    (h : hit (c :: t) = none) (hterm : isLineTerm c = true) :
    lazyScan hit (c :: t) = none := by
  simp only [lazyScan, h]
  simp [hterm]

theorem lazyScan_shift (hit : Str → Option (Nat × α)) (c : Char) (t : Str)
    (h : hit (c :: t) = none) (hterm : isLineTerm c = false) :
    lazyScan hit (c :: t) = (lazyScan hit t).map (fun r => (r.1 + 1, r.2)) := by
  simp only [lazyScan, h]
  simp [hterm]

/-- Chain the lazy scan over a segment whose characters all make the rest
of the pattern fail; the scan fails as soon as the continuation does
(whether or not the segment contains a line terminator). -/
theorem lazyScan_none_chain (hit : Str → Option (Nat × α)) (P : Char → Bool)
    (hfail : ∀ c t, P c = true → hit (c :: t) = none) (a t : Str)
    (ha : a.all P = true) (hend : lazyScan hit t = none) :
    lazyScan hit (a ++ t) = none := by
  induction a with
  | nil => simpa using hend
  | cons c a' ih =>
    simp only [List.all_cons, Bool.and_eq_true] at ha
    exact lazyScan_none_cons hit c (a' ++ t) (hfail c _ ha.1) (ih ha.2)

/-- Shift the lazy scan over a line-terminator-free segment whose
characters all make the rest of the pattern fail. -/
theorem lazyScan_shift_chain (hit : Str → Option (Nat × α)) (P : Char → Bool)
    (hfail : ∀ c t, P c = true → hit (c :: t) = none) (a t : Str)
    (ha : a.all P = true) (hterm : a.all (fun c => !isLineTerm c) = true) :
    lazyScan hit (a ++ t) = (lazyScan hit t).map (fun r => (r.1 + a.length, r.2)) := by
  induction a with
  | nil =>
    cases h : lazyScan hit t <;> simp [h]
  | cons c a' ih =>
    simp only [List.all_cons, Bool.and_eq_true] at ha hterm
    rw [List.cons_append,
      lazyScan_shift hit c (a' ++ t) (hfail c _ ha.1) (by simpa using hterm.1),
      ih ha.2 hterm.2]
    cases h : lazyScan hit t <;> (simp [h]; try omega)

theorem gBack_hit (hit : Str → Option (Nat × α)) (tl : Str) (j : Nat) (r : Nat × α)
    (h : hit (tl.drop (j + 1)) = some r) :
    gBack hit tl (j + 1) = some (j + 1 + r.1, r.2) := by
  simp only [gBack, h]

theorem gBack_descend (hit : Str → Option (Nat × α)) (tl : Str) (j0 : Nat) :
    ∀ j, j0 ≤ j → (∀ q, j0 < q → q ≤ j → hit (tl.drop q) = none) →
      gBack hit tl j = gBack hit tl j0 := by
  intro j
  induction j with
  | zero =>
    intro hle _
    have h0 : j0 = 0 := Nat.le_zero.mp hle
    rw [h0]
  | succ j' ih =>
    intro hle hfail
    rcases Nat.eq_or_lt_of_le hle with heq | hlt
    · rw [heq]
    · rw [gBack]
      rw [hfail (j' + 1) (by omega) le_rfl]
      exact ih (by omega) (fun q h1 h2 => hfail q h1 (by omega))

theorem gBack_none (hit : Str → Option (Nat × α)) (tl : Str) :
    ∀ j, (∀ q, 1 ≤ q → q ≤ j → hit (tl.drop q) = none) → gBack hit tl j = none := by
  intro j
  induction j with
  | zero => intro _; rfl
  | succ j' ih =>
    intro hfail
    rw [gBack]
    rw [hfail (j' + 1) (by omega) le_rfl]
    exact ih (fun q h1 h2 => hfail q h1 (by omega))

/-! ### Literal spellings and character-class facts -/

theorem str_mdOpen : str "![" = ['!', '['] := rfl

theorem str_mdTail : str "](" = [']', '('] := rfl

theorem str_wikiOpen : str "![[" = ['!', '[', '['] := rfl

theorem str_wikiClose : str "]]" = [']', ']'] := rfl

theorem str_imgOpen : str "<img" = ['<', 'i', 'm', 'g'] := rfl

theorem str_srcOpen : str "src=\"" = ['s', 'r', 'c', '=', '"'] := rfl

theorem str_closeParen : str ")" = [')'] := rfl

theorem pathChar_spec (c : Char) (h : pathChar c = true) :
    c ≠ '!' ∧ c ≠ '<' ∧ c ≠ '>' ∧ c ≠ '"' ∧ c ≠ '(' ∧ c ≠ ')' ∧ c ≠ '[' ∧
      c ≠ ']' ∧ c ≠ '=' ∧ c ≠ ' ' ∧ c ≠ '\t' ∧ c ≠ '\x0b' ∧ c ≠ '\x0c' ∧
      isLineTerm c = false := by
  simp only [pathChar, Bool.and_eq_true, Bool.not_eq_true'] at h
  obtain ⟨⟨h1, h2⟩, h3⟩ := h
  simp only [List.elem_eq_mem, List.mem_cons, List.mem_singleton, Bool.decide_or,
    Bool.or_eq_false_iff, decide_eq_false_iff_not] at h1
  exact ⟨h1.1, h1.2.1, h1.2.2.1, h1.2.2.2.1, h1.2.2.2.2.1, h1.2.2.2.2.2.1,
    h1.2.2.2.2.2.2.1, h1.2.2.2.2.2.2.2.1, h1.2.2.2.2.2.2.2.2.1,
    h1.2.2.2.2.2.2.2.2.2.1, h1.2.2.2.2.2.2.2.2.2.2.1,
    h1.2.2.2.2.2.2.2.2.2.2.2.1, h1.2.2.2.2.2.2.2.2.2.2.2.2.1, h2⟩

theorem altChar_spec (c : Char) (h : altChar c = true) :
    c ≠ '!' ∧ c ≠ '<' ∧ c ≠ '[' ∧ c ≠ ']' ∧ isLineTerm c = false := by
  simp only [altChar, Bool.and_eq_true, Bool.not_eq_true'] at h
  obtain ⟨h1, h2⟩ := h
  simp only [List.elem_eq_mem, List.mem_cons, List.mem_singleton, Bool.decide_or,
    Bool.or_eq_false_iff, decide_eq_false_iff_not] at h1
  exact ⟨h1.1, h1.2.1, h1.2.2.1, h1.2.2.2.1, h2⟩

theorem attrChar_spec (c : Char) (h : attrChar c = true) :
    c ≠ '!' ∧ c ≠ '<' ∧ c ≠ '>' ∧ c ≠ '"' := by
  simp only [attrChar, Bool.not_eq_true'] at h
  simp only [List.elem_eq_mem, List.mem_cons, List.mem_singleton, Bool.decide_or,
    Bool.or_eq_false_iff, decide_eq_false_iff_not] at h
  exact ⟨h.1, h.2.1, h.2.2.1, h.2.2.2.1⟩

theorem sepChar_spec (c : Char) (h : sepChar c = true) :
    c ≠ '!' ∧ c ≠ '<' ∧ c ≠ ']' ∧ c ≠ '(' := by
  simp only [sepChar, Bool.not_eq_true'] at h
  simp only [List.elem_eq_mem, List.mem_cons, List.mem_singleton, Bool.decide_or,
    Bool.or_eq_false_iff, decide_eq_false_iff_not] at h
  exact ⟨h.1, h.2.1, h.2.2.1, h.2.2.2.1⟩

/-! ### Prefix helpers -/

theorem isPre_self_app (a b : Str) : a.isPrefixOf (a ++ b) = true := by
  have h := List.prefix_append a b
  rwa [← List.isPrefixOf_iff_prefix] at h

theorem isPre_app_mono (a b u : Str) (h : a.isPrefixOf u = false) :
    (a ++ b).isPrefixOf u = false := by
  by_contra hc
  simp only [Bool.not_eq_false] at hc
  rw [List.isPrefixOf_iff_prefix] at hc
  have h2 : a <+: u := (List.prefix_append a b).trans hc
  rw [← List.isPrefixOf_iff_prefix] at h2
  simp [h2] at h

theorem isPre_head_ne (d : Char) (l : Str) (c : Char) (t : Str) (h : c ≠ d) :
    ((d :: l).isPrefixOf (c :: t)) = false := by
  simp only [List.isPrefixOf, Bool.and_eq_false_iff]
  left
  simpa using fun h2 => absurd h2.symm h

theorem isPre_second_ne (d e : Char) (l : Str) (c : Char) (t : Str) (h : c ≠ e) :
    ((d :: e :: l).isPrefixOf (d :: c :: t)) = false := by
  simp only [List.isPrefixOf, Bool.and_eq_false_iff]
  right
  left
  simpa using fun h2 => absurd h2.symm h

theorem isPre_cons_same (d : Char) (l u : Str) :
    ((d :: l).isPrefixOf (d :: u)) = l.isPrefixOf u := by
  simp [List.isPrefixOf]

/-- A literally-matched path followed by its terminator never matches
against a different path followed by the same terminator: the paths
differ at some position, and a path character is never the terminator. -/
theorem prefix_path_term_ne (term : Char) (hterm : ∀ c, pathChar c = true → c ≠ term) :
    ∀ (q p v : Str), p.all pathChar = true → q.all pathChar = true → q ≠ p →
      ((p ++ [term]).isPrefixOf (q ++ term :: v)) = false := by
  intro q
  induction q with
  | nil =>
    intro p v hp _ hne
    cases p with
    | nil => exact absurd rfl hne
    | cons a p' =>
      simp only [List.all_cons, Bool.and_eq_true] at hp
      have ha := (pathChar_spec a hp.1)
      exact isPre_head_ne a (p' ++ [term]) term v
        (fun h => absurd h.symm (hterm a hp.1))
  | cons c q' ih =>
    intro p v hp hq hne
    simp only [List.all_cons, Bool.and_eq_true] at hq
    cases p with
    | nil =>
      simpa using isPre_head_ne term [] c (q' ++ term :: v) (hterm c hq.1)
    | cons a p' =>
      simp only [List.all_cons, Bool.and_eq_true] at hp
      by_cases hac : a = c
      · subst hac
        rw [List.cons_append, List.cons_append, isPre_cons_same]
        exact ih p' v hp.2 hq.2 (fun h => hne (by rw [h]))
      · simpa using isPre_head_ne a (p' ++ [term]) c (q' ++ term :: v)
          (fun h => absurd h.symm hac)

/-! ### The markdown matchers at and away from reference positions -/

theorem mdHit_nil : mdHit [] = none := rfl

theorem mdHit_none_head (c : Char) (t : Str) (h : c ≠ ']') : mdHit (c :: t) = none := by
  unfold mdHit
  rw [str_mdTail, isPre_head_ne ']' ['('] c t h]
  rfl

theorem mdHit_none_second (c : Char) (t : Str) (h : c ≠ '(') :
    mdHit (']' :: c :: t) = none := by
  unfold mdHit
  rw [str_mdTail, isPre_second_ne ']' '(' [] c t h]
  rfl

theorem bne_true_of_ne (a b : Char) (h : a ≠ b) : (a != b) = true := by
  simpa using h

theorem pathChar_all_ne_closeParen (path : Str) (hp : path.all pathChar = true) :
    path.all (fun c => c != ')') = true := by
  rw [List.all_eq_true] at hp ⊢
  intro c hc
  exact bne_true_of_ne c ')' (pathChar_spec c (hp c hc)).2.2.2.2.2.1

theorem mdHit_at (path t : Str) (hp : path.all pathChar = true) (hne : path ≠ []) :
    mdHit (']' :: '(' :: (path ++ ')' :: t)) = some (2 + (path.length + 1), path) := by
  unfold mdHit
  have hpre : (str "](").isPrefixOf (']' :: '(' :: (path ++ ')' :: t)) = true := by
    rw [str_mdTail]
    exact isPre_self_app [']', '('] (path ++ ')' :: t)
  rw [hpre]
  simp only [if_true]
  have hdrop : (']' :: '(' :: (path ++ ')' :: t)).drop 2 = path ++ ')' :: t := rfl
  rw [hdrop]
  have hrun : (path ++ ')' :: t).takeWhile (fun c => c != ')') = path :=
    all_takeWhile_app _ path ')' t (pathChar_all_ne_closeParen path hp) (by simp)
  rw [hrun]
  have hempty : path.isEmpty = false := by
    cases path with
    | nil => exact absurd rfl hne
    | cons a p' => rfl
  rw [hempty]
  simp only [Bool.false_eq_true, if_false]
  rw [List.drop_left]
  simp

theorem mdRHit_none_head (p : Str) (c : Char) (t : Str) (h : c ≠ ']') :
    mdRHit p (c :: t) = none := by
  unfold mdRHit
  have : (str "](" ++ p ++ str ")").isPrefixOf (c :: t) = false := by
    rw [str_mdTail]
    have h2 : ([']'] : Str).isPrefixOf (c :: t) = false := isPre_head_ne ']' [] c t h
    have h3 := isPre_app_mono [']'] (['('] ++ p ++ str ")") (c :: t) h2
    simpa using h3
  rw [this]
  simp

theorem mdRHit_none_second (p : Str) (c : Char) (t : Str) (h : c ≠ '(') :
    mdRHit p (']' :: c :: t) = none := by
  unfold mdRHit
  have : (str "](" ++ p ++ str ")").isPrefixOf (']' :: c :: t) = false := by
    rw [str_mdTail]
    have h2 : ([']', '('] : Str).isPrefixOf (']' :: c :: t) = false :=
      isPre_second_ne ']' '(' [] c t h
    have h3 := isPre_app_mono [']', '('] (p ++ str ")") (']' :: c :: t) h2
    simpa using h3
  rw [this]
  simp

theorem mdRHit_at (p t : Str) :
    mdRHit p (']' :: '(' :: (p ++ ')' :: t)) = some (2 + p.length + 1, ()) := by
  unfold mdRHit
  have hpre : (str "](" ++ p ++ str ")").isPrefixOf (']' :: '(' :: (p ++ ')' :: t)) = true := by
    have heq : (']' : Char) :: '(' :: (p ++ ')' :: t) =
        (str "](" ++ p ++ str ")") ++ t := by
      rw [str_mdTail, str_closeParen]
      simp
    rw [heq]
    exact isPre_self_app _ t
  rw [hpre]
  simp

theorem mdRHit_ne (p q t : Str) (hp : p.all pathChar = true)
    (hq : q.all pathChar = true) (hne : q ≠ p) :
    mdRHit p (']' :: '(' :: (q ++ ')' :: t)) = none := by
  unfold mdRHit
  have : (str "](" ++ p ++ str ")").isPrefixOf (']' :: '(' :: (q ++ ')' :: t)) = false := by
    rw [str_mdTail, str_closeParen]
    have heq : ([']', '('] ++ p ++ [')']) = ']' :: '(' :: (p ++ [')']) := by simp
    rw [heq]
    rw [show (']' : Char) :: '(' :: (q ++ ')' :: t) = ']' :: ('(' :: (q ++ ')' :: t)) from rfl]
    rw [isPre_cons_same, isPre_cons_same]
    exact prefix_path_term_ne ')'
      (fun c hc => (pathChar_spec c hc).2.2.2.2.2.1) q p t hp hq hne
  rw [this]
  simp

theorem mdExtractMatch_pos (s : Str) (r : Nat × Str) (h : mdExtractMatch s = some r) :
    1 ≤ r.1 := by
  unfold mdExtractMatch at h
  by_cases hpre : (str "![").isPrefixOf s
  · rw [hpre] at h
    simp only [if_true] at h
    cases hl : lazyScan mdHit (s.drop 2) with
    | none => rw [hl] at h; simp at h
    | some a =>
      rw [hl] at h
      simp only [Option.map_some', Option.some.injEq] at h
      rw [← h]
      omega
  · rw [if_neg hpre] at h
    simp at h

theorem mdExtractMatch_none_head (c : Char) (t : Str) (h : c ≠ '!') :
    mdExtractMatch (c :: t) = none := by
  unfold mdExtractMatch
  rw [str_mdOpen, isPre_head_ne '!' ['['] c t h]
  simp

theorem mdExtract_at_md (alt path t : Str) (halt : alt.all altChar = true)
    (hp : path.all pathChar = true) (hne : path ≠ []) :
    mdExtractMatch ('!' :: '[' :: (alt ++ ']' :: '(' :: (path ++ ')' :: t))) =
      some (2 + (2 + (path.length + 1) + alt.length), path) := by
  unfold mdExtractMatch
  have hpre : (str "![").isPrefixOf
      ('!' :: '[' :: (alt ++ ']' :: '(' :: (path ++ ')' :: t))) = true := by
    rw [str_mdOpen]
    exact isPre_self_app ['!', '['] _
  rw [hpre]
  simp only [if_true, List.drop_succ_cons, List.drop_zero]
  rw [lazyScan_shift_chain mdHit altChar
    (fun c t2 hc => mdHit_none_head c t2 (altChar_spec c hc).2.2.2.1) alt _ halt
    (by
      rw [List.all_eq_true] at halt ⊢
      intro c hc
      simpa using (altChar_spec c (halt c hc)).2.2.2.2)]
  rw [lazyScan_hit mdHit ']' _ _ (mdHit_at path t hp hne)]
  rfl

theorem mdReplaceMatch_pos (p : Str) (s : Str) (r : Nat × Unit)
    (h : mdReplaceMatch p s = some r) : 1 ≤ r.1 := by
  unfold mdReplaceMatch at h
  by_cases hpre : (str "![").isPrefixOf s
  · rw [hpre] at h
    simp only [if_true] at h
    cases hl : lazyScan (mdRHit p) (s.drop 2) with
    | none => rw [hl] at h; simp at h
    | some a =>
      rw [hl] at h
      simp only [Option.map_some', Option.some.injEq] at h
      rw [← h]
      omega
  · rw [if_neg hpre] at h
    simp at h

theorem mdReplaceMatch_none_head (p : Str) (c : Char) (t : Str) (h : c ≠ '!') :
    mdReplaceMatch p (c :: t) = none := by
  unfold mdReplaceMatch
  rw [str_mdOpen, isPre_head_ne '!' ['['] c t h]
  simp

theorem mdReplace_at_md (alt p t : Str) (halt : alt.all altChar = true) :
    mdReplaceMatch p ('!' :: '[' :: (alt ++ ']' :: '(' :: (p ++ ')' :: t))) =
      some (2 + (2 + p.length + 1 + alt.length), ()) := by
  unfold mdReplaceMatch
  have hpre : (str "![").isPrefixOf
      ('!' :: '[' :: (alt ++ ']' :: '(' :: (p ++ ')' :: t))) = true := by
    rw [str_mdOpen]
    exact isPre_self_app ['!', '['] _
  rw [hpre]
  simp only [if_true, List.drop_succ_cons, List.drop_zero]
  rw [lazyScan_shift_chain (mdRHit p) altChar
    (fun c t2 hc => mdRHit_none_head p c t2 (altChar_spec c hc).2.2.2.1) alt _ halt
    (by
      rw [List.all_eq_true] at halt ⊢
      intro c hc
      simpa using (altChar_spec c (halt c hc)).2.2.2.2)]
  rw [lazyScan_hit (mdRHit p) ']' _ _ (mdRHit_at p t)]
  rfl

/-- A separator containing a line break stops the markdown lazy gap: the
hit fails on every separator character, and fails with the scan at the
line break. -/
theorem lazyScan_none_sep (hit : Str → Option (Nat × α))
    (hfail : ∀ c t2, sepChar c = true → hit (c :: t2) = none)
    (sep u : Str) (hsep : sep.all sepChar = true) (hnl : sep.contains '\n' = true) :
    lazyScan hit (sep ++ u) = none := by
  have hmem : '\n' ∈ sep := by simpa using hnl
  obtain ⟨s1, s2, rfl⟩ := List.mem_iff_append.mp hmem
  rw [List.append_assoc, List.cons_append]
  refine lazyScan_none_chain hit sepChar hfail s1 _ ?_ ?_
  · rw [List.all_eq_true] at hsep ⊢
    intro c hc
    exact hsep c (List.mem_append_left _ hc)
  · refine lazyScan_term hit '\n' _ (hfail '\n' _ (by decide)) (by decide)

/-- A separator at the end of the text also stops the lazy gap. -/
theorem lazyScan_none_sepEnd (hit : Str → Option (Nat × α))
    (hfail : ∀ c t2, sepChar c = true → hit (c :: t2) = none)
    (sep : Str) (hsep : sep.all sepChar = true) :
    lazyScan hit (sep ++ []) = none := by
  exact lazyScan_none_chain hit sepChar hfail sep [] hsep rfl

theorem mdHit_short : mdHit [']'] = none := rfl

theorem mdRHit_short (p : Str) : mdRHit p [']'] = none := by
  unfold mdRHit
  have h : (str "](" ++ p ++ str ")").isPrefixOf [']'] = false := by
    rw [str_mdTail]
    have heq : ([']', '('] : Str) ++ p ++ str ")" = ']' :: ('(' :: (p ++ str ")")) := by simp
    rw [heq]
    simp [List.isPrefixOf]
  rw [h]
  simp

/-- The lazy gap scan fails over the body of a wiki embed: nothing in
`[path]]` can complete a markdown tail, and the text that follows cannot
either (it is empty, or starts with a character other than `(` and itself
defeats the scan). -/
theorem lazyScan_none_wikiTail (hit : Str → Option (Nat × α))
    (hhead : ∀ c t2, c ≠ ']' → hit (c :: t2) = none)
    (hsecond : ∀ c t2, c ≠ '(' → hit (']' :: c :: t2) = none)
    (hshort : hit [']'] = none)
    (path w : Str) (hp : path.all pathChar = true)
    (hw : lazyScan hit w = none)
    (hwHead : w = [] ∨ ∃ d w2, w = d :: w2 ∧ d ≠ '(') :
    lazyScan hit ('[' :: (path ++ ']' :: ']' :: w)) = none := by
  have hbody : lazyScan hit (']' :: ']' :: w) = none := by
    refine lazyScan_none_cons hit ']' (']' :: w) (hsecond ']' w (by decide)) ?_
    refine lazyScan_none_cons hit ']' w ?_ hw
    rcases hwHead with h0 | ⟨d, w2, rfl, hd⟩
    · rw [h0]
      exact hshort
    · exact hsecond d w2 hd
  have hpath : lazyScan hit (path ++ ']' :: ']' :: w) = none := by
    refine lazyScan_none_chain hit pathChar
      (fun c t2 hc => hhead c t2 (pathChar_spec c hc).2.2.2.2.2.2.2.1) path _ hp hbody
  exact lazyScan_none_cons hit '[' _ (hhead '[' _ (by decide)) hpath

theorem mdExtractMatch_wiki (path w : Str) (hp : path.all pathChar = true)
    (hw : lazyScan mdHit w = none)
    (hwHead : w = [] ∨ ∃ d w2, w = d :: w2 ∧ d ≠ '(') :
    mdExtractMatch ('!' :: '[' :: ('[' :: (path ++ ']' :: ']' :: w))) = none := by
  unfold mdExtractMatch
  have hpre : (str "![").isPrefixOf ('!' :: '[' :: ('[' :: (path ++ ']' :: ']' :: w))) = true := by
    rw [str_mdOpen]
    exact isPre_self_app ['!', '['] _
  rw [hpre]
  simp only [if_true, List.drop_succ_cons, List.drop_zero]
  rw [lazyScan_none_wikiTail mdHit
    (fun c t2 hc => mdHit_none_head c t2 hc)
    (fun c t2 hc => mdHit_none_second c t2 hc)
    mdHit_short path w hp hw hwHead]
  rfl

theorem mdReplaceMatch_wiki (p : Str) (path w : Str) (hp : path.all pathChar = true)
    (hw : lazyScan (mdRHit p) w = none)
    (hwHead : w = [] ∨ ∃ d w2, w = d :: w2 ∧ d ≠ '(') :
    mdReplaceMatch p ('!' :: '[' :: ('[' :: (path ++ ']' :: ']' :: w))) = none := by
  unfold mdReplaceMatch
  have hpre : (str "![").isPrefixOf ('!' :: '[' :: ('[' :: (path ++ ']' :: ']' :: w))) = true := by
    rw [str_mdOpen]
    exact isPre_self_app ['!', '['] _
  rw [hpre]
  simp only [if_true, List.drop_succ_cons, List.drop_zero]
  rw [lazyScan_none_wikiTail (mdRHit p)
    (fun c t2 hc => mdRHit_none_head p c t2 hc)
    (fun c t2 hc => mdRHit_none_second p c t2 hc)
    (mdRHit_short p) path w hp hw hwHead]
  rfl

/-- The markdown replace matcher fails on a markdown reference whose path
differs from the searched one, provided the lazy gap also dies in the text
that follows. -/
theorem mdReplaceMatch_md_ne (alt q p w : Str) (halt : alt.all altChar = true)
    (hq : q.all pathChar = true) (hp : p.all pathChar = true) (hne : q ≠ p)
    (hw : lazyScan (mdRHit p) w = none) :
    mdReplaceMatch p ('!' :: '[' :: (alt ++ ']' :: '(' :: (q ++ ')' :: w))) = none := by
  unfold mdReplaceMatch
  have hpre : (str "![").isPrefixOf
      ('!' :: '[' :: (alt ++ ']' :: '(' :: (q ++ ')' :: w))) = true := by
    rw [str_mdOpen]
    exact isPre_self_app ['!', '['] _
  rw [hpre]
  simp only [if_true, List.drop_succ_cons, List.drop_zero]
  have hclose : lazyScan (mdRHit p) (')' :: w) = none :=
    lazyScan_none_cons _ ')' w (mdRHit_none_head p ')' w (by decide)) hw
  have hpathScan : lazyScan (mdRHit p) (q ++ ')' :: w) = none :=
    lazyScan_none_chain _ pathChar
      (fun c t2 hc => mdRHit_none_head p c t2 (pathChar_spec c hc).2.2.2.2.2.2.2.1)
      q _ hq hclose
  have hopen : lazyScan (mdRHit p) ('(' :: (q ++ ')' :: w)) = none :=
    lazyScan_none_cons _ '(' _ (mdRHit_none_head p '(' _ (by decide)) hpathScan
  have hbrack : lazyScan (mdRHit p) (']' :: '(' :: (q ++ ')' :: w)) = none :=
    lazyScan_none_cons _ ']' _ (mdRHit_ne p q w hp hq hne) hopen
  rw [lazyScan_none_chain _ altChar
    (fun c t2 hc => mdRHit_none_head p c t2 (altChar_spec c hc).2.2.2.1)
    alt _ halt hbrack]
  rfl

/-! ### Render normalisation and lengths -/

theorem renderBlock_md_eq (alt path t : Str) :
    renderBlock (.md alt path) ++ t =
      '!' :: '[' :: (alt ++ ']' :: '(' :: (path ++ ')' :: t)) := by
  simp [renderBlock, str_mdOpen, str_mdTail, str_closeParen]

theorem renderBlock_wiki_eq (path t : Str) :
    renderBlock (.wiki path) ++ t =
      '!' :: '[' :: ('[' :: (path ++ ']' :: ']' :: t)) := by
  simp [renderBlock, str_wikiOpen, str_wikiClose]

theorem renderBlock_html_eq (mid path post t : Str) :
    renderBlock (.htmlTag mid path post) ++ t =
      '<' :: 'i' :: 'm' :: 'g' ::
        (mid ++ 's' :: 'r' :: 'c' :: '=' :: '"' :: (path ++ '"' :: (post ++ '>' :: t))) := by
  simp [renderBlock, str_imgOpen, str_srcOpen]
  rw [show str "\"" = ['"'] from rfl, show str ">" = ['>'] from rfl]
  simp

theorem renderBlock_md_length (alt path : Str) :
    (renderBlock (.md alt path)).length = 2 + (2 + (path.length + 1) + alt.length) := by
  have h := congrArg List.length (renderBlock_md_eq alt path [])
  simp only [List.append_nil] at h
  rw [h]
  simp only [List.length_cons, List.length_append, List.length_nil]
  omega

theorem renderBlock_wiki_length (path : Str) :
    (renderBlock (.wiki path)).length = 3 + path.length + 2 := by
  have h := congrArg List.length (renderBlock_wiki_eq path [])
  simp only [List.append_nil] at h
  rw [h]
  simp only [List.length_cons, List.length_append, List.length_nil]
  omega

/-! ### Per-form path selectors -/

/-- Path contributed by a block to the markdown-regex scan. -/
def mdPathOf : RefBlock → List Str
  | .md _ path => [path]
  | _ => []

/-- Path contributed by a block to the HTML-regex scan. -/
def htmlPathOf : RefBlock → List Str
  | .htmlTag _ path _ => [path]
  | _ => []

/-- Path contributed by a block to the wiki-regex scan. -/
def wikiPathOf : RefBlock → List Str
  | .wiki path => [path]
  | _ => []

def mdPaths (bs : List (RefBlock × Str)) : List Str :=
  bs.flatMap (fun bp => mdPathOf bp.1)

def htmlPaths (bs : List (RefBlock × Str)) : List Str :=
  bs.flatMap (fun bp => htmlPathOf bp.1)

def wikiPaths (bs : List (RefBlock × Str)) : List Str :=
  bs.flatMap (fun bp => wikiPathOf bp.1)

theorem sepChar_ne_bang (c : Char) (hc : sepChar c = true) : (c != '!') = true :=
  bne_true_of_ne c '!' (sepChar_spec c hc).1

theorem all_ne_bang_of_attr (l : Str) (h : l.all attrChar = true) :
    l.all (fun c => c != '!') = true := by
  rw [List.all_eq_true] at h ⊢
  exact fun c hc => bne_true_of_ne c '!' (attrChar_spec c (h c hc)).1

theorem all_ne_bang_of_path (l : Str) (h : l.all pathChar = true) :
    l.all (fun c => c != '!') = true := by
  rw [List.all_eq_true] at h ⊢
  exact fun c hc => bne_true_of_ne c '!' (pathChar_spec c (h c hc)).1

theorem all_ne_bang_of_sep (l : Str) (h : l.all sepChar = true) :
    l.all (fun c => c != '!') = true := by
  rw [List.all_eq_true] at h ⊢
  exact fun c hc => sepChar_ne_bang c (h c hc)

/-- The characters of a rendered HTML reference followed by a separator:
none of them is `!`. -/
theorem htmlBlock_sep_no_bang (mid path post sep : Str)
    (hmid : mid.all attrChar = true) (hpost : post.all attrChar = true)
    (hp : path.all pathChar = true) (hsep : sep.all sepChar = true) :
    (renderBlock (.htmlTag mid path post) ++ sep).all (fun c => c != '!') = true := by
  have h := renderBlock_html_eq mid path post sep
  rw [h]
  simp only [List.all_cons, List.all_append, Bool.and_eq_true]
  refine ⟨by decide, by decide, by decide, by decide, all_ne_bang_of_attr mid hmid,
    by decide, by decide, by decide, by decide, by decide, all_ne_bang_of_path path hp,
    by decide, all_ne_bang_of_attr post hpost, by decide, all_ne_bang_of_sep sep hsep⟩

/-- Block-plus-separator traversal of the markdown-image scan: a markdown
block yields its path and is consumed whole; HTML and wiki blocks (and the
separator) contribute nothing. -/
theorem mdScan_block (b : RefBlock) (sep u : Str) (hb : goodBlock b = true)
    (hsep : sep.all sepChar = true) (hcross : sep.contains '\n' = true ∨ u = []) :
    scanAll mdExtractMatch (renderBlock b ++ (sep ++ u)) =
      mdPathOf b ++ scanAll mdExtractMatch u := by
  have hsepskip : ∀ v : Str, scanAll mdExtractMatch (sep ++ v) = scanAll mdExtractMatch v := by
    intro v
    exact scanAll_skip_char mdExtractMatch sepChar
      (fun c t hc => mdExtractMatch_none_head c t (sepChar_spec c hc).1) sep v hsep
  cases b with
  | md alt path =>
    simp only [goodBlock, Bool.and_eq_true, Bool.not_eq_true'] at hb
    obtain ⟨⟨halt, hempty⟩, hp⟩ := hb
    have hne : path ≠ [] := by
      cases path with
      | nil => simp at hempty
      | cons a p2 => simp
    rw [renderBlock_md_eq alt path (sep ++ u)]
    have hsucc := mdExtract_at_md alt path (sep ++ u) halt hp hne
    rw [scanAll_cons_some mdExtractMatch mdExtractMatch_pos '!' _ _ hsucc]
    have hdrop : (('!' : Char) :: '[' :: (alt ++ ']' :: '(' :: (path ++ ')' :: (sep ++ u)))).drop
        (2 + (2 + (path.length + 1) + alt.length)) = sep ++ u := by
      rw [← renderBlock_md_eq alt path (sep ++ u), ← renderBlock_md_length alt path]
      exact List.drop_left _ _
    rw [hdrop, hsepskip u]
    rfl
  | htmlTag mid path post =>
    simp only [goodBlock, Bool.and_eq_true, Bool.not_eq_true'] at hb
    obtain ⟨⟨⟨⟨hmid0, hmid⟩, hpost⟩, hpempty⟩, hp⟩ := hb
    rw [← List.append_assoc]
    rw [scanAll_skip_char mdExtractMatch (fun c => c != '!')
      (fun c t hc => mdExtractMatch_none_head c t (by simpa using hc))
      (renderBlock (.htmlTag mid path post) ++ sep) u
      (htmlBlock_sep_no_bang mid path post sep hmid hpost hp hsep)]
    rfl
  | wiki path =>
    simp only [goodBlock, Bool.and_eq_true, Bool.not_eq_true'] at hb
    obtain ⟨hpempty, hp⟩ := hb
    have hw : lazyScan mdHit (sep ++ u) = none := by
      rcases hcross with hnl | hu
      · exact lazyScan_none_sep mdHit
          (fun c t hc => mdHit_none_head c t (sepChar_spec c hc).2.2.1) sep u hsep hnl
      · rw [hu]
        exact lazyScan_none_sepEnd mdHit
          (fun c t hc => mdHit_none_head c t (sepChar_spec c hc).2.2.1) sep hsep
    have hwHead : sep ++ u = [] ∨ ∃ d w2, sep ++ u = d :: w2 ∧ d ≠ '(' := by
      cases hsepc : sep with
      | nil =>
        rcases hcross with hnl | hu
        · rw [hsepc] at hnl
          simp at hnl
        · left
          rw [hu]
          rfl
      | cons c sep2 =>
        right
        refine ⟨c, sep2 ++ u, by simp, ?_⟩
        have hc : sepChar c = true := by
          rw [hsepc] at hsep
          simp only [List.all_cons, Bool.and_eq_true] at hsep
          exact hsep.1
        exact (sepChar_spec c hc).2.2.2
    rw [renderBlock_wiki_eq path (sep ++ u)]
    rw [scanAll_cons_none mdExtractMatch '!' _
      (mdExtractMatch_wiki path (sep ++ u) hp hw hwHead)]
    have hshape : ('[' : Char) :: ('[' :: (path ++ ']' :: ']' :: (sep ++ u))) =
        (('[' :: '[' :: (path ++ ']' :: ']' :: sep)) ++ u : Str) := by
      simp
    rw [hshape]
    rw [scanAll_skip_char mdExtractMatch (fun c => c != '!')
      (fun c t hc => mdExtractMatch_none_head c t (by simpa using hc))
      _ u ?hall]
    · rfl
    case hall =>
      simp only [List.all_cons, List.all_append, Bool.and_eq_true]
      exact ⟨by decide, by decide, all_ne_bang_of_path path hp, by decide, by decide,
        all_ne_bang_of_sep sep hsep⟩

/-! ### The `src="` literal cannot occur except at its genuine position -/

theorem beq_false_of_ne (a b : Char) (h : a ≠ b) : (a == b) = false := by
  simpa using h

theorem srcLit_not_pre_quote (A B : Str) (hA : A.all pathChar = true) :
    (['s', 'r', 'c', '=', '"'] : Str).isPrefixOf (A ++ '"' :: B) = false := by
  cases A with
  | nil => simp [List.isPrefixOf]
  | cons a A1 =>
    cases A1 with
    | nil => simp [List.isPrefixOf]
    | cons b A2 =>
      cases A2 with
      | nil => simp [List.isPrefixOf]
      | cons c2 A3 =>
        cases A3 with
        | nil => simp [List.isPrefixOf]
        | cons d A4 =>
          simp only [List.all_cons, Bool.and_eq_true] at hA
          have hd : ('=' == d) = false :=
            beq_false_of_ne '=' d (fun h => (pathChar_spec d hA.2.2.2.1).2.2.2.2.2.2.2.2.1 h.symm)
          simp [List.isPrefixOf, hd]

theorem srcLit_not_pre_gt (A B : Str) (hA : A.all attrChar = true) :
    (['s', 'r', 'c', '=', '"'] : Str).isPrefixOf (A ++ '>' :: B) = false := by
  cases A with
  | nil => simp [List.isPrefixOf]
  | cons a A1 =>
    cases A1 with
    | nil => simp [List.isPrefixOf]
    | cons b A2 =>
      cases A2 with
      | nil => simp [List.isPrefixOf]
      | cons c2 A3 =>
        cases A3 with
        | nil => simp [List.isPrefixOf]
        | cons d A4 =>
          cases A4 with
          | nil => simp [List.isPrefixOf]
          | cons e A5 =>
            simp only [List.all_cons, Bool.and_eq_true] at hA
            have he : ('"' == e) = false :=
              beq_false_of_ne '"' e (fun h => (attrChar_spec e hA.2.2.2.2.1).2.2.2 h.symm)
            simp [List.isPrefixOf, he]

theorem srcLit_not_pre_midS (M w : Str) (hM : M ≠ []) (hattr : M.all attrChar = true) :
    (['s', 'r', 'c', '=', '"'] : Str).isPrefixOf (M ++ 's' :: w) = false := by
  cases M with
  | nil => exact absurd rfl hM
  | cons a M1 =>
    cases M1 with
    | nil => simp [List.isPrefixOf]
    | cons b M2 =>
      cases M2 with
      | nil => simp [List.isPrefixOf]
      | cons c2 M3 =>
        cases M3 with
        | nil => simp [List.isPrefixOf]
        | cons d M4 =>
          cases M4 with
          | nil => simp [List.isPrefixOf]
          | cons e M5 =>
            simp only [List.all_cons, Bool.and_eq_true] at hattr
            have he : ('"' == e) = false :=
              beq_false_of_ne '"' e (fun h => (attrChar_spec e hattr.2.2.2.2.1).2.2.2 h.symm)
            simp [List.isPrefixOf, he]

theorem srcHit_none_of_not_pre (u : Str)
    (h : (['s', 'r', 'c', '=', '"'] : Str).isPrefixOf u = false) : srcHit u = none := by
  unfold srcHit
  rw [str_srcOpen, h]
  simp

theorem srcHitU_none_of_not_pre (p : Str) (u : Str)
    (h : (['s', 'r', 'c', '=', '"'] : Str).isPrefixOf u = false) : srcHitU p u = none := by
  unfold srcHitU
  have h2 : (str "src=\"" ++ p ++ str "\"").isPrefixOf u = false := by
    rw [str_srcOpen]
    have h3 := isPre_app_mono ['s', 'r', 'c', '=', '"'] (p ++ str "\"") u h
    simpa using h3
  rw [h2]
  simp

theorem srcHitD_none_of_not_pre (p : Str) (u : Str)
    (h : (['s', 'r', 'c', '=', '"'] : Str).isPrefixOf u = false) : srcHitD p u = none := by
  unfold srcHitD
  have h2 : (str "src=\"" ++ p ++ str "\"").isPrefixOf u = false := by
    rw [str_srcOpen]
    have h3 := isPre_app_mono ['s', 'r', 'c', '=', '"'] (p ++ str "\"") u h
    simpa using h3
  rw [h2]
  simp

theorem pathChar_all_run (path : Str) (hp : path.all pathChar = true) :
    path.all (fun c => c != '"' && c != '>') = true := by
  rw [List.all_eq_true] at hp ⊢
  intro c hc
  have hs := pathChar_spec c (hp c hc)
  simp only [Bool.and_eq_true]
  exact ⟨bne_true_of_ne c '"' hs.2.2.2.1, bne_true_of_ne c '>' hs.2.2.1⟩

theorem srcHit_at (path v : Str) (hp : path.all pathChar = true) (hne : path ≠ []) :
    srcHit ('s' :: 'r' :: 'c' :: '=' :: '"' :: (path ++ '"' :: v)) =
      some (5 + (path.length + 1), path) := by
  unfold srcHit
  have hpre : (str "src=\"").isPrefixOf ('s' :: 'r' :: 'c' :: '=' :: '"' :: (path ++ '"' :: v)) = true := by
    rw [str_srcOpen]
    exact isPre_self_app ['s', 'r', 'c', '=', '"'] _
  rw [hpre]
  simp only [if_true, List.drop_succ_cons, List.drop_zero]
  rw [all_takeWhile_app _ path '"' v (pathChar_all_run path hp) (by simp)]
  have hempty : path.isEmpty = false := by
    cases path with
    | nil => exact absurd rfl hne
    | cons a p2 => rfl
  rw [hempty]
  simp only [Bool.false_eq_true, if_false]
  rw [List.drop_left]
  simp

theorem srcHitU_at (p v : Str) :
    srcHitU p ('s' :: 'r' :: 'c' :: '=' :: '"' :: (p ++ '"' :: v)) =
      some (5 + p.length + 1, ()) := by
  unfold srcHitU
  have heq : ('s' : Char) :: 'r' :: 'c' :: '=' :: '"' :: (p ++ '"' :: v) =
      (str "src=\"" ++ p ++ str "\"") ++ v := by
    rw [str_srcOpen, show str "\"" = ['"'] from rfl]
    simp
  rw [heq, isPre_self_app _ v]
  simp

theorem srcHitU_ne (p q v : Str) (hp : p.all pathChar = true)
    (hq : q.all pathChar = true) (hne : q ≠ p) :
    srcHitU p ('s' :: 'r' :: 'c' :: '=' :: '"' :: (q ++ '"' :: v)) = none := by
  unfold srcHitU
  have h : (str "src=\"" ++ p ++ str "\"").isPrefixOf
      ('s' :: 'r' :: 'c' :: '=' :: '"' :: (q ++ '"' :: v)) = false := by
    rw [str_srcOpen, show str "\"" = ['"'] from rfl]
    have heq : (['s', 'r', 'c', '=', '"'] ++ p ++ ['"'] : Str) =
        's' :: 'r' :: 'c' :: '=' :: '"' :: (p ++ ['"']) := by simp
    rw [heq, isPre_cons_same, isPre_cons_same, isPre_cons_same, isPre_cons_same,
      isPre_cons_same]
    exact prefix_path_term_ne '"'
      (fun c hc => (pathChar_spec c hc).2.2.2.1) q p v hp hq hne
  rw [h]
  simp

theorem attrChar_all_ne_gt (post : Str) (hpost : post.all attrChar = true) :
    post.all (fun c => c != '>') = true := by
  rw [List.all_eq_true] at hpost ⊢
  intro c hc
  exact bne_true_of_ne c '>' (attrChar_spec c (hpost c hc)).2.2.1

theorem srcHitD_at (p post t : Str) (hpost : post.all attrChar = true) :
    srcHitD p ('s' :: 'r' :: 'c' :: '=' :: '"' :: (p ++ '"' :: (post ++ '>' :: t))) =
      some (5 + p.length + 1 + post.length + 1, ()) := by
  unfold srcHitD
  have heq : ('s' : Char) :: 'r' :: 'c' :: '=' :: '"' :: (p ++ '"' :: (post ++ '>' :: t)) =
      (str "src=\"" ++ p ++ str "\"") ++ (post ++ '>' :: t) := by
    rw [str_srcOpen, show str "\"" = ['"'] from rfl]
    simp
  have hlen : (str "src=\"" ++ p ++ str "\"").length = 5 + p.length + 1 := by
    rw [str_srcOpen, show str "\"" = ['"'] from rfl]
    simp only [List.length_append, List.length_cons, List.length_nil]
  have h1 : List.drop (5 + p.length + 1)
      ((str "src=\"" ++ p ++ str "\"") ++ (post ++ '>' :: t)) = post ++ '>' :: t := by
    rw [← hlen]
    exact List.drop_left _ _
  have h2 : List.takeWhile (fun c => c != '>') (post ++ '>' :: t) = post :=
    all_takeWhile_app _ post '>' t (attrChar_all_ne_gt post hpost) (by simp)
  have h3 : List.drop post.length (post ++ '>' :: t) = '>' :: t := List.drop_left _ _
  rw [heq, isPre_self_app _ _, if_pos rfl]
  simp only []
  rw [h1, h2, h3]
  simp

theorem srcHitD_ne (p q v : Str) (hp : p.all pathChar = true)
    (hq : q.all pathChar = true) (hne : q ≠ p) :
    srcHitD p ('s' :: 'r' :: 'c' :: '=' :: '"' :: (q ++ '"' :: v)) = none := by
  unfold srcHitD
  have h : (str "src=\"" ++ p ++ str "\"").isPrefixOf
      ('s' :: 'r' :: 'c' :: '=' :: '"' :: (q ++ '"' :: v)) = false := by
    rw [str_srcOpen, show str "\"" = ['"'] from rfl]
    have heq : (['s', 'r', 'c', '=', '"'] ++ p ++ ['"'] : Str) =
        's' :: 'r' :: 'c' :: '=' :: '"' :: (p ++ ['"']) := by simp
    rw [heq, isPre_cons_same, isPre_cons_same, isPre_cons_same, isPre_cons_same,
      isPre_cons_same]
    exact prefix_path_term_ne '"'
      (fun c hc => (pathChar_spec c hc).2.2.2.1) q p v hp hq hne
  rw [h]
  simp

/-- The five-character `src="` literal fails at every offset `1 ≤ i` into
the genuine `src="path"post` region (followed by the closing `>`). -/
theorem srcLit_fails_inside (path post t : Str) (hp : path.all pathChar = true)
    (hpost : post.all attrChar = true) :
    ∀ i, 1 ≤ i → i ≤ 6 + path.length + post.length →
      (['s', 'r', 'c', '=', '"'] : Str).isPrefixOf
        (((['s', 'r', 'c', '=', '"'] ++ path ++ '"' :: post : Str).drop i) ++ '>' :: t) =
        false := by
  intro i h1 h2
  by_cases hi4 : i ≤ 4
  · interval_cases i <;>
      · simp only [List.cons_append, List.nil_append, List.drop_succ_cons, List.drop_zero]
        simp [List.isPrefixOf]
  · by_cases hip : i ≤ 5 + path.length
    · obtain ⟨j, rfl⟩ : ∃ j, i = j + 5 := ⟨i - 5, by omega⟩
      have hle : j ≤ path.length := by omega
      have hstep : ((path ++ '"' :: post : Str)).drop j = path.drop j ++ '"' :: post :=
        List.drop_append_of_le_length hle
      have hdrop : (['s', 'r', 'c', '=', '"'] ++ path ++ '"' :: post : Str).drop (j + 5) =
          path.drop j ++ '"' :: post := by
        rw [List.append_assoc]
        show (path ++ '"' :: post : Str).drop j = _
        exact hstep
      rw [hdrop, List.append_assoc]
      refine srcLit_not_pre_quote (path.drop j) (post ++ '>' :: t) ?_
      rw [List.all_eq_true] at hp ⊢
      exact fun c hc => hp c (List.mem_of_mem_drop hc)
    · obtain ⟨j, rfl⟩ : ∃ j, i = 6 + path.length + j := ⟨i - (6 + path.length), by omega⟩
      have hshape : (['s', 'r', 'c', '=', '"'] ++ path ++ '"' :: post : Str) =
          (['s', 'r', 'c', '=', '"'] ++ path ++ ['"']) ++ post := by simp
      have hlen5 : (['s', 'r', 'c', '=', '"'] ++ path ++ ['"'] : Str).length =
          6 + path.length := by
        simp only [List.length_append, List.length_cons, List.length_nil]
        omega
      have hdrop : (['s', 'r', 'c', '=', '"'] ++ path ++ '"' :: post : Str).drop
          (6 + path.length + j) = post.drop j := by
        rw [hshape, ← hlen5]
        exact List.drop_append j
      rw [hdrop]
      refine srcLit_not_pre_gt (post.drop j) t ?_
      rw [List.all_eq_true] at hpost ⊢
      exact fun c hc => hpost c (List.mem_of_mem_drop hc)

/-! ### The greedy `[^>]+` backtracking over a rendered img tag -/

theorem srcX_shape (path post t : Str) :
    ((['s', 'r', 'c', '=', '"'] ++ path ++ '"' :: post : Str) ++ '>' :: t) =
      's' :: 'r' :: 'c' :: '=' :: '"' :: (path ++ '"' :: (post ++ '>' :: t)) := by
  simp

theorem srcX_length (path post : Str) :
    (['s', 'r', 'c', '=', '"'] ++ path ++ '"' :: post : Str).length =
      6 + path.length + post.length := by
  simp only [List.length_append, List.length_cons, List.length_nil]
  omega

/-- Greedy backtracking lands exactly on the genuine `src="` of a rendered
tag: every longer gap fails (the literal cannot reappear inside
`src="path"post`), and the genuine position is the hit. -/
theorem gBack_html (hit : Str → Option (Nat × α)) (mid path post t : Str)
    (hmid0 : mid ≠ [])
    (hp : path.all pathChar = true) (hpost : post.all attrChar = true)
    (hnone : ∀ u, (['s', 'r', 'c', '=', '"'] : Str).isPrefixOf u = false → hit u = none)
    (r : Nat × α)
    (hgen : hit ((['s', 'r', 'c', '=', '"'] ++ path ++ '"' :: post : Str) ++ '>' :: t) = some r) :
    gBack hit (mid ++ ((['s', 'r', 'c', '=', '"'] ++ path ++ '"' :: post : Str) ++ '>' :: t))
      (mid.length + (6 + path.length + post.length)) = some (mid.length + r.1, r.2) := by
  have hfail : ∀ q, mid.length < q → q ≤ mid.length + (6 + path.length + post.length) →
      hit ((mid ++ ((['s', 'r', 'c', '=', '"'] ++ path ++ '"' :: post : Str) ++ '>' :: t)).drop q) =
        none := by
    intro q hq1 hq2
    obtain ⟨i, rfl⟩ : ∃ i, q = mid.length + i := ⟨q - mid.length, by omega⟩
    have hi1 : 1 ≤ i := by omega
    have hi2 : i ≤ 6 + path.length + post.length := by omega
    have hdrop : (mid ++ ((['s', 'r', 'c', '=', '"'] ++ path ++ '"' :: post : Str) ++ '>' :: t)).drop
        (mid.length + i) =
        (['s', 'r', 'c', '=', '"'] ++ path ++ '"' :: post : Str).drop i ++ '>' :: t := by
      rw [List.drop_append]
      exact List.drop_append_of_le_length (by rw [srcX_length]; omega)
    rw [hdrop]
    exact hnone _ (srcLit_fails_inside path post t hp hpost i hi1 hi2)
  rw [gBack_descend hit _ mid.length _ (by omega) hfail]
  obtain ⟨m, hm⟩ : ∃ m, mid.length = m + 1 := by
    cases hmide : mid with
    | nil => exact absurd hmide hmid0
    | cons a mid2 => exact ⟨mid2.length, by simp⟩
  rw [hm]
  have hdropMid : (mid ++ ((['s', 'r', 'c', '=', '"'] ++ path ++ '"' :: post : Str) ++ '>' :: t)).drop
      (m + 1) = (['s', 'r', 'c', '=', '"'] ++ path ++ '"' :: post : Str) ++ '>' :: t := by
    rw [← hm]
    exact List.drop_left _ _
  rw [gBack_hit hit _ m r (by rw [hdropMid]; exact hgen), ← hm]

/-- Greedy backtracking finds nothing anywhere in a rendered img tag when
even the genuine position fails. -/
theorem gBack_html_none (hit : Str → Option (Nat × α)) (mid path post t : Str)
    (hmid : mid.all attrChar = true)
    (hp : path.all pathChar = true) (hpost : post.all attrChar = true)
    (hnone : ∀ u, (['s', 'r', 'c', '=', '"'] : Str).isPrefixOf u = false → hit u = none)
    (hgen : hit ((['s', 'r', 'c', '=', '"'] ++ path ++ '"' :: post : Str) ++ '>' :: t) = none) :
    gBack hit (mid ++ ((['s', 'r', 'c', '=', '"'] ++ path ++ '"' :: post : Str) ++ '>' :: t))
      (mid.length + (6 + path.length + post.length)) = none := by
  refine gBack_none hit _ _ ?_
  intro q hq1 hq2
  rcases Nat.lt_trichotomy q mid.length with hlt | heq | hgt
  · have hdrop : (mid ++ ((['s', 'r', 'c', '=', '"'] ++ path ++ '"' :: post : Str) ++ '>' :: t)).drop
        q = mid.drop q ++ ((['s', 'r', 'c', '=', '"'] ++ path ++ '"' :: post : Str) ++ '>' :: t) := by
      exact List.drop_append_of_le_length (by omega)
    rw [hdrop]
    refine hnone _ ?_
    have hshape : mid.drop q ++ ((['s', 'r', 'c', '=', '"'] ++ path ++ '"' :: post : Str) ++ '>' :: t) =
        mid.drop q ++ 's' :: ('r' :: 'c' :: '=' :: '"' :: (path ++ '"' :: (post ++ '>' :: t))) := by
      rw [srcX_shape]
    rw [hshape]
    refine srcLit_not_pre_midS (mid.drop q) _ ?_ ?_
    · have hlendrop : (mid.drop q).length = mid.length - q := by simp
      intro hnil
      rw [hnil] at hlendrop
      simp at hlendrop
      omega
    · rw [List.all_eq_true] at hmid ⊢
      exact fun c hc => hmid c (List.mem_of_mem_drop hc)
  · subst heq
    have hdrop : (mid ++ ((['s', 'r', 'c', '=', '"'] ++ path ++ '"' :: post : Str) ++ '>' :: t)).drop
        mid.length = (['s', 'r', 'c', '=', '"'] ++ path ++ '"' :: post : Str) ++ '>' :: t :=
      List.drop_left _ _
    rw [hdrop]
    exact hgen
  · obtain ⟨i, rfl⟩ : ∃ i, q = mid.length + i := ⟨q - mid.length, by omega⟩
    have hi1 : 1 ≤ i := by omega
    have hi2 : i ≤ 6 + path.length + post.length := by omega
    have hdrop : (mid ++ ((['s', 'r', 'c', '=', '"'] ++ path ++ '"' :: post : Str) ++ '>' :: t)).drop
        (mid.length + i) =
        (['s', 'r', 'c', '=', '"'] ++ path ++ '"' :: post : Str).drop i ++ '>' :: t := by
      rw [List.drop_append]
      exact List.drop_append_of_le_length (by rw [srcX_length]; omega)
    rw [hdrop]
    exact hnone _ (srcLit_fails_inside path post t hp hpost i hi1 hi2)

theorem mid_run_all (mid path post : Str) (hmid : mid.all attrChar = true)
    (hp : path.all pathChar = true) (hpost : post.all attrChar = true) :
    (mid ++ (['s', 'r', 'c', '=', '"'] ++ path ++ '"' :: post : Str)).all
      (fun c => c != '>') = true := by
  rw [List.all_eq_true]
  intro c hc
  rcases List.mem_append.mp hc with h | h
  · exact bne_true_of_ne c '>' (attrChar_spec c (List.all_eq_true.mp hmid c h)).2.2.1
  · rcases List.mem_append.mp h with h2 | h2
    · rcases List.mem_append.mp h2 with h3 | h3
      · simp only [List.mem_cons, List.not_mem_nil, or_false] at h3
        rcases h3 with rfl | rfl | rfl | rfl | rfl <;> decide
      · exact bne_true_of_ne c '>' (pathChar_spec c (List.all_eq_true.mp hp c h3)).2.2.1
    · rcases List.mem_cons.mp h2 with rfl | h4
      · decide
      · exact bne_true_of_ne c '>' (attrChar_spec c (List.all_eq_true.mp hpost c h4)).2.2.1

theorem htmlRun_length (mid path post t : Str) (hmid : mid.all attrChar = true)
    (hp : path.all pathChar = true) (hpost : post.all attrChar = true) :
    ((mid ++ ((['s', 'r', 'c', '=', '"'] ++ path ++ '"' :: post : Str) ++ '>' :: t)).takeWhile
      (fun c => c != '>')).length = mid.length + (6 + path.length + post.length) := by
  have hshape : mid ++ ((['s', 'r', 'c', '=', '"'] ++ path ++ '"' :: post : Str) ++ '>' :: t) =
      (mid ++ (['s', 'r', 'c', '=', '"'] ++ path ++ '"' :: post)) ++ '>' :: t := by
    simp
  rw [hshape, all_takeWhile_app _ _ '>' t (mid_run_all mid path post hmid hp hpost) (by simp)]
  simp only [List.length_append, List.length_cons, List.length_nil]
  omega

theorem htmlExtractMatch_pos (s : Str) (r : Nat × Str) (h : htmlExtractMatch s = some r) :
    1 ≤ r.1 := by
  unfold htmlExtractMatch at h
  by_cases hpre : (str "<img").isPrefixOf s
  · rw [hpre] at h
    simp only [if_true] at h
    cases hl : gBack srcHit (s.drop 4) ((s.drop 4).takeWhile (fun c => c != '>')).length with
    | none => rw [hl] at h; simp at h
    | some a =>
      rw [hl] at h
      simp only [Option.map_some', Option.some.injEq] at h
      rw [← h]
      omega
  · rw [if_neg hpre] at h
    simp at h

theorem htmlReplaceMatchU_pos (p : Str) (s : Str) (r : Nat × Unit)
    (h : htmlReplaceMatchU p s = some r) : 1 ≤ r.1 := by
  unfold htmlReplaceMatchU at h
  by_cases hpre : (str "<img").isPrefixOf s
  · rw [hpre] at h
    simp only [if_true] at h
    cases hl : gBack (srcHitU p) (s.drop 4) ((s.drop 4).takeWhile (fun c => c != '>')).length with
    | none => rw [hl] at h; simp at h
    | some a =>
      rw [hl] at h
      simp only [Option.map_some', Option.some.injEq] at h
      rw [← h]
      omega
  · rw [if_neg hpre] at h
    simp at h

theorem htmlReplaceMatchD_pos (p : Str) (s : Str) (r : Nat × Unit)
    (h : htmlReplaceMatchD p s = some r) : 1 ≤ r.1 := by
  unfold htmlReplaceMatchD at h
  by_cases hpre : (str "<img").isPrefixOf s
  · rw [hpre] at h
    simp only [if_true] at h
    cases hl : gBack (srcHitD p) (s.drop 4) ((s.drop 4).takeWhile (fun c => c != '>')).length with
    | none => rw [hl] at h; simp at h
    | some a =>
      rw [hl] at h
      simp only [Option.map_some', Option.some.injEq] at h
      rw [← h]
      omega
  · rw [if_neg hpre] at h
    simp at h

theorem htmlExtractMatch_none_head (c : Char) (t : Str) (h : c ≠ '<') :
    htmlExtractMatch (c :: t) = none := by
  unfold htmlExtractMatch
  rw [str_imgOpen, isPre_head_ne '<' ['i', 'm', 'g'] c t h]
  simp

theorem htmlReplaceMatchU_none_head (p : Str) (c : Char) (t : Str) (h : c ≠ '<') :
    htmlReplaceMatchU p (c :: t) = none := by
  unfold htmlReplaceMatchU
  rw [str_imgOpen, isPre_head_ne '<' ['i', 'm', 'g'] c t h]
  simp

theorem htmlReplaceMatchD_none_head (p : Str) (c : Char) (t : Str) (h : c ≠ '<') :
    htmlReplaceMatchD p (c :: t) = none := by
  unfold htmlReplaceMatchD
  rw [str_imgOpen, isPre_head_ne '<' ['i', 'm', 'g'] c t h]
  simp

theorem htmlTag_shape (mid path post v : Str) :
    renderBlock (.htmlTag mid path post) ++ v =
      ['<', 'i', 'm', 'g'] ++
        (mid ++ ((['s', 'r', 'c', '=', '"'] ++ path ++ '"' :: post : Str) ++ '>' :: v)) := by
  rw [renderBlock_html_eq]
  simp

theorem htmlExtractMatch_at (mid path post v : Str) (hmid : mid.all attrChar = true)
    (hmid0 : mid ≠ []) (hp : path.all pathChar = true) (hpne : path ≠ [])
    (hpost : post.all attrChar = true) :
    htmlExtractMatch (renderBlock (.htmlTag mid path post) ++ v) =
      some (4 + (mid.length + (5 + (path.length + 1))), path) := by
  rw [htmlTag_shape]
  unfold htmlExtractMatch
  rw [str_imgOpen, isPre_self_app ['<', 'i', 'm', 'g'] _, if_pos rfl]
  simp only []
  have hdrop4 : (['<', 'i', 'm', 'g'] ++
      (mid ++ ((['s', 'r', 'c', '=', '"'] ++ path ++ '"' :: post : Str) ++ '>' :: v))).drop 4 =
      mid ++ ((['s', 'r', 'c', '=', '"'] ++ path ++ '"' :: post : Str) ++ '>' :: v) := rfl
  rw [hdrop4, htmlRun_length mid path post v hmid hp hpost]
  rw [gBack_html srcHit mid path post v hmid0 hp hpost
    (fun u hu => srcHit_none_of_not_pre u hu) (5 + (path.length + 1), path)
    (by rw [srcX_shape]; exact srcHit_at path (post ++ '>' :: v) hp hpne)]
  rfl

theorem htmlReplaceMatchU_at (mid p post v : Str) (hmid : mid.all attrChar = true)
    (hmid0 : mid ≠ []) (hp : p.all pathChar = true)
    (hpost : post.all attrChar = true) :
    htmlReplaceMatchU p (renderBlock (.htmlTag mid p post) ++ v) =
      some (4 + (mid.length + (5 + p.length + 1)), ()) := by
  rw [htmlTag_shape]
  unfold htmlReplaceMatchU
  rw [str_imgOpen, isPre_self_app ['<', 'i', 'm', 'g'] _, if_pos rfl]
  simp only []
  have hdrop4 : (['<', 'i', 'm', 'g'] ++
      (mid ++ ((['s', 'r', 'c', '=', '"'] ++ p ++ '"' :: post : Str) ++ '>' :: v))).drop 4 =
      mid ++ ((['s', 'r', 'c', '=', '"'] ++ p ++ '"' :: post : Str) ++ '>' :: v) := rfl
  rw [hdrop4, htmlRun_length mid p post v hmid hp hpost]
  rw [gBack_html (srcHitU p) mid p post v hmid0 hp hpost
    (fun u hu => srcHitU_none_of_not_pre p u hu) (5 + p.length + 1, ())
    (by rw [srcX_shape]; exact srcHitU_at p (post ++ '>' :: v))]
  rfl

theorem htmlReplaceMatchD_at (mid p post v : Str) (hmid : mid.all attrChar = true)
    (hmid0 : mid ≠ []) (hp : p.all pathChar = true)
    (hpost : post.all attrChar = true) :
    htmlReplaceMatchD p (renderBlock (.htmlTag mid p post) ++ v) =
      some (4 + (mid.length + (5 + p.length + 1 + post.length + 1)), ()) := by
  rw [htmlTag_shape]
  unfold htmlReplaceMatchD
  rw [str_imgOpen, isPre_self_app ['<', 'i', 'm', 'g'] _, if_pos rfl]
  simp only []
  have hdrop4 : (['<', 'i', 'm', 'g'] ++
      (mid ++ ((['s', 'r', 'c', '=', '"'] ++ p ++ '"' :: post : Str) ++ '>' :: v))).drop 4 =
      mid ++ ((['s', 'r', 'c', '=', '"'] ++ p ++ '"' :: post : Str) ++ '>' :: v) := rfl
  rw [hdrop4, htmlRun_length mid p post v hmid hp hpost]
  rw [gBack_html (srcHitD p) mid p post v hmid0 hp hpost
    (fun u hu => srcHitD_none_of_not_pre p u hu) (5 + p.length + 1 + post.length + 1, ())
    (by rw [srcX_shape]; exact srcHitD_at p post v hpost)]
  rfl

theorem htmlReplaceMatchU_ne (mid q p post v : Str) (hmid : mid.all attrChar = true)
    (hq : q.all pathChar = true) (hp : p.all pathChar = true)
    (hpost : post.all attrChar = true) (hne : q ≠ p) :
    htmlReplaceMatchU p (renderBlock (.htmlTag mid q post) ++ v) = none := by
  rw [htmlTag_shape]
  unfold htmlReplaceMatchU
  rw [str_imgOpen, isPre_self_app ['<', 'i', 'm', 'g'] _, if_pos rfl]
  simp only []
  have hdrop4 : (['<', 'i', 'm', 'g'] ++
      (mid ++ ((['s', 'r', 'c', '=', '"'] ++ q ++ '"' :: post : Str) ++ '>' :: v))).drop 4 =
      mid ++ ((['s', 'r', 'c', '=', '"'] ++ q ++ '"' :: post : Str) ++ '>' :: v) := rfl
  rw [hdrop4, htmlRun_length mid q post v hmid hq hpost]
  rw [gBack_html_none (srcHitU p) mid q post v hmid hq hpost
    (fun u hu => srcHitU_none_of_not_pre p u hu)
    (by rw [srcX_shape]; exact srcHitU_ne p q (post ++ '>' :: v) hp hq hne)]
  rfl

theorem htmlReplaceMatchD_ne (mid q p post v : Str) (hmid : mid.all attrChar = true)
    (hq : q.all pathChar = true) (hp : p.all pathChar = true)
    (hpost : post.all attrChar = true) (hne : q ≠ p) :
    htmlReplaceMatchD p (renderBlock (.htmlTag mid q post) ++ v) = none := by
  rw [htmlTag_shape]
  unfold htmlReplaceMatchD
  rw [str_imgOpen, isPre_self_app ['<', 'i', 'm', 'g'] _, if_pos rfl]
  simp only []
  have hdrop4 : (['<', 'i', 'm', 'g'] ++
      (mid ++ ((['s', 'r', 'c', '=', '"'] ++ q ++ '"' :: post : Str) ++ '>' :: v))).drop 4 =
      mid ++ ((['s', 'r', 'c', '=', '"'] ++ q ++ '"' :: post : Str) ++ '>' :: v) := rfl
  rw [hdrop4, htmlRun_length mid q post v hmid hq hpost]
  rw [gBack_html_none (srcHitD p) mid q post v hmid hq hpost
    (fun u hu => srcHitD_none_of_not_pre p u hu)
    (by rw [srcX_shape]; exact srcHitD_ne p q (post ++ '>' :: v) hp hq hne)]
  rfl

/-! ### The wiki-embed matchers -/

theorem wikiExtractMatch_pos (s : Str) (r : Nat × Str) (h : wikiExtractMatch s = some r) :
    1 ≤ r.1 := by
  unfold wikiExtractMatch at h
  simp only [] at h
  split_ifs at h
  have h3 := congrArg Prod.fst (Option.some.inj h)
  simp at h3
  omega

theorem wikiExtractMatch_none_head (c : Char) (t : Str) (h : c ≠ '!') :
    wikiExtractMatch (c :: t) = none := by
  unfold wikiExtractMatch
  rw [str_wikiOpen, isPre_head_ne '!' ['[', '['] c t h]
  simp

theorem pathChar_all_ne_rbrack (path : Str) (hp : path.all pathChar = true) :
    path.all (fun c => c != ']') = true := by
  rw [List.all_eq_true] at hp ⊢
  exact fun c hc => bne_true_of_ne c ']' (pathChar_spec c (hp c hc)).2.2.2.2.2.2.2.1

theorem wikiExtractMatch_at (path v : Str) (hp : path.all pathChar = true)
    (hne : path ≠ []) :
    wikiExtractMatch ('!' :: '[' :: '[' :: (path ++ ']' :: ']' :: v)) =
      some (3 + path.length + 2, path) := by
  unfold wikiExtractMatch
  have hpre : (str "![[").isPrefixOf ('!' :: '[' :: '[' :: (path ++ ']' :: ']' :: v)) = true := by
    rw [str_wikiOpen]
    exact isPre_self_app ['!', '[', '['] _
  rw [hpre, if_pos rfl]
  simp only []
  have hdrop3 : (('!' : Char) :: '[' :: '[' :: (path ++ ']' :: ']' :: v)).drop 3 =
      path ++ ']' :: ']' :: v := rfl
  rw [hdrop3, all_takeWhile_app _ path ']' (']' :: v) (pathChar_all_ne_rbrack path hp) (by simp)]
  have hempty : path.isEmpty = false := by
    cases path with
    | nil => exact absurd rfl hne
    | cons a p2 => rfl
  rw [hempty]
  simp only [Bool.false_eq_true, if_false]
  rw [List.drop_left]
  rw [str_wikiClose,
    show ([']', ']'] : Str).isPrefixOf (']' :: ']' :: v) = true from isPre_self_app [']', ']'] v,
    if_pos rfl]

theorem wikiExtractMatch_md (alt w : Str) (halt : alt.all altChar = true) :
    wikiExtractMatch ('!' :: '[' :: (alt ++ ']' :: '(' :: w)) = none := by
  unfold wikiExtractMatch
  have hpre : (str "![[").isPrefixOf ('!' :: '[' :: (alt ++ ']' :: '(' :: w)) = false := by
    rw [str_wikiOpen]
    rw [show (['!', '[', '['] : Str) = '!' :: '[' :: ['['] from rfl]
    rw [isPre_cons_same, isPre_cons_same]
    cases alt with
    | nil => exact isPre_head_ne '[' [] ']' ('(' :: w) (by decide)
    | cons a alt2 =>
      exact isPre_head_ne '[' [] a (alt2 ++ ']' :: '(' :: w)
        (fun hEq => (altChar_spec a (by
          simp only [List.all_cons, Bool.and_eq_true] at halt
          exact halt.1)).2.2.1 hEq)
  rw [hpre]
  simp

theorem wikiReplaceMatch_pos (p : Str) (s : Str) (r : Nat × Unit)
    (h : wikiReplaceMatch p s = some r) : 1 ≤ r.1 := by
  unfold wikiReplaceMatch at h
  split_ifs at h
  have h3 := congrArg Prod.fst (Option.some.inj h)
  simp at h3
  omega

theorem wikiReplaceMatch_none_head (p : Str) (c : Char) (t : Str) (h : c ≠ '!') :
    wikiReplaceMatch p (c :: t) = none := by
  unfold wikiReplaceMatch
  have hpre : (str "![[" ++ p ++ str "]]").isPrefixOf (c :: t) = false := by
    rw [str_wikiOpen]
    have h2 : (['!', '[', '['] : Str).isPrefixOf (c :: t) = false :=
      isPre_head_ne '!' ['[', '['] c t h
    have h3 := isPre_app_mono ['!', '[', '['] (p ++ str "]]") (c :: t) h2
    simpa using h3
  rw [hpre]
  simp

theorem wikiReplaceMatch_at (p v : Str) :
    wikiReplaceMatch p ('!' :: '[' :: '[' :: (p ++ ']' :: ']' :: v)) =
      some (3 + p.length + 2, ()) := by
  unfold wikiReplaceMatch
  have heq : ('!' : Char) :: '[' :: '[' :: (p ++ ']' :: ']' :: v) =
      (str "![[" ++ p ++ str "]]") ++ v := by
    rw [str_wikiOpen, str_wikiClose]
    simp
  rw [heq, isPre_self_app _ v]
  simp

theorem wikiReplaceMatch_wiki_ne (p q v : Str) (hp : p.all pathChar = true)
    (hq : q.all pathChar = true) (hne : q ≠ p) :
    wikiReplaceMatch p ('!' :: '[' :: '[' :: (q ++ ']' :: ']' :: v)) = none := by
  unfold wikiReplaceMatch
  have hpre : (str "![[" ++ p ++ str "]]").isPrefixOf
      ('!' :: '[' :: '[' :: (q ++ ']' :: ']' :: v)) = false := by
    rw [str_wikiOpen, str_wikiClose]
    have heq : ((['!', '[', '['] : Str) ++ p ++ [']', ']']) =
        '!' :: '[' :: '[' :: ((p ++ [']']) ++ [']']) := by simp
    rw [heq]
    rw [show ('!' : Char) :: '[' :: '[' :: (q ++ ']' :: ']' :: v) =
      '!' :: '[' :: '[' :: (q ++ ']' :: ']' :: v) from rfl]
    rw [isPre_cons_same, isPre_cons_same, isPre_cons_same]
    refine isPre_app_mono (p ++ [']']) [']'] _ ?_
    have hshape : q ++ ']' :: ']' :: v = q ++ ']' :: (']' :: v) := rfl
    rw [hshape]
    exact prefix_path_term_ne ']'
      (fun c hc => (pathChar_spec c hc).2.2.2.2.2.2.2.1) q p (']' :: v) hp hq hne
  rw [hpre]
  simp

theorem wikiReplaceMatch_md (p alt w : Str) (halt : alt.all altChar = true) :
    wikiReplaceMatch p ('!' :: '[' :: (alt ++ ']' :: '(' :: w)) = none := by
  unfold wikiReplaceMatch
  have hpre : (str "![[" ++ p ++ str "]]").isPrefixOf
      ('!' :: '[' :: (alt ++ ']' :: '(' :: w)) = false := by
    rw [str_wikiOpen]
    have h2 : (['!', '[', '['] : Str).isPrefixOf ('!' :: '[' :: (alt ++ ']' :: '(' :: w)) = false := by
      rw [show (['!', '[', '['] : Str) = '!' :: '[' :: ['['] from rfl]
      rw [isPre_cons_same, isPre_cons_same]
      cases alt with
      | nil => exact isPre_head_ne '[' [] ']' ('(' :: w) (by decide)
      | cons a alt2 =>
        exact isPre_head_ne '[' [] a (alt2 ++ ']' :: '(' :: w)
          (fun hEq => (altChar_spec a (by
            simp only [List.all_cons, Bool.and_eq_true] at halt
            exact halt.1)).2.2.1 hEq)
    have h3 := isPre_app_mono ['!', '[', '['] (p ++ str "]]") _ h2
    simpa using h3
  rw [hpre]
  simp

/-! ### Block-plus-separator traversal of the three extraction scans -/

theorem mdBlock_sep_all (P : Char → Bool) (alt path sep : Str)
    (hbang : P '!' = true) (hlb : P '[' = true) (hrb : P ']' = true)
    (hlp : P '(' = true) (hrp : P ')' = true)
    (halt : alt.all P = true) (hp : path.all P = true) (hsep : sep.all P = true) :
    (('!' : Char) :: '[' :: (alt ++ ']' :: '(' :: (path ++ ')' :: sep))).all P = true := by
  rw [List.all_eq_true]
  intro c hc
  simp only [List.mem_cons, List.mem_append] at hc
  rcases hc with rfl | rfl | h | rfl | rfl | h | rfl | h
  · exact hbang
  · exact hlb
  · exact List.all_eq_true.mp halt c h
  · exact hrb
  · exact hlp
  · exact List.all_eq_true.mp hp c h
  · exact hrp
  · exact List.all_eq_true.mp hsep c h

theorem wikiBlock_sep_all (P : Char → Bool) (path sep : Str)
    (hbang : P '!' = true) (hlb : P '[' = true) (hrb : P ']' = true)
    (hp : path.all P = true) (hsep : sep.all P = true) :
    (('!' : Char) :: '[' :: ('[' :: (path ++ ']' :: ']' :: sep))).all P = true := by
  rw [List.all_eq_true]
  intro c hc
  simp only [List.mem_cons, List.mem_append] at hc
  rcases hc with rfl | rfl | rfl | h | rfl | rfl | h
  · exact hbang
  · exact hlb
  · exact hlb
  · exact List.all_eq_true.mp hp c h
  · exact hrb
  · exact hrb
  · exact List.all_eq_true.mp hsep c h

theorem altChar_all_P (f : Char → Bool) (l : Str)
    (hf : ∀ c, altChar c = true → f c = true) (h : l.all altChar = true) :
    l.all f = true := by
  rw [List.all_eq_true] at h ⊢
  exact fun c hc => hf c (h c hc)

theorem pathChar_all_P (f : Char → Bool) (l : Str)
    (hf : ∀ c, pathChar c = true → f c = true) (h : l.all pathChar = true) :
    l.all f = true := by
  rw [List.all_eq_true] at h ⊢
  exact fun c hc => hf c (h c hc)

theorem sepChar_all_P (f : Char → Bool) (l : Str)
    (hf : ∀ c, sepChar c = true → f c = true) (h : l.all sepChar = true) :
    l.all f = true := by
  rw [List.all_eq_true] at h ⊢
  exact fun c hc => hf c (h c hc)

theorem attrChar_all_P (f : Char → Bool) (l : Str)
    (hf : ∀ c, attrChar c = true → f c = true) (h : l.all attrChar = true) :
    l.all f = true := by
  rw [List.all_eq_true] at h ⊢
  exact fun c hc => hf c (h c hc)

/-- Traversal of the HTML-image scan over a block and its separator. -/
theorem htmlScan_block (b : RefBlock) (sep u : Str) (hb : goodBlock b = true)
    (hsep : sep.all sepChar = true) :
    scanAll htmlExtractMatch (renderBlock b ++ (sep ++ u)) =
      htmlPathOf b ++ scanAll htmlExtractMatch u := by
  have hltP : ∀ c t, (c != '<') = true → htmlExtractMatch (c :: t) = none :=
    fun c t hc => htmlExtractMatch_none_head c t (by simpa using hc)
  cases b with
  | md alt path =>
    simp only [goodBlock, Bool.and_eq_true, Bool.not_eq_true'] at hb
    obtain ⟨⟨halt, hempty⟩, hp⟩ := hb
    rw [renderBlock_md_eq alt path (sep ++ u)]
    have hshape : ('!' : Char) :: '[' :: (alt ++ ']' :: '(' :: (path ++ ')' :: (sep ++ u))) =
        ('!' :: '[' :: (alt ++ ']' :: '(' :: (path ++ ')' :: sep))) ++ u := by
      simp
    rw [hshape, scanAll_skip_char htmlExtractMatch (fun c => c != '<') hltP _ u
      (mdBlock_sep_all _ alt path sep (by decide) (by decide) (by decide) (by decide)
        (by decide)
        (altChar_all_P _ alt (fun c hc => bne_true_of_ne c '<' (altChar_spec c hc).2.1) halt)
        (pathChar_all_P _ path (fun c hc => bne_true_of_ne c '<' (pathChar_spec c hc).2.1) hp)
        (sepChar_all_P _ sep (fun c hc => bne_true_of_ne c '<' (sepChar_spec c hc).2.1) hsep))]
    rfl
  | htmlTag mid path post =>
    simp only [goodBlock, Bool.and_eq_true, Bool.not_eq_true'] at hb
    obtain ⟨⟨⟨⟨hmid0, hmid⟩, hpost⟩, hpempty⟩, hp⟩ := hb
    have hmidne : mid ≠ [] := by
      cases mid with
      | nil => simp at hmid0
      | cons a m2 => simp
    have hpne : path ≠ [] := by
      cases path with
      | nil => simp at hpempty
      | cons a p2 => simp
    have hsucc := htmlExtractMatch_at mid path post (sep ++ u) hmid hmidne hp hpne hpost
    rw [htmlTag_shape] at hsucc
    have hcons : (['<', 'i', 'm', 'g'] : Str) ++
        (mid ++ ((['s', 'r', 'c', '=', '"'] ++ path ++ '"' :: post : Str) ++ '>' :: (sep ++ u))) =
        '<' :: ('i' :: 'm' :: 'g' ::
          (mid ++ ((['s', 'r', 'c', '=', '"'] ++ path ++ '"' :: post : Str) ++ '>' :: (sep ++ u)))) := rfl
    rw [htmlTag_shape, hcons]
    rw [hcons] at hsucc
    rw [scanAll_cons_some htmlExtractMatch htmlExtractMatch_pos '<' _ _ hsucc]
    have hAshape : ('<' : Char) :: ('i' :: 'm' :: 'g' ::
        (mid ++ ((['s', 'r', 'c', '=', '"'] ++ path ++ '"' :: post : Str) ++ '>' :: (sep ++ u)))) =
        (('<' :: 'i' :: 'm' :: 'g' :: (mid ++ ['s', 'r', 'c', '=', '"'] ++ path ++ ['"'])) : Str) ++
          (post ++ '>' :: (sep ++ u)) := by
      simp
    have hAlen : (('<' : Char) :: 'i' :: 'm' :: 'g' ::
        (mid ++ ['s', 'r', 'c', '=', '"'] ++ path ++ ['"']) : Str).length =
        4 + (mid.length + (5 + (path.length + 1))) := by
      simp only [List.length_cons, List.length_append, List.length_nil]
      omega
    have hdrop : (('<' : Char) :: ('i' :: 'm' :: 'g' ::
        (mid ++ ((['s', 'r', 'c', '=', '"'] ++ path ++ '"' :: post : Str) ++ '>' :: (sep ++ u))))).drop
        (4 + (mid.length + (5 + (path.length + 1)))) = post ++ '>' :: (sep ++ u) := by
      rw [hAshape, ← hAlen]
      exact List.drop_left _ _
    rw [hdrop]
    have hshape2 : post ++ '>' :: (sep ++ u) = (post ++ '>' :: sep) ++ u := by simp
    rw [hshape2, scanAll_skip_char htmlExtractMatch (fun c => c != '<') hltP _ u ?hall]
    · rfl
    case hall =>
      rw [List.all_eq_true]
      intro c hc
      simp only [List.mem_append, List.mem_cons] at hc
      rcases hc with h | rfl | h
      · exact bne_true_of_ne c '<' (attrChar_spec c (List.all_eq_true.mp hpost c h)).2.1
      · decide
      · exact bne_true_of_ne c '<' (sepChar_spec c (List.all_eq_true.mp hsep c h)).2.1
  | wiki path =>
    simp only [goodBlock, Bool.and_eq_true, Bool.not_eq_true'] at hb
    obtain ⟨hpempty, hp⟩ := hb
    rw [renderBlock_wiki_eq path (sep ++ u)]
    have hshape : ('!' : Char) :: '[' :: ('[' :: (path ++ ']' :: ']' :: (sep ++ u))) =
        ('!' :: '[' :: ('[' :: (path ++ ']' :: ']' :: sep))) ++ u := by
      simp
    rw [hshape, scanAll_skip_char htmlExtractMatch (fun c => c != '<') hltP _ u
      (wikiBlock_sep_all _ path sep (by decide) (by decide) (by decide)
        (pathChar_all_P _ path (fun c hc => bne_true_of_ne c '<' (pathChar_spec c hc).2.1) hp)
        (sepChar_all_P _ sep (fun c hc => bne_true_of_ne c '<' (sepChar_spec c hc).2.1) hsep))]
    rfl

/-- Traversal of the wiki-embed scan over a block and its separator. -/
theorem wikiScan_block (b : RefBlock) (sep u : Str) (hb : goodBlock b = true)
    (hsep : sep.all sepChar = true) :
    scanAll wikiExtractMatch (renderBlock b ++ (sep ++ u)) =
      wikiPathOf b ++ scanAll wikiExtractMatch u := by
  have hbangP : ∀ c t, (c != '!') = true → wikiExtractMatch (c :: t) = none :=
    fun c t hc => wikiExtractMatch_none_head c t (by simpa using hc)
  cases b with
  | md alt path =>
    simp only [goodBlock, Bool.and_eq_true, Bool.not_eq_true'] at hb
    obtain ⟨⟨halt, hempty⟩, hp⟩ := hb
    rw [renderBlock_md_eq alt path (sep ++ u)]
    rw [scanAll_cons_none wikiExtractMatch '!' _
      (wikiExtractMatch_md alt (path ++ ')' :: (sep ++ u)) halt)]
    have hshape : ('[' : Char) :: (alt ++ ']' :: '(' :: (path ++ ')' :: (sep ++ u))) =
        ('[' :: (alt ++ ']' :: '(' :: (path ++ ')' :: sep))) ++ u := by
      simp
    rw [hshape, scanAll_skip_char wikiExtractMatch (fun c => c != '!') hbangP _ u ?hall]
    · rfl
    case hall =>
      rw [List.all_eq_true]
      intro c hc
      simp only [List.mem_cons, List.mem_append] at hc
      rcases hc with rfl | h | rfl | rfl | h | rfl | h
      · decide
      · exact bne_true_of_ne c '!' (altChar_spec c (List.all_eq_true.mp halt c h)).1
      · decide
      · decide
      · exact bne_true_of_ne c '!' (pathChar_spec c (List.all_eq_true.mp hp c h)).1
      · decide
      · exact sepChar_ne_bang c (List.all_eq_true.mp hsep c h)
  | htmlTag mid path post =>
    simp only [goodBlock, Bool.and_eq_true, Bool.not_eq_true'] at hb
    obtain ⟨⟨⟨⟨hmid0, hmid⟩, hpost⟩, hpempty⟩, hp⟩ := hb
    rw [← List.append_assoc]
    rw [scanAll_skip_char wikiExtractMatch (fun c => c != '!') hbangP _ u
      (htmlBlock_sep_no_bang mid path post sep hmid hpost hp hsep)]
    rfl
  | wiki path =>
    simp only [goodBlock, Bool.and_eq_true, Bool.not_eq_true'] at hb
    obtain ⟨hpempty, hp⟩ := hb
    have hpne : path ≠ [] := by
      cases path with
      | nil => simp at hpempty
      | cons a p2 => simp
    rw [renderBlock_wiki_eq path (sep ++ u)]
    have hsucc := wikiExtractMatch_at path (sep ++ u) hp hpne
    have hconsForm : ('!' : Char) :: '[' :: ('[' :: (path ++ ']' :: ']' :: (sep ++ u))) =
        '!' :: '[' :: '[' :: (path ++ ']' :: ']' :: (sep ++ u)) := rfl
    rw [hconsForm, scanAll_cons_some wikiExtractMatch wikiExtractMatch_pos '!' _ _ hsucc]
    have hdrop : (('!' : Char) :: '[' :: '[' :: (path ++ ']' :: ']' :: (sep ++ u))).drop
        (3 + path.length + 2) = sep ++ u := by
      have hAshape : ('!' : Char) :: '[' :: '[' :: (path ++ ']' :: ']' :: (sep ++ u)) =
          (('!' :: '[' :: '[' :: (path ++ [']', ']'])) : Str) ++ (sep ++ u) := by simp
      have hAlen : (('!' : Char) :: '[' :: '[' :: (path ++ [']', ']']) : Str).length =
          3 + path.length + 2 := by
        simp only [List.length_cons, List.length_append, List.length_nil]
        omega
      rw [hAshape, ← hAlen]
      exact List.drop_left _ _
    rw [hdrop, scanAll_skip_char wikiExtractMatch (fun c => c != '!') hbangP sep u
      (sepChar_all_P _ sep (fun c hc => sepChar_ne_bang c hc) hsep)]
    rfl

/-! ### Scanning a whole rendering -/

theorem scanRender (m : Str → Option (Nat × Str)) (pathsOf : RefBlock → List Str)
    (hblk : ∀ b sep u, goodBlock b = true → sep.all sepChar = true →
      (sep.contains '\n' = true ∨ u = []) →
      scanAll m (renderBlock b ++ (sep ++ u)) = pathsOf b ++ scanAll m u) :
    ∀ bs, goodBlocks bs = true →
      scanAll m (render bs) = bs.flatMap (fun bp => pathsOf bp.1) := by
  intro bs
  induction bs with
  | nil => intro _; rfl
  | cons hd tl ih =>
    intro hgood
    obtain ⟨b, sep⟩ := hd
    cases tl with
    | nil =>
      simp only [goodBlocks, Bool.and_eq_true] at hgood
      show scanAll m (renderBlock b ++ sep ++ render []) = _
      rw [List.append_assoc, hblk b sep (render []) hgood.1 hgood.2 (Or.inr rfl)]
      show pathsOf b ++ [] = _
      simp
    | cons x xs =>
      simp only [goodBlocks, Bool.and_eq_true] at hgood
      show scanAll m (renderBlock b ++ sep ++ render (x :: xs)) = _
      rw [List.append_assoc,
        hblk b sep (render (x :: xs)) hgood.1.1.1 hgood.1.1.2 (Or.inl hgood.1.2)]
      rw [ih hgood.2]
      simp

theorem scanRenderAll (m : Str → Option (Nat × Str)) (pathsOf : RefBlock → List Str)
    (hskip : ∀ c t, sepChar c = true → m (c :: t) = none)
    (hblk : ∀ b sep u, goodBlock b = true → sep.all sepChar = true →
      (sep.contains '\n' = true ∨ u = []) →
      scanAll m (renderBlock b ++ (sep ++ u)) = pathsOf b ++ scanAll m u)
    (sep0 : Str) (bs : List (RefBlock × Str)) (hsep0 : sep0.all sepChar = true)
    (hgood : goodBlocks bs = true) :
    scanAll m (renderAll sep0 bs) = bs.flatMap (fun bp => pathsOf bp.1) := by
  unfold renderAll
  rw [scanAll_skip_char m sepChar hskip sep0 (render bs) hsep0]
  exact scanRender m pathsOf hblk bs hgood

/-- The three scans of `extractLocalImagePaths` on a rendered document. -/
theorem scans_renderAll (sep0 : Str) (bs : List (RefBlock × Str))
    (hsep0 : sep0.all sepChar = true) (hgood : goodBlocks bs = true) :
    scanAll mdExtractMatch (renderAll sep0 bs) = mdPaths bs ∧
    scanAll htmlExtractMatch (renderAll sep0 bs) = htmlPaths bs ∧
    scanAll wikiExtractMatch (renderAll sep0 bs) = wikiPaths bs := by
  refine ⟨?_, ?_, ?_⟩
  · exact scanRenderAll mdExtractMatch mdPathOf
      (fun c t hc => mdExtractMatch_none_head c t (sepChar_spec c hc).1)
      (fun b sep u hb hsep hcross => mdScan_block b sep u hb hsep hcross)
      sep0 bs hsep0 hgood
  · exact scanRenderAll htmlExtractMatch htmlPathOf
      (fun c t hc => htmlExtractMatch_none_head c t (sepChar_spec c hc).2.1)
      (fun b sep u hb hsep _ => htmlScan_block b sep u hb hsep)
      sep0 bs hsep0 hgood
  · exact scanRenderAll wikiExtractMatch wikiPathOf
      (fun c t hc => wikiExtractMatch_none_head c t (sepChar_spec c hc).1)
      (fun b sep u hb hsep _ => wikiScan_block b sep u hb hsep)
      sep0 bs hsep0 hgood

/-! ### Trim, filter, and de-duplication facts -/

theorem pathChar_not_ws (c : Char) (h : pathChar c = true) : isJsWS c = false := by
  simp only [pathChar, Bool.and_eq_true, Bool.not_eq_true'] at h
  exact h.2

theorem dropWhile_eq_self_of_all (p : Char → Bool) (l : Str)
    (h : l.all (fun c => !p c) = true) : l.dropWhile p = l := by
  cases l with
  | nil => rfl
  | cons c rest =>
    simp only [List.all_cons, Bool.and_eq_true, Bool.not_eq_true'] at h
    simp [List.dropWhile_cons, h.1]

theorem jsTrim_eq_self (l : Str) (h : l.all pathChar = true) : jsTrim l = l := by
  unfold jsTrim
  have hws : l.all (fun c => !isJsWS c) = true := by
    rw [List.all_eq_true] at h ⊢
    intro c hc
    simpa using pathChar_not_ws c (h c hc)
  rw [dropWhile_eq_self_of_all isJsWS l hws]
  have hws2 : l.reverse.all (fun c => !isJsWS c) = true := by
    rw [List.all_eq_true] at hws ⊢
    intro c hc
    exact hws c (List.mem_reverse.mp hc)
  rw [dropWhile_eq_self_of_all isJsWS l.reverse hws2, List.reverse_reverse]

theorem dedupFirst_aux (l : List Str) :
    ∀ acc, (acc ++ l).Nodup →
      l.foldl (fun acc2 p => if acc2.contains p then acc2 else acc2 ++ [p]) acc = acc ++ l := by
  induction l with
  | nil => intro acc _; simp
  | cons p l2 ih =>
    intro acc hnd
    have hp : p ∉ acc := by
      rcases List.nodup_append.mp hnd with ⟨_, _, hdisj⟩
      intro hmem
      exact hdisj hmem (List.mem_cons_self p l2)
    have hcont : acc.contains p = false := by
      rw [← Bool.not_eq_true]
      intro hc
      exact hp (by simpa using hc)
    rw [List.foldl_cons]
    simp only [hcont, Bool.false_eq_true, if_false]
    rw [ih (acc ++ [p]) (by simpa using hnd)]
    simp

theorem dedupFirst_eq_self (l : List Str) (h : l.Nodup) : dedupFirst l = l := by
  unfold dedupFirst
  simpa using dedupFirst_aux l [] (by simpa using h)

/-- All raw paths embedded in a block list, in the order the three scans
report them: first every markdown path, then every HTML `src`, then every
wiki path. -/
def refPaths (bs : List (RefBlock × Str)) : List Str :=
  mdPaths bs ++ htmlPaths bs ++ wikiPaths bs

theorem goodBlocks_mem (bs : List (RefBlock × Str)) (hgood : goodBlocks bs = true) :
    ∀ bp ∈ bs, goodBlock bp.1 = true := by
  induction bs with
  | nil => intro bp h; cases h
  | cons hd tl ih =>
    obtain ⟨b, sep⟩ := hd
    intro bp hbp
    cases tl with
    | nil =>
      simp only [goodBlocks, Bool.and_eq_true] at hgood
      rcases List.mem_cons.mp hbp with rfl | h
      · exact hgood.1
      · cases h
    | cons x xs =>
      simp only [goodBlocks, Bool.and_eq_true] at hgood
      rcases List.mem_cons.mp hbp with rfl | h
      · exact hgood.1.1.1
      · exact ih hgood.2 bp h

theorem ne_nil_of_isEmpty_false (l : Str) (h : l.isEmpty = false) : l ≠ [] := by
  intro he
  subst he
  exact absurd h (by decide)

theorem goodBlock_path_chars (b : RefBlock) (hb : goodBlock b = true) :
    ∀ p ∈ mdPathOf b ++ htmlPathOf b ++ wikiPathOf b,
      p.all pathChar = true ∧ p ≠ [] := by
  intro p hp
  cases b with
  | md alt path =>
    simp only [mdPathOf, htmlPathOf, wikiPathOf, List.append_nil,
      List.mem_singleton] at hp
    subst hp
    simp only [goodBlock, Bool.and_eq_true, Bool.not_eq_true'] at hb
    exact ⟨hb.2, ne_nil_of_isEmpty_false p hb.1.2⟩
  | htmlTag mid path post =>
    simp only [mdPathOf, htmlPathOf, wikiPathOf, List.append_nil,
      List.nil_append, List.mem_singleton] at hp
    subst hp
    simp only [goodBlock, Bool.and_eq_true, Bool.not_eq_true'] at hb
    exact ⟨hb.2, ne_nil_of_isEmpty_false p hb.1.2⟩
  | wiki path =>
    simp only [mdPathOf, htmlPathOf, wikiPathOf, List.nil_append,
      List.mem_singleton] at hp
    subst hp
    simp only [goodBlock, Bool.and_eq_true, Bool.not_eq_true'] at hb
    exact ⟨hb.2, ne_nil_of_isEmpty_false p hb.1⟩

theorem refPaths_chars (bs : List (RefBlock × Str)) (hgood : goodBlocks bs = true) :
    ∀ p ∈ refPaths bs, p.all pathChar = true ∧ p ≠ [] := by
  intro p hp
  have hsome : ∃ bp ∈ bs, p ∈ mdPathOf bp.1 ++ htmlPathOf bp.1 ++ wikiPathOf bp.1 := by
    unfold refPaths mdPaths htmlPaths wikiPaths at hp
    rcases List.mem_append.mp hp with hp' | hw
    · rcases List.mem_append.mp hp' with hm | hh
      · rcases List.mem_flatMap.mp hm with ⟨bp, hbp, hin⟩
        exact ⟨bp, hbp, by simp [List.mem_append, hin]⟩
      · rcases List.mem_flatMap.mp hh with ⟨bp, hbp, hin⟩
        exact ⟨bp, hbp, by simp [List.mem_append, hin]⟩
    · rcases List.mem_flatMap.mp hw with ⟨bp, hbp, hin⟩
      exact ⟨bp, hbp, by simp [List.mem_append, hin]⟩
  rcases hsome with ⟨bp, hbp, hin⟩
  exact goodBlock_path_chars bp.1 (goodBlocks_mem bs hgood bp hbp) p hin

theorem map_id_of_all (f : Str → Str) (l : List Str) (h : ∀ p ∈ l, f p = p) :
    l.map f = l := by
  induction l with
  | nil => rfl
  | cons p t ih =>
    rw [List.map_cons, h p (List.mem_cons_self p t),
      ih (fun q hq => h q (List.mem_cons_of_mem p hq))]

theorem pathsOf_one (b : RefBlock) :
    (mdPathOf b ++ htmlPathOf b ++ wikiPathOf b).length = 1 := by
  cases b <;> rfl

theorem refPaths_length (bs : List (RefBlock × Str)) :
    (refPaths bs).length = bs.length := by
  unfold refPaths mdPaths htmlPaths wikiPaths
  induction bs with
  | nil => rfl
  | cons hd tl ih =>
    simp only [List.flatMap_cons, List.length_append] at ih ⊢
    have h1 := pathsOf_one hd.1
    simp only [List.length_append] at h1
    simp only [List.length_cons]
    omega

/-- C2 (amended): extraction over a rendered document equals the scan-order
raw-path list of the blocks, trimmed away of nothing (paths hold no
whitespace), filtered to the local ones, and de-duplicated by raw path; in
particular, when the N embedded raw paths are pairwise distinct and all
local, extraction returns exactly those N literal paths, in scan order. -/
theorem c2_extract_render (sep0 : Str) (bs : List (RefBlock × Str))
    (hsep0 : sep0.all sepChar = true) (hgood : goodBlocks bs = true) :
    extractLocalImagePaths (renderAll sep0 bs) =
      dedupFirst ((refPaths bs).filter isLocalPath) ∧
    ((refPaths bs).Nodup → (∀ p ∈ refPaths bs, isLocalPath p = true) →
      extractLocalImagePaths (renderAll sep0 bs) = refPaths bs ∧
      (extractLocalImagePaths (renderAll sep0 bs)).length = bs.length) := by
  obtain ⟨hmd, hhtml, hwiki⟩ := scans_renderAll sep0 bs hsep0 hgood
  have hbase : extractLocalImagePaths (renderAll sep0 bs) =
      dedupFirst ((refPaths bs).filter isLocalPath) := by
    unfold extractLocalImagePaths
    simp only []
    rw [hmd, hhtml, hwiki]
    rw [map_id_of_all jsTrim (mdPaths bs ++ htmlPaths bs ++ wikiPaths bs)
      (fun p hp => jsTrim_eq_self p (refPaths_chars bs hgood p hp).1)]
    rfl
  refine ⟨hbase, fun hnd hloc => ?_⟩
  have hfilter : (refPaths bs).filter isLocalPath = refPaths bs :=
    List.filter_eq_self.mpr hloc
  have hfull : extractLocalImagePaths (renderAll sep0 bs) = refPaths bs := by
    rw [hbase, hfilter, dedupFirst_eq_self (refPaths bs) hnd]
  exact ⟨hfull, by rw [hfull, refPaths_length]⟩

/-- Closed instance of the C2 amendment: a document with one reference of
each form. -/
theorem c2_extract_render_witness :
    extractLocalImagePaths (renderAll (str "# t\n")
        [(.md (str "a") (str "x.png"), str "\n"),
         (.htmlTag (str " ") (str "y.png") [], str "\n"),
         (.wiki (str "z.png"), str "\n")]) =
      [str "x.png", str "y.png", str "z.png"] ∧
    (extractLocalImagePaths (renderAll (str "# t\n")
        [(.md (str "a") (str "x.png"), str "\n"),
         (.htmlTag (str " ") (str "y.png") [], str "\n"),
         (.wiki (str "z.png"), str "\n")])).length = 3 := by
  have h := (c2_extract_render (str "# t\n")
      [(.md (str "a") (str "x.png"), str "\n"),
       (.htmlTag (str " ") (str "y.png") [], str "\n"),
       (.wiki (str "z.png"), str "\n")]
      (by decide) (by decide)).2 (by decide) (by decide)
  exact ⟨h.1.trans (by decide), h.2⟩

/-! ### The three replacement passes on rendered documents -/

/-- Effect of the first (markdown) replace pass of `replaceImageLink` on a
block: `![alt](p)` becomes `![](r)`, every other block is untouched. -/
def mdRwU (p r : Str) : RefBlock → RefBlock
  | .md alt q => if q = p then .md [] r else .md alt q
  | b => b

/-- Effect of the first (markdown) replace pass of `replaceUrlWithRelative`
on a block: `![alt](p)` becomes `![[f]]`. -/
def mdRwD (p f : Str) : RefBlock → RefBlock
  | .md alt q => if q = p then .wiki f else .md alt q
  | b => b

/-- Effect of the second (HTML) replace pass of `replaceImageLink` on a
block: `<img …src="p"…>` becomes `<img src="r"…>` — the tag's tail after
the closing quote survives. -/
def htmlRwU (p r : Str) : RefBlock → RefBlock
  | .htmlTag mid q post => if q = p then .htmlTag [' '] r post else .htmlTag mid q post
  | b => b

/-- Effect of the second (HTML) replace pass of `replaceUrlWithRelative`
on a block: the whole `<img …src="p"…>` tag becomes `![[f]]`. -/
def htmlRwD (p f : Str) : RefBlock → RefBlock
  | .htmlTag mid q post => if q = p then .wiki f else .htmlTag mid q post
  | b => b

/-- Effect of the third (wiki) replace pass of `replaceImageLink` on a
block: `![[p]]` becomes `![](r)`. -/
def wikiRwU (p r : Str) : RefBlock → RefBlock
  | .wiki q => if q = p then .md [] r else .wiki q
  | b => b

/-- Effect of the third (wiki) replace pass of `replaceUrlWithRelative`
on a block: `![[p]]` becomes `![[f]]`. -/
def wikiRwD (p f : Str) : RefBlock → RefBlock
  | .wiki q => if q = p then .wiki f else .wiki q
  | b => b

/-- Combined effect of `replaceImageLink content p r` on a block. -/
def rwUpload (p r : Str) : RefBlock → RefBlock
  | .md alt q => if q = p then .md [] r else .md alt q
  | .htmlTag mid q post => if q = p then .htmlTag [' '] r post else .htmlTag mid q post
  | .wiki q => if q = p then .md [] r else .wiki q

/-- Combined effect of `replaceUrlWithRelative content p f` on a block:
every form of the reference becomes the wiki embed `![[f]]`. -/
def rwDownload (p f : Str) : RefBlock → RefBlock
  | .md alt q => if q = p then .wiki f else .md alt q
  | .htmlTag mid q post => if q = p then .wiki f else .htmlTag mid q post
  | .wiki q => if q = p then .wiki f else .wiki q

/-- String each block leaves behind under the markdown replace pass. -/
def mdPassOut (p repl : Str) (b : RefBlock) : Str :=
  match b with
  | .md _ q => if q = p then repl else renderBlock b
  | _ => renderBlock b

/-- String each block leaves behind under the upload HTML replace pass:
the match stops at the closing quote, so `post ++ ">"` survives. -/
def htmlPassOutU (p repl : Str) (b : RefBlock) : Str :=
  match b with
  | .htmlTag _ q post => if q = p then repl ++ (post ++ ['>']) else renderBlock b
  | _ => renderBlock b

/-- String each block leaves behind under the download HTML replace pass:
the match swallows the whole tag. -/
def htmlPassOutD (p repl : Str) (b : RefBlock) : Str :=
  match b with
  | .htmlTag _ q _ => if q = p then repl else renderBlock b
  | _ => renderBlock b

/-- String each block leaves behind under the wiki replace pass. -/
def wikiPassOut (p repl : Str) (b : RefBlock) : Str :=
  match b with
  | .wiki q => if q = p then repl else renderBlock b
  | _ => renderBlock b

/-- Rendering with a custom per-block string. -/
def renderWith (f : RefBlock → Str) : List (RefBlock × Str) → Str
  | [] => []
  | (b, sep) :: rest => f b ++ sep ++ renderWith f rest

theorem replAll_block_skip (m : Str → Option (Nat × α)) (repl : Str) (c : Char)
    (a u : Str) (P : Char → Bool)
    (hfail : ∀ c2 t, P c2 = true → m (c2 :: t) = none)
    (hc : m (c :: (a ++ u)) = none) (ha : a.all P = true) :
    replAll m repl (c :: (a ++ u)) = c :: (a ++ replAll m repl u) := by
  rw [replAll_cons_none m repl c (a ++ u) hc,
    replAll_skip_char m repl P hfail a u ha]

/-- Traversal of the markdown replace pass over one block and its
separator. -/
theorem mdRepl_block (p repl : Str) (hp : p.all pathChar = true)
    (b : RefBlock) (sep u : Str) (hb : goodBlock b = true)
    (hsep : sep.all sepChar = true) (hcross : sep.contains '\n' = true ∨ u = []) :
    replAll (mdReplaceMatch p) repl (renderBlock b ++ (sep ++ u)) =
      mdPassOut p repl b ++ (sep ++ replAll (mdReplaceMatch p) repl u) := by
  have hposM : ∀ s r, mdReplaceMatch p s = some r → 1 ≤ r.1 := mdReplaceMatch_pos p
  have hsepskip : replAll (mdReplaceMatch p) repl (sep ++ u) =
      sep ++ replAll (mdReplaceMatch p) repl u :=
    replAll_skip_char (mdReplaceMatch p) repl sepChar
      (fun c t hc => mdReplaceMatch_none_head p c t (sepChar_spec c hc).1) sep u hsep
  have hw : lazyScan (mdRHit p) (sep ++ u) = none := by
    rcases hcross with hnl | hu
    · exact lazyScan_none_sep (mdRHit p)
        (fun c t hc => mdRHit_none_head p c t (sepChar_spec c hc).2.2.1) sep u hsep hnl
    · rw [hu]
      exact lazyScan_none_sepEnd (mdRHit p)
        (fun c t hc => mdRHit_none_head p c t (sepChar_spec c hc).2.2.1) sep hsep
  cases b with
  | md alt path =>
    simp only [goodBlock, Bool.and_eq_true, Bool.not_eq_true'] at hb
    obtain ⟨⟨halt, hempty⟩, hq⟩ := hb
    by_cases hqp : path = p
    · subst hqp
      rw [renderBlock_md_eq alt path (sep ++ u)]
      have hsucc := mdReplace_at_md alt path (sep ++ u) halt
      rw [replAll_cons_some (mdReplaceMatch path) repl hposM '!' _ _ hsucc]
      have hdrop : (('!' : Char) :: '[' ::
          (alt ++ ']' :: '(' :: (path ++ ')' :: (sep ++ u)))).drop
          (2 + (2 + path.length + 1 + alt.length)) = sep ++ u := by
        rw [← renderBlock_md_eq alt path (sep ++ u)]
        have hlen : 2 + (2 + path.length + 1 + alt.length) =
            (renderBlock (.md alt path)).length := by
          rw [renderBlock_md_length]
          omega
        rw [hlen]
        exact List.drop_left _ _
      rw [hdrop, hsepskip]
      simp [mdPassOut]
    · rw [renderBlock_md_eq alt path (sep ++ u)]
      have hne0 := mdReplaceMatch_md_ne alt path p (sep ++ u) halt hq hp hqp hw
      have hshape : ('!' : Char) :: '[' ::
          (alt ++ ']' :: '(' :: (path ++ ')' :: (sep ++ u))) =
          '!' :: (('[' :: (alt ++ ']' :: '(' :: (path ++ ')' :: sep))) ++ u) := by
        simp
      rw [hshape]
      rw [hshape] at hne0
      rw [replAll_block_skip (mdReplaceMatch p) repl '!' _ u (fun c => c != '!')
        (fun c t hc => mdReplaceMatch_none_head p c t (by simpa using hc)) hne0 ?hall]
      · simp only [mdPassOut, if_neg hqp]
        rw [renderBlock_md_eq alt path (sep ++ replAll (mdReplaceMatch p) repl u)]
        simp
      case hall =>
        rw [List.all_eq_true]
        intro c hc
        simp only [List.mem_cons, List.mem_append] at hc
        rcases hc with rfl | h | rfl | rfl | h | rfl | h
        · decide
        · exact bne_true_of_ne c '!' (altChar_spec c (List.all_eq_true.mp halt c h)).1
        · decide
        · decide
        · exact bne_true_of_ne c '!' (pathChar_spec c (List.all_eq_true.mp hq c h)).1
        · decide
        · exact sepChar_ne_bang c (List.all_eq_true.mp hsep c h)
  | htmlTag mid path post =>
    simp only [goodBlock, Bool.and_eq_true, Bool.not_eq_true'] at hb
    obtain ⟨⟨⟨⟨hmid0, hmid⟩, hpost⟩, hpempty⟩, hq⟩ := hb
    rw [← List.append_assoc]
    rw [replAll_skip_char (mdReplaceMatch p) repl (fun c => c != '!')
      (fun c t hc => mdReplaceMatch_none_head p c t (by simpa using hc))
      (renderBlock (.htmlTag mid path post) ++ sep) u
      (htmlBlock_sep_no_bang mid path post sep hmid hpost hq hsep)]
    simp [mdPassOut]
  | wiki path =>
    simp only [goodBlock, Bool.and_eq_true, Bool.not_eq_true'] at hb
    obtain ⟨hpempty, hq⟩ := hb
    have hwHead : sep ++ u = [] ∨ ∃ d w2, sep ++ u = d :: w2 ∧ d ≠ '(' := by
      cases hsepc : sep with
      | nil =>
        rcases hcross with hnl | hu
        · rw [hsepc] at hnl
          simp at hnl
        · left
          rw [hu]
          rfl
      | cons c sep2 =>
        right
        refine ⟨c, sep2 ++ u, by simp, ?_⟩
        have hc : sepChar c = true := by
          rw [hsepc] at hsep
          simp only [List.all_cons, Bool.and_eq_true] at hsep
          exact hsep.1
        exact (sepChar_spec c hc).2.2.2
    rw [renderBlock_wiki_eq path (sep ++ u)]
    have hne0 := mdReplaceMatch_wiki p path (sep ++ u) hq hw hwHead
    have hshape : ('!' : Char) :: '[' :: ('[' :: (path ++ ']' :: ']' :: (sep ++ u))) =
        '!' :: (('[' :: ('[' :: (path ++ ']' :: ']' :: sep))) ++ u) := by
      simp
    rw [hshape]
    rw [hshape] at hne0
    rw [replAll_block_skip (mdReplaceMatch p) repl '!' _ u (fun c => c != '!')
      (fun c t hc => mdReplaceMatch_none_head p c t (by simpa using hc)) hne0 ?hall2]
    · simp only [wikiPassOut, mdPassOut]
      rw [renderBlock_wiki_eq path (sep ++ replAll (mdReplaceMatch p) repl u)]
      simp
    case hall2 =>
      rw [List.all_eq_true]
      intro c hc
      simp only [List.mem_cons, List.mem_append] at hc
      rcases hc with rfl | rfl | h | rfl | rfl | h
      · decide
      · decide
      · exact bne_true_of_ne c '!' (pathChar_spec c (List.all_eq_true.mp hq c h)).1
      · decide
      · decide
      · exact sepChar_ne_bang c (List.all_eq_true.mp hsep c h)

/-- Traversal of the wiki replace pass over one block and its separator. -/
theorem wikiRepl_block (p repl : Str) (hp : p.all pathChar = true)
    (b : RefBlock) (sep u : Str) (hb : goodBlock b = true)
    (hsep : sep.all sepChar = true) :
    replAll (wikiReplaceMatch p) repl (renderBlock b ++ (sep ++ u)) =
      wikiPassOut p repl b ++ (sep ++ replAll (wikiReplaceMatch p) repl u) := by
  have hposM : ∀ s r, wikiReplaceMatch p s = some r → 1 ≤ r.1 := wikiReplaceMatch_pos p
  have hsepskip : replAll (wikiReplaceMatch p) repl (sep ++ u) =
      sep ++ replAll (wikiReplaceMatch p) repl u :=
    replAll_skip_char (wikiReplaceMatch p) repl sepChar
      (fun c t hc => wikiReplaceMatch_none_head p c t (sepChar_spec c hc).1) sep u hsep
  cases b with
  | md alt path =>
    simp only [goodBlock, Bool.and_eq_true, Bool.not_eq_true'] at hb
    obtain ⟨⟨halt, hempty⟩, hq⟩ := hb
    rw [renderBlock_md_eq alt path (sep ++ u)]
    have hne0 := wikiReplaceMatch_md p alt (path ++ ')' :: (sep ++ u)) halt
    have hshape : ('!' : Char) :: '[' ::
        (alt ++ ']' :: '(' :: (path ++ ')' :: (sep ++ u))) =
        '!' :: (('[' :: (alt ++ ']' :: '(' :: (path ++ ')' :: sep))) ++ u) := by
      simp
    rw [hshape]
    rw [hshape] at hne0
    rw [replAll_block_skip (wikiReplaceMatch p) repl '!' _ u (fun c => c != '!')
      (fun c t hc => wikiReplaceMatch_none_head p c t (by simpa using hc)) hne0 ?hall]
    · simp only [wikiPassOut]
      rw [renderBlock_md_eq alt path (sep ++ replAll (wikiReplaceMatch p) repl u)]
      simp
    case hall =>
      rw [List.all_eq_true]
      intro c hc
      simp only [List.mem_cons, List.mem_append] at hc
      rcases hc with rfl | h | rfl | rfl | h | rfl | h
      · decide
      · exact bne_true_of_ne c '!' (altChar_spec c (List.all_eq_true.mp halt c h)).1
      · decide
      · decide
      · exact bne_true_of_ne c '!' (pathChar_spec c (List.all_eq_true.mp hq c h)).1
      · decide
      · exact sepChar_ne_bang c (List.all_eq_true.mp hsep c h)
  | htmlTag mid path post =>
    simp only [goodBlock, Bool.and_eq_true, Bool.not_eq_true'] at hb
    obtain ⟨⟨⟨⟨hmid0, hmid⟩, hpost⟩, hpempty⟩, hq⟩ := hb
    rw [← List.append_assoc]
    rw [replAll_skip_char (wikiReplaceMatch p) repl (fun c => c != '!')
      (fun c t hc => wikiReplaceMatch_none_head p c t (by simpa using hc))
      (renderBlock (.htmlTag mid path post) ++ sep) u
      (htmlBlock_sep_no_bang mid path post sep hmid hpost hq hsep)]
    simp [wikiPassOut]
  | wiki path =>
    simp only [goodBlock, Bool.and_eq_true, Bool.not_eq_true'] at hb
    obtain ⟨hpempty, hq⟩ := hb
    by_cases hqp : path = p
    · subst hqp
      rw [renderBlock_wiki_eq path (sep ++ u)]
      have hsucc := wikiReplaceMatch_at path (sep ++ u)
      rw [replAll_cons_some (wikiReplaceMatch path) repl hposM '!' _ _ hsucc]
      have hdrop : (('!' : Char) :: '[' :: ('[' :: (path ++ ']' :: ']' :: (sep ++ u)))).drop
          (3 + path.length + 2) = sep ++ u := by
        rw [← renderBlock_wiki_eq path (sep ++ u)]
        have hlen : 3 + path.length + 2 = (renderBlock (.wiki path)).length := by
          rw [renderBlock_wiki_length]
        rw [hlen]
        exact List.drop_left _ _
      rw [hdrop, hsepskip]
      simp [wikiPassOut]
    · rw [renderBlock_wiki_eq path (sep ++ u)]
      have hne0 := wikiReplaceMatch_wiki_ne p path (sep ++ u) hp hq hqp
      have hshape : ('!' : Char) :: '[' :: ('[' :: (path ++ ']' :: ']' :: (sep ++ u))) =
          '!' :: (('[' :: ('[' :: (path ++ ']' :: ']' :: sep))) ++ u) := by
        simp
      rw [hshape]
      rw [hshape] at hne0
      rw [replAll_block_skip (wikiReplaceMatch p) repl '!' _ u (fun c => c != '!')
        (fun c t hc => wikiReplaceMatch_none_head p c t (by simpa using hc)) hne0 ?hall2]
      · simp only [wikiPassOut, if_neg hqp]
        rw [renderBlock_wiki_eq path (sep ++ replAll (wikiReplaceMatch p) repl u)]
        simp
      case hall2 =>
        rw [List.all_eq_true]
        intro c hc
        simp only [List.mem_cons, List.mem_append] at hc
        rcases hc with rfl | rfl | h | rfl | rfl | h
        · decide
        · decide
        · exact bne_true_of_ne c '!' (pathChar_spec c (List.all_eq_true.mp hq c h)).1
        · decide
        · decide
        · exact sepChar_ne_bang c (List.all_eq_true.mp hsep c h)

/-- Tail of a non-matching HTML tag together with the following separator:
no `<` anywhere. -/
theorem htmlTail_no_lt (mid q post sep : Str) (hmid : mid.all attrChar = true)
    (hq : q.all pathChar = true) (hpost : post.all attrChar = true)
    (hsep : sep.all sepChar = true) :
    (('i' : Char) :: 'm' :: 'g' ::
        (mid ++ 's' :: 'r' :: 'c' :: '=' :: '"' ::
          (q ++ '"' :: (post ++ '>' :: sep)))).all (fun c => c != '<') = true := by
  rw [List.all_eq_true]
  intro c hc
  simp only [List.mem_cons, List.mem_append] at hc
  rcases hc with rfl | rfl | rfl | h | rfl | rfl | rfl | rfl | rfl | h | rfl | h | rfl | h
  · decide
  · decide
  · decide
  · exact bne_true_of_ne c '<' (attrChar_spec c (List.all_eq_true.mp hmid c h)).2.1
  · decide
  · decide
  · decide
  · decide
  · decide
  · exact bne_true_of_ne c '<' (pathChar_spec c (List.all_eq_true.mp hq c h)).2.1
  · decide
  · exact bne_true_of_ne c '<' (attrChar_spec c (List.all_eq_true.mp hpost c h)).2.1
  · decide
  · exact bne_true_of_ne c '<' (sepChar_spec c (List.all_eq_true.mp hsep c h)).2.1

/-- Traversal of the upload HTML replace pass over one block and its
separator. -/
theorem htmlReplU_block (p repl : Str) (hp : p.all pathChar = true)
    (b : RefBlock) (sep u : Str) (hb : goodBlock b = true)
    (hsep : sep.all sepChar = true) :
    replAll (htmlReplaceMatchU p) repl (renderBlock b ++ (sep ++ u)) =
      htmlPassOutU p repl b ++ (sep ++ replAll (htmlReplaceMatchU p) repl u) := by
  have hposM : ∀ s r, htmlReplaceMatchU p s = some r → 1 ≤ r.1 := htmlReplaceMatchU_pos p
  have hltP : ∀ c t, (c != '<') = true → htmlReplaceMatchU p (c :: t) = none :=
    fun c t hc => htmlReplaceMatchU_none_head p c t (by simpa using hc)
  cases b with
  | md alt path =>
    simp only [goodBlock, Bool.and_eq_true, Bool.not_eq_true'] at hb
    obtain ⟨⟨halt, hempty⟩, hq⟩ := hb
    rw [renderBlock_md_eq alt path (sep ++ u)]
    have hshape : ('!' : Char) :: '[' :: (alt ++ ']' :: '(' :: (path ++ ')' :: (sep ++ u))) =
        ('!' :: '[' :: (alt ++ ']' :: '(' :: (path ++ ')' :: sep))) ++ u := by
      simp
    rw [hshape, replAll_skip_char (htmlReplaceMatchU p) repl (fun c => c != '<') hltP _ u
      (mdBlock_sep_all _ alt path sep (by decide) (by decide) (by decide) (by decide)
        (by decide)
        (altChar_all_P _ alt (fun c hc => bne_true_of_ne c '<' (altChar_spec c hc).2.1) halt)
        (pathChar_all_P _ path (fun c hc => bne_true_of_ne c '<' (pathChar_spec c hc).2.1) hq)
        (sepChar_all_P _ sep (fun c hc => bne_true_of_ne c '<' (sepChar_spec c hc).2.1) hsep))]
    simp only [htmlPassOutU]
    rw [renderBlock_md_eq alt path (sep ++ replAll (htmlReplaceMatchU p) repl u)]
    simp
  | htmlTag mid path post =>
    simp only [goodBlock, Bool.and_eq_true, Bool.not_eq_true'] at hb
    obtain ⟨⟨⟨⟨hmid0, hmid⟩, hpost⟩, hpempty⟩, hq⟩ := hb
    have hmidne : mid ≠ [] := ne_nil_of_isEmpty_false mid hmid0
    by_cases hqp : path = p
    · subst hqp
      have hsucc := htmlReplaceMatchU_at mid path post (sep ++ u) hmid hmidne hq hpost
      rw [renderBlock_html_eq mid path post (sep ++ u)] at hsucc ⊢
      rw [replAll_cons_some (htmlReplaceMatchU path) repl hposM '<' _ _ hsucc]
      have hAshape : ('<' : Char) :: 'i' :: 'm' :: 'g' ::
          (mid ++ 's' :: 'r' :: 'c' :: '=' :: '"' ::
            (path ++ '"' :: (post ++ '>' :: (sep ++ u)))) =
          (('<' :: 'i' :: 'm' :: 'g' ::
            (mid ++ ['s', 'r', 'c', '=', '"'] ++ path ++ ['"'])) : Str) ++
            (post ++ '>' :: (sep ++ u)) := by
        simp
      have hAlen : (('<' : Char) :: 'i' :: 'm' :: 'g' ::
          (mid ++ ['s', 'r', 'c', '=', '"'] ++ path ++ ['"']) : Str).length =
          4 + (mid.length + (5 + path.length + 1)) := by
        simp only [List.length_cons, List.length_append, List.length_nil]
        omega
      have hdrop : (('<' : Char) :: 'i' :: 'm' :: 'g' ::
          (mid ++ 's' :: 'r' :: 'c' :: '=' :: '"' ::
            (path ++ '"' :: (post ++ '>' :: (sep ++ u))))).drop
          (4 + (mid.length + (5 + path.length + 1))) = post ++ '>' :: (sep ++ u) := by
        rw [hAshape, ← hAlen]
        exact List.drop_left _ _
      rw [hdrop]
      have hshape2 : post ++ '>' :: (sep ++ u) = (post ++ '>' :: sep) ++ u := by simp
      rw [hshape2, replAll_skip_char (htmlReplaceMatchU path) repl (fun c => c != '<')
        hltP _ u ?hall]
      · simp only [htmlPassOutU, if_pos rfl]
        simp
      case hall =>
        rw [List.all_eq_true]
        intro c hc
        simp only [List.mem_append, List.mem_cons] at hc
        rcases hc with h | rfl | h
        · exact bne_true_of_ne c '<' (attrChar_spec c (List.all_eq_true.mp hpost c h)).2.1
        · decide
        · exact bne_true_of_ne c '<' (sepChar_spec c (List.all_eq_true.mp hsep c h)).2.1
    · have hne0 := htmlReplaceMatchU_ne mid path p post (sep ++ u) hmid hq hp hpost hqp
      rw [renderBlock_html_eq mid path post (sep ++ u)] at hne0 ⊢
      have hshape : ('<' : Char) :: 'i' :: 'm' :: 'g' ::
          (mid ++ 's' :: 'r' :: 'c' :: '=' :: '"' ::
            (path ++ '"' :: (post ++ '>' :: (sep ++ u)))) =
          '<' :: ((('i' : Char) :: 'm' :: 'g' ::
            (mid ++ 's' :: 'r' :: 'c' :: '=' :: '"' ::
              (path ++ '"' :: (post ++ '>' :: sep)))) ++ u) := by
        simp
      rw [hshape]
      rw [hshape] at hne0
      rw [replAll_block_skip (htmlReplaceMatchU p) repl '<' _ u (fun c => c != '<')
        hltP hne0 (htmlTail_no_lt mid path post sep hmid hq hpost hsep)]
      simp only [htmlPassOutU, if_neg hqp]
      rw [renderBlock_html_eq mid path post (sep ++ replAll (htmlReplaceMatchU p) repl u)]
      simp
  | wiki path =>
    simp only [goodBlock, Bool.and_eq_true, Bool.not_eq_true'] at hb
    obtain ⟨hpempty, hq⟩ := hb
    rw [renderBlock_wiki_eq path (sep ++ u)]
    have hshape : ('!' : Char) :: '[' :: ('[' :: (path ++ ']' :: ']' :: (sep ++ u))) =
        ('!' :: '[' :: ('[' :: (path ++ ']' :: ']' :: sep))) ++ u := by
      simp
    rw [hshape, replAll_skip_char (htmlReplaceMatchU p) repl (fun c => c != '<') hltP _ u
      (wikiBlock_sep_all _ path sep (by decide) (by decide) (by decide)
        (pathChar_all_P _ path (fun c hc => bne_true_of_ne c '<' (pathChar_spec c hc).2.1) hq)
        (sepChar_all_P _ sep (fun c hc => bne_true_of_ne c '<' (sepChar_spec c hc).2.1) hsep))]
    simp only [htmlPassOutU]
    rw [renderBlock_wiki_eq path (sep ++ replAll (htmlReplaceMatchU p) repl u)]
    simp

/-- Traversal of the download HTML replace pass over one block and its
separator. -/
theorem htmlReplD_block (p repl : Str) (hp : p.all pathChar = true)
    (b : RefBlock) (sep u : Str) (hb : goodBlock b = true)
    (hsep : sep.all sepChar = true) :
    replAll (htmlReplaceMatchD p) repl (renderBlock b ++ (sep ++ u)) =
      htmlPassOutD p repl b ++ (sep ++ replAll (htmlReplaceMatchD p) repl u) := by
  have hposM : ∀ s r, htmlReplaceMatchD p s = some r → 1 ≤ r.1 := htmlReplaceMatchD_pos p
  have hltP : ∀ c t, (c != '<') = true → htmlReplaceMatchD p (c :: t) = none :=
    fun c t hc => htmlReplaceMatchD_none_head p c t (by simpa using hc)
  cases b with
  | md alt path =>
    simp only [goodBlock, Bool.and_eq_true, Bool.not_eq_true'] at hb
    obtain ⟨⟨halt, hempty⟩, hq⟩ := hb
    rw [renderBlock_md_eq alt path (sep ++ u)]
    have hshape : ('!' : Char) :: '[' :: (alt ++ ']' :: '(' :: (path ++ ')' :: (sep ++ u))) =
        ('!' :: '[' :: (alt ++ ']' :: '(' :: (path ++ ')' :: sep))) ++ u := by
      simp
    rw [hshape, replAll_skip_char (htmlReplaceMatchD p) repl (fun c => c != '<') hltP _ u
      (mdBlock_sep_all _ alt path sep (by decide) (by decide) (by decide) (by decide)
        (by decide)
        (altChar_all_P _ alt (fun c hc => bne_true_of_ne c '<' (altChar_spec c hc).2.1) halt)
        (pathChar_all_P _ path (fun c hc => bne_true_of_ne c '<' (pathChar_spec c hc).2.1) hq)
        (sepChar_all_P _ sep (fun c hc => bne_true_of_ne c '<' (sepChar_spec c hc).2.1) hsep))]
    simp only [htmlPassOutD]
    rw [renderBlock_md_eq alt path (sep ++ replAll (htmlReplaceMatchD p) repl u)]
    simp
  | htmlTag mid path post =>
    simp only [goodBlock, Bool.and_eq_true, Bool.not_eq_true'] at hb
    obtain ⟨⟨⟨⟨hmid0, hmid⟩, hpost⟩, hpempty⟩, hq⟩ := hb
    have hmidne : mid ≠ [] := ne_nil_of_isEmpty_false mid hmid0
    by_cases hqp : path = p
    · subst hqp
      have hsucc := htmlReplaceMatchD_at mid path post (sep ++ u) hmid hmidne hq hpost
      rw [renderBlock_html_eq mid path post (sep ++ u)] at hsucc ⊢
      rw [replAll_cons_some (htmlReplaceMatchD path) repl hposM '<' _ _ hsucc]
      have hAshape : ('<' : Char) :: 'i' :: 'm' :: 'g' ::
          (mid ++ 's' :: 'r' :: 'c' :: '=' :: '"' ::
            (path ++ '"' :: (post ++ '>' :: (sep ++ u)))) =
          (('<' :: 'i' :: 'm' :: 'g' ::
            (mid ++ ['s', 'r', 'c', '=', '"'] ++ path ++ '"' :: (post ++ ['>']))) : Str) ++
            (sep ++ u) := by
        simp
      have hAlen : (('<' : Char) :: 'i' :: 'm' :: 'g' ::
          (mid ++ ['s', 'r', 'c', '=', '"'] ++ path ++ '"' :: (post ++ ['>'])) : Str).length =
          4 + (mid.length + (5 + path.length + 1 + post.length + 1)) := by
        simp only [List.length_cons, List.length_append, List.length_nil]
        omega
      have hdrop : (('<' : Char) :: 'i' :: 'm' :: 'g' ::
          (mid ++ 's' :: 'r' :: 'c' :: '=' :: '"' ::
            (path ++ '"' :: (post ++ '>' :: (sep ++ u))))).drop
          (4 + (mid.length + (5 + path.length + 1 + post.length + 1))) = sep ++ u := by
        rw [hAshape, ← hAlen]
        exact List.drop_left _ _
      rw [hdrop]
      rw [replAll_skip_char (htmlReplaceMatchD path) repl sepChar
        (fun c t hc => htmlReplaceMatchD_none_head path c t (sepChar_spec c hc).2.1) sep u hsep]
      simp [htmlPassOutD]
    · have hne0 := htmlReplaceMatchD_ne mid path p post (sep ++ u) hmid hq hp hpost hqp
      rw [renderBlock_html_eq mid path post (sep ++ u)] at hne0 ⊢
      have hshape : ('<' : Char) :: 'i' :: 'm' :: 'g' ::
          (mid ++ 's' :: 'r' :: 'c' :: '=' :: '"' ::
            (path ++ '"' :: (post ++ '>' :: (sep ++ u)))) =
          '<' :: ((('i' : Char) :: 'm' :: 'g' ::
            (mid ++ 's' :: 'r' :: 'c' :: '=' :: '"' ::
              (path ++ '"' :: (post ++ '>' :: sep)))) ++ u) := by
        simp
      rw [hshape]
      rw [hshape] at hne0
      rw [replAll_block_skip (htmlReplaceMatchD p) repl '<' _ u (fun c => c != '<')
        hltP hne0 (htmlTail_no_lt mid path post sep hmid hq hpost hsep)]
      simp only [htmlPassOutD, if_neg hqp]
      rw [renderBlock_html_eq mid path post (sep ++ replAll (htmlReplaceMatchD p) repl u)]
      simp
  | wiki path =>
    simp only [goodBlock, Bool.and_eq_true, Bool.not_eq_true'] at hb
    obtain ⟨hpempty, hq⟩ := hb
    rw [renderBlock_wiki_eq path (sep ++ u)]
    have hshape : ('!' : Char) :: '[' :: ('[' :: (path ++ ']' :: ']' :: (sep ++ u))) =
        ('!' :: '[' :: ('[' :: (path ++ ']' :: ']' :: sep))) ++ u := by
      simp
    rw [hshape, replAll_skip_char (htmlReplaceMatchD p) repl (fun c => c != '<') hltP _ u
      (wikiBlock_sep_all _ path sep (by decide) (by decide) (by decide)
        (pathChar_all_P _ path (fun c hc => bne_true_of_ne c '<' (pathChar_spec c hc).2.1) hq)
        (sepChar_all_P _ sep (fun c hc => bne_true_of_ne c '<' (sepChar_spec c hc).2.1) hsep))]
    simp only [htmlPassOutD]
    rw [renderBlock_wiki_eq path (sep ++ replAll (htmlReplaceMatchD p) repl u)]
    simp

/-! ### A replace pass over a whole rendering -/

theorem replRender (m : Str → Option (Nat × Unit)) (repl : Str) (outF : RefBlock → Str)
    (hblk : ∀ b sep u, goodBlock b = true → sep.all sepChar = true →
      (sep.contains '\n' = true ∨ u = []) →
      replAll m repl (renderBlock b ++ (sep ++ u)) = outF b ++ (sep ++ replAll m repl u)) :
    ∀ bs, goodBlocks bs = true → replAll m repl (render bs) = renderWith outF bs := by
  intro bs
  induction bs with
  | nil => intro _; rfl
  | cons hd tl ih =>
    intro hgood
    obtain ⟨b, sep⟩ := hd
    cases tl with
    | nil =>
      simp only [goodBlocks, Bool.and_eq_true] at hgood
      show replAll m repl (renderBlock b ++ sep ++ render []) = _
      rw [List.append_assoc, hblk b sep (render []) hgood.1 hgood.2 (Or.inr rfl)]
      show _ = outF b ++ sep ++ renderWith outF []
      rw [List.append_assoc]
      rfl
    | cons x xs =>
      simp only [goodBlocks, Bool.and_eq_true] at hgood
      show replAll m repl (renderBlock b ++ sep ++ render (x :: xs)) = _
      rw [List.append_assoc,
        hblk b sep (render (x :: xs)) hgood.1.1.1 hgood.1.1.2 (Or.inl hgood.1.2)]
      rw [ih hgood.2]
      show _ = outF b ++ sep ++ renderWith outF (x :: xs)
      rw [List.append_assoc]

theorem replRenderAll (m : Str → Option (Nat × Unit)) (repl : Str) (outF : RefBlock → Str)
    (hskip : ∀ c t, sepChar c = true → m (c :: t) = none)
    (hblk : ∀ b sep u, goodBlock b = true → sep.all sepChar = true →
      (sep.contains '\n' = true ∨ u = []) →
      replAll m repl (renderBlock b ++ (sep ++ u)) = outF b ++ (sep ++ replAll m repl u))
    (sep0 : Str) (bs : List (RefBlock × Str)) (hsep0 : sep0.all sepChar = true)
    (hgood : goodBlocks bs = true) :
    replAll m repl (renderAll sep0 bs) = sep0 ++ renderWith outF bs := by
  unfold renderAll
  rw [replAll_skip_char m repl sepChar hskip sep0 (render bs) hsep0]
  rw [replRender m repl outF hblk bs hgood]

theorem renderWith_eq_render (outF : RefBlock → Str) (g : RefBlock → RefBlock)
    (h : ∀ b, outF b = renderBlock (g b)) (bs : List (RefBlock × Str)) :
    renderWith outF bs = render (bs.map (fun bp => (g bp.1, bp.2))) := by
  induction bs with
  | nil => rfl
  | cons hd tl ih =>
    obtain ⟨b, sep⟩ := hd
    show outF b ++ sep ++ renderWith outF tl = _
    rw [h b, ih]
    rfl

/-! ### The pass outputs are again renderings -/

theorem mdPassOut_eq_U (p r : Str) (b : RefBlock) :
    mdPassOut p (str "![](" ++ r ++ str ")") b = renderBlock (mdRwU p r b) := by
  cases b with
  | md alt q =>
    by_cases hqp : q = p
    · simp only [mdPassOut, mdRwU, if_pos hqp, renderBlock]
      simp [str]
    · simp only [mdPassOut, mdRwU, if_neg hqp]
  | htmlTag mid q post => rfl
  | wiki q => rfl

theorem mdPassOut_eq_D (p f : Str) (b : RefBlock) :
    mdPassOut p (str "![[" ++ f ++ str "]]") b = renderBlock (mdRwD p f b) := by
  cases b with
  | md alt q =>
    by_cases hqp : q = p
    · simp only [mdPassOut, mdRwD, if_pos hqp, renderBlock]
    · simp only [mdPassOut, mdRwD, if_neg hqp]
  | htmlTag mid q post => rfl
  | wiki q => rfl

theorem htmlPassOutU_eq (p r : Str) (b : RefBlock) :
    htmlPassOutU p (str "<img src=\"" ++ r ++ str "\"") b =
      renderBlock (htmlRwU p r b) := by
  cases b with
  | md alt q => rfl
  | htmlTag mid q post =>
    by_cases hqp : q = p
    · simp only [htmlPassOutU, htmlRwU, if_pos hqp, renderBlock]
      simp [str]
    · simp only [htmlPassOutU, htmlRwU, if_neg hqp]
  | wiki q => rfl

theorem htmlPassOutD_eq (p f : Str) (b : RefBlock) :
    htmlPassOutD p (str "![[" ++ f ++ str "]]") b =
      renderBlock (htmlRwD p f b) := by
  cases b with
  | md alt q => rfl
  | htmlTag mid q post =>
    by_cases hqp : q = p
    · simp only [htmlPassOutD, htmlRwD, if_pos hqp, renderBlock]
    · simp only [htmlPassOutD, htmlRwD, if_neg hqp]
  | wiki q => rfl

theorem wikiPassOut_eq_U (p r : Str) (b : RefBlock) :
    wikiPassOut p (str "![](" ++ r ++ str ")") b = renderBlock (wikiRwU p r b) := by
  cases b with
  | md alt q => rfl
  | htmlTag mid q post => rfl
  | wiki q =>
    by_cases hqp : q = p
    · simp only [wikiPassOut, wikiRwU, if_pos hqp, renderBlock]
      simp [str]
    · simp only [wikiPassOut, wikiRwU, if_neg hqp]

theorem wikiPassOut_eq_D (p f : Str) (b : RefBlock) :
    wikiPassOut p (str "![[" ++ f ++ str "]]") b = renderBlock (wikiRwD p f b) := by
  cases b with
  | md alt q => rfl
  | htmlTag mid q post => rfl
  | wiki q =>
    by_cases hqp : q = p
    · simp only [wikiPassOut, wikiRwD, if_pos hqp, renderBlock]
    · simp only [wikiPassOut, wikiRwD, if_neg hqp]

/-! ### Goodness is preserved by the rewrites -/

theorem goodBlock_mdRwU (p r : Str) (hr : r.all pathChar = true) (hr0 : r ≠ [])
    (b : RefBlock) (hb : goodBlock b = true) : goodBlock (mdRwU p r b) = true := by
  cases b with
  | md alt q =>
    by_cases hqp : q = p
    · simp only [mdRwU, if_pos hqp, goodBlock]
      simp [hr, hr0]
    · simpa only [mdRwU, if_neg hqp] using hb
  | htmlTag mid q post => exact hb
  | wiki q => exact hb

theorem goodBlock_mdRwD (p f : Str) (hf : f.all pathChar = true) (hf0 : f ≠ [])
    (b : RefBlock) (hb : goodBlock b = true) : goodBlock (mdRwD p f b) = true := by
  cases b with
  | md alt q =>
    by_cases hqp : q = p
    · simp only [mdRwD, if_pos hqp, goodBlock]
      simp [hf, hf0]
    · simpa only [mdRwD, if_neg hqp] using hb
  | htmlTag mid q post => exact hb
  | wiki q => exact hb

theorem goodBlock_htmlRwU (p r : Str) (hr : r.all pathChar = true) (hr0 : r ≠ [])
    (b : RefBlock) (hb : goodBlock b = true) : goodBlock (htmlRwU p r b) = true := by
  cases b with
  | md alt q => exact hb
  | htmlTag mid q post =>
    by_cases hqp : q = p
    · simp only [htmlRwU, if_pos hqp, goodBlock]
      simp only [goodBlock, Bool.and_eq_true] at hb
      simp [hr, hr0, hb.1.1.2, (by decide : attrChar ' ' = true)]
    · simpa only [htmlRwU, if_neg hqp] using hb
  | wiki q => exact hb

theorem goodBlock_htmlRwD (p f : Str) (hf : f.all pathChar = true) (hf0 : f ≠ [])
    (b : RefBlock) (hb : goodBlock b = true) : goodBlock (htmlRwD p f b) = true := by
  cases b with
  | md alt q => exact hb
  | htmlTag mid q post =>
    by_cases hqp : q = p
    · simp only [htmlRwD, if_pos hqp, goodBlock]
      simp [hf, hf0]
    · simpa only [htmlRwD, if_neg hqp] using hb
  | wiki q => exact hb

theorem goodBlock_wikiRwU (p r : Str) (hr : r.all pathChar = true) (hr0 : r ≠ [])
    (b : RefBlock) (hb : goodBlock b = true) : goodBlock (wikiRwU p r b) = true := by
  cases b with
  | md alt q => exact hb
  | htmlTag mid q post => exact hb
  | wiki q =>
    by_cases hqp : q = p
    · simp only [wikiRwU, if_pos hqp, goodBlock]
      simp [hr, hr0]
    · simpa only [wikiRwU, if_neg hqp] using hb

theorem goodBlock_wikiRwD (p f : Str) (hf : f.all pathChar = true) (hf0 : f ≠ [])
    (b : RefBlock) (hb : goodBlock b = true) : goodBlock (wikiRwD p f b) = true := by
  cases b with
  | md alt q => exact hb
  | htmlTag mid q post => exact hb
  | wiki q =>
    by_cases hqp : q = p
    · simp only [wikiRwD, if_pos hqp, goodBlock]
      simp [hf, hf0]
    · simpa only [wikiRwD, if_neg hqp] using hb

theorem goodBlocks_map (g : RefBlock → RefBlock)
    (hg : ∀ b, goodBlock b = true → goodBlock (g b) = true) :
    ∀ bs, goodBlocks bs = true →
      goodBlocks (bs.map (fun bp => (g bp.1, bp.2))) = true := by
  intro bs
  induction bs with
  | nil => intro _; rfl
  | cons hd tl ih =>
    obtain ⟨b, sep⟩ := hd
    intro hgood
    cases tl with
    | nil =>
      simp only [goodBlocks, Bool.and_eq_true] at hgood
      show goodBlocks [(g b, sep)] = true
      simp only [goodBlocks, Bool.and_eq_true]
      exact ⟨hg b hgood.1, hgood.2⟩
    | cons x xs =>
      simp only [goodBlocks, Bool.and_eq_true] at hgood
      show goodBlocks ((g b, sep) :: (g x.1, x.2) :: xs.map (fun bp => (g bp.1, bp.2))) = true
      simp only [goodBlocks, Bool.and_eq_true]
      exact ⟨⟨⟨hg b hgood.1.1.1, hgood.1.1.2⟩, hgood.1.2⟩, ih hgood.2⟩

theorem map_congr_self (f g : α → β) (l : List α) (h : ∀ a, f a = g a) :
    l.map f = l.map g := by
  induction l with
  | nil => rfl
  | cons a t ih => rw [List.map_cons, List.map_cons, h a, ih]

theorem rwUpload_comp (p r : Str) (b : RefBlock) :
    wikiRwU p r (htmlRwU p r (mdRwU p r b)) = rwUpload p r b := by
  cases b with
  | md alt q =>
    by_cases hqp : q = p <;> simp [mdRwU, htmlRwU, wikiRwU, rwUpload, hqp]
  | htmlTag mid q post =>
    by_cases hqp : q = p <;> simp [mdRwU, htmlRwU, wikiRwU, rwUpload, hqp]
  | wiki q =>
    by_cases hqp : q = p <;> simp [mdRwU, htmlRwU, wikiRwU, rwUpload, hqp]

theorem rwDownload_comp (p f : Str) (b : RefBlock) :
    wikiRwD p f (htmlRwD p f (mdRwD p f b)) = rwDownload p f b := by
  cases b with
  | md alt q =>
    by_cases hqp : q = p
    · by_cases hfp : f = p <;> simp [mdRwD, htmlRwD, wikiRwD, rwDownload, hqp, hfp]
    · simp [mdRwD, htmlRwD, wikiRwD, rwDownload, hqp]
  | htmlTag mid q post =>
    by_cases hqp : q = p
    · by_cases hfp : f = p <;> simp [mdRwD, htmlRwD, wikiRwD, rwDownload, hqp, hfp]
    · simp [mdRwD, htmlRwD, wikiRwD, rwDownload, hqp]
  | wiki q =>
    by_cases hqp : q = p
    · by_cases hfp : f = p <;> simp [mdRwD, htmlRwD, wikiRwD, rwDownload, hqp, hfp]
    · simp [mdRwD, htmlRwD, wikiRwD, rwDownload, hqp]

theorem rwUpload_idem (p r : Str) (b : RefBlock) :
    rwUpload p r (rwUpload p r b) = rwUpload p r b := by
  cases b with
  | md alt q =>
    by_cases hqp : q = p
    · by_cases hrp : r = p <;> simp [rwUpload, hqp, hrp]
    · simp [rwUpload, hqp]
  | htmlTag mid q post =>
    by_cases hqp : q = p
    · by_cases hrp : r = p <;> simp [rwUpload, hqp, hrp]
    · simp [rwUpload, hqp]
  | wiki q =>
    by_cases hqp : q = p
    · by_cases hrp : r = p <;> simp [rwUpload, hqp, hrp]
    · simp [rwUpload, hqp]

theorem rwDownload_idem (p f : Str) (b : RefBlock) :
    rwDownload p f (rwDownload p f b) = rwDownload p f b := by
  cases b with
  | md alt q =>
    by_cases hqp : q = p
    · by_cases hfp : f = p <;> simp [rwDownload, hqp, hfp]
    · simp [rwDownload, hqp]
  | htmlTag mid q post =>
    by_cases hqp : q = p
    · by_cases hfp : f = p <;> simp [rwDownload, hqp, hfp]
    · simp [rwDownload, hqp]
  | wiki q =>
    by_cases hqp : q = p
    · by_cases hfp : f = p <;> simp [rwDownload, hqp, hfp]
    · simp [rwDownload, hqp]

theorem contains_eq_false_iff (l : Str) (x : Char) :
    l.contains x = false ↔ x ∉ l := by
  rw [← Bool.not_eq_true]
  constructor
  · intro h hm
    exact h (List.elem_iff.mpr hm)
  · intro h hc
    exact h (List.elem_iff.mp hc)

theorem contains_append_ff (a b : Str) (x : Char) (ha : a.contains x = false)
    (hb : b.contains x = false) : (a ++ b).contains x = false := by
  rw [contains_eq_false_iff] at ha hb ⊢
  intro hm
  rcases List.mem_append.mp hm with h | h
  · exact ha h
  · exact hb h

/-- Without a `$`, the `$`-substitution leaves the replacement string
unchanged. -/
theorem dollarExpand_no_dollar (matched pre post : Str) :
    ∀ repl : Str, repl.contains '$' = false →
      dollarExpand matched pre post repl = repl := by
  intro repl
  induction repl with
  | nil => intro _; rfl
  | cons c t ih =>
    intro h
    have hmem := (contains_eq_false_iff _ _).mp h
    have hc : c ≠ '$' := fun he => hmem (he ▸ List.mem_cons_self c t)
    have ht : t.contains '$' = false :=
      (contains_eq_false_iff _ _).mpr (fun hm => hmem (List.mem_cons_of_mem c hm))
    rw [dollarExpand.eq_def]
    simp only []
    rw [if_neg hc, ih ht]

/-- Without a `$` in the replacement string, the `$`-aware global replace
coincides with plain replacement. -/
theorem replScanD_no_dollar (m : Str → Option (Nat × α)) (repl : Str)
    (h : repl.contains '$' = false) :
    ∀ fuel pre s, replScanD m repl fuel pre s = replScan m repl fuel s := by
  intro fuel
  induction fuel with
  | zero => intro pre s; rfl
  | succ n ih =>
    intro pre s
    cases s with
    | nil => rfl
    | cons c rest =>
      cases hm : m (c :: rest) with
      | some r =>
        simp only [replScanD, replScan, hm]
        rw [dollarExpand_no_dollar ((c :: rest).take r.1) pre
          ((c :: rest).drop r.1) repl h,
          ih (pre ++ (c :: rest).take r.1) ((c :: rest).drop r.1)]
      | none =>
        simp only [replScanD, replScan, hm]
        rw [ih (pre ++ [c]) rest]

theorem replAllD_no_dollar (m : Str → Option (Nat × α)) (repl : Str) (s : Str)
    (h : repl.contains '$' = false) : replAllD m repl s = replAll m repl s :=
  replScanD_no_dollar m repl h s.length [] s

/-- `replaceImageLink` on a rendered document rewrites exactly the blocks
whose raw path is the target. -/
theorem replaceImageLink_render (sep0 p r : Str) (bs : List (RefBlock × Str))
    (hsep0 : sep0.all sepChar = true) (hgood : goodBlocks bs = true)
    (hp : p.all pathChar = true) (hr : r.all pathChar = true) (hr0 : r ≠ [])
    (hrD : r.contains '$' = false) :
    replaceImageLink (renderAll sep0 bs) p r =
      renderAll sep0 (bs.map (fun bp => (rwUpload p r bp.1, bp.2))) := by
  have hskipMd : ∀ c t, sepChar c = true → mdReplaceMatch p (c :: t) = none :=
    fun c t hc => mdReplaceMatch_none_head p c t (sepChar_spec c hc).1
  have hskipHU : ∀ c t, sepChar c = true → htmlReplaceMatchU p (c :: t) = none :=
    fun c t hc => htmlReplaceMatchU_none_head p c t (sepChar_spec c hc).2.1
  have hskipW : ∀ c t, sepChar c = true → wikiReplaceMatch p (c :: t) = none :=
    fun c t hc => wikiReplaceMatch_none_head p c t (sepChar_spec c hc).1
  have hgood1 := goodBlocks_map (mdRwU p r) (goodBlock_mdRwU p r hr hr0) bs hgood
  have hgood2 := goodBlocks_map (htmlRwU p r) (goodBlock_htmlRwU p r hr hr0)
    (bs.map (fun bp => (mdRwU p r bp.1, bp.2))) hgood1
  have h1 : replAll (mdReplaceMatch p) (str "![](" ++ r ++ str ")") (renderAll sep0 bs) =
      renderAll sep0 (bs.map (fun bp => (mdRwU p r bp.1, bp.2))) := by
    rw [replRenderAll (mdReplaceMatch p) _ (mdPassOut p (str "![](" ++ r ++ str ")"))
      hskipMd (fun b sep u hb hsep hcross => mdRepl_block p _ hp b sep u hb hsep hcross)
      sep0 bs hsep0 hgood]
    rw [renderWith_eq_render _ (mdRwU p r) (mdPassOut_eq_U p r) bs]
    rfl
  have h2 : replAll (htmlReplaceMatchU p) (str "<img src=\"" ++ r ++ str "\"")
      (renderAll sep0 (bs.map (fun bp => (mdRwU p r bp.1, bp.2)))) =
      renderAll sep0 ((bs.map (fun bp => (mdRwU p r bp.1, bp.2))).map
        (fun bp => (htmlRwU p r bp.1, bp.2))) := by
    rw [replRenderAll (htmlReplaceMatchU p) _
      (htmlPassOutU p (str "<img src=\"" ++ r ++ str "\""))
      hskipHU (fun b sep u hb hsep _ => htmlReplU_block p _ hp b sep u hb hsep)
      sep0 _ hsep0 hgood1]
    rw [renderWith_eq_render _ (htmlRwU p r) (htmlPassOutU_eq p r) _]
    rfl
  have h3 : replAll (wikiReplaceMatch p) (str "![](" ++ r ++ str ")")
      (renderAll sep0 ((bs.map (fun bp => (mdRwU p r bp.1, bp.2))).map
        (fun bp => (htmlRwU p r bp.1, bp.2)))) =
      renderAll sep0 (((bs.map (fun bp => (mdRwU p r bp.1, bp.2))).map
        (fun bp => (htmlRwU p r bp.1, bp.2))).map
        (fun bp => (wikiRwU p r bp.1, bp.2))) := by
    rw [replRenderAll (wikiReplaceMatch p) _ (wikiPassOut p (str "![](" ++ r ++ str ")"))
      hskipW (fun b sep u hb hsep _ => wikiRepl_block p _ hp b sep u hb hsep)
      sep0 _ hsep0 hgood2]
    rw [renderWith_eq_render _ (wikiRwU p r) (wikiPassOut_eq_U p r) _]
    rfl
  have hR1 : (str "![](" ++ r ++ str ")").contains '$' = false :=
    contains_append_ff _ _ _ (contains_append_ff _ _ _ (by decide) hrD) (by decide)
  have hR2 : (str "<img src=\"" ++ r ++ str "\"").contains '$' = false :=
    contains_append_ff _ _ _ (contains_append_ff _ _ _ (by decide) hrD) (by decide)
  show replAllD (wikiReplaceMatch p) (str "![](" ++ r ++ str ")")
      (replAllD (htmlReplaceMatchU p) (str "<img src=\"" ++ r ++ str "\"")
        (replAllD (mdReplaceMatch p) (str "![](" ++ r ++ str ")")
          (renderAll sep0 bs))) = _
  rw [replAllD_no_dollar (mdReplaceMatch p) _ _ hR1,
    replAllD_no_dollar (htmlReplaceMatchU p) _ _ hR2,
    replAllD_no_dollar (wikiReplaceMatch p) _ _ hR1]
  rw [h1, h2, h3, List.map_map, List.map_map]
  refine congrArg (renderAll sep0) (map_congr_self _ _ bs (fun bp => ?_))
  show (wikiRwU p r (htmlRwU p r (mdRwU p r bp.1)), bp.2) = _
  rw [rwUpload_comp]

/-- `replaceUrlWithRelative` on a rendered document rewrites exactly the
blocks whose raw path is the target url, all to the wiki embed. -/
theorem replaceUrlWithRelative_render (sep0 p f : Str) (bs : List (RefBlock × Str))
    (hsep0 : sep0.all sepChar = true) (hgood : goodBlocks bs = true)
    (hp : p.all pathChar = true) (hf : f.all pathChar = true) (hf0 : f ≠ [])
    (hfD : f.contains '$' = false) :
    replaceUrlWithRelative (renderAll sep0 bs) p f =
      renderAll sep0 (bs.map (fun bp => (rwDownload p f bp.1, bp.2))) := by
  have hskipMd : ∀ c t, sepChar c = true → mdReplaceMatch p (c :: t) = none :=
    fun c t hc => mdReplaceMatch_none_head p c t (sepChar_spec c hc).1
  have hskipHD : ∀ c t, sepChar c = true → htmlReplaceMatchD p (c :: t) = none :=
    fun c t hc => htmlReplaceMatchD_none_head p c t (sepChar_spec c hc).2.1
  have hskipW : ∀ c t, sepChar c = true → wikiReplaceMatch p (c :: t) = none :=
    fun c t hc => wikiReplaceMatch_none_head p c t (sepChar_spec c hc).1
  have hgood1 := goodBlocks_map (mdRwD p f) (goodBlock_mdRwD p f hf hf0) bs hgood
  have hgood2 := goodBlocks_map (htmlRwD p f) (goodBlock_htmlRwD p f hf hf0)
    (bs.map (fun bp => (mdRwD p f bp.1, bp.2))) hgood1
  have h1 : replAll (mdReplaceMatch p) (str "![[" ++ f ++ str "]]") (renderAll sep0 bs) =
      renderAll sep0 (bs.map (fun bp => (mdRwD p f bp.1, bp.2))) := by
    rw [replRenderAll (mdReplaceMatch p) _ (mdPassOut p (str "![[" ++ f ++ str "]]"))
      hskipMd (fun b sep u hb hsep hcross => mdRepl_block p _ hp b sep u hb hsep hcross)
      sep0 bs hsep0 hgood]
    rw [renderWith_eq_render _ (mdRwD p f) (mdPassOut_eq_D p f) bs]
    rfl
  have h2 : replAll (htmlReplaceMatchD p) (str "![[" ++ f ++ str "]]")
      (renderAll sep0 (bs.map (fun bp => (mdRwD p f bp.1, bp.2)))) =
      renderAll sep0 ((bs.map (fun bp => (mdRwD p f bp.1, bp.2))).map
        (fun bp => (htmlRwD p f bp.1, bp.2))) := by
    rw [replRenderAll (htmlReplaceMatchD p) _
      (htmlPassOutD p (str "![[" ++ f ++ str "]]"))
      hskipHD (fun b sep u hb hsep _ => htmlReplD_block p _ hp b sep u hb hsep)
      sep0 _ hsep0 hgood1]
    rw [renderWith_eq_render _ (htmlRwD p f) (htmlPassOutD_eq p f) _]
    rfl
  have h3 : replAll (wikiReplaceMatch p) (str "![[" ++ f ++ str "]]")
      (renderAll sep0 ((bs.map (fun bp => (mdRwD p f bp.1, bp.2))).map
        (fun bp => (htmlRwD p f bp.1, bp.2)))) =
      renderAll sep0 (((bs.map (fun bp => (mdRwD p f bp.1, bp.2))).map
        (fun bp => (htmlRwD p f bp.1, bp.2))).map
        (fun bp => (wikiRwD p f bp.1, bp.2))) := by
    rw [replRenderAll (wikiReplaceMatch p) _ (wikiPassOut p (str "![[" ++ f ++ str "]]"))
      hskipW (fun b sep u hb hsep _ => wikiRepl_block p _ hp b sep u hb hsep)
      sep0 _ hsep0 hgood2]
    rw [renderWith_eq_render _ (wikiRwD p f) (wikiPassOut_eq_D p f) _]
    rfl
  have hF : (str "![[" ++ f ++ str "]]").contains '$' = false :=
    contains_append_ff _ _ _ (contains_append_ff _ _ _ (by decide) hfD) (by decide)
  show replAllD (wikiReplaceMatch p) (str "![[" ++ f ++ str "]]")
      (replAllD (htmlReplaceMatchD p) (str "![[" ++ f ++ str "]]")
        (replAllD (mdReplaceMatch p) (str "![[" ++ f ++ str "]]")
          (renderAll sep0 bs))) = _
  rw [replAllD_no_dollar (mdReplaceMatch p) _ _ hF,
    replAllD_no_dollar (htmlReplaceMatchD p) _ _ hF,
    replAllD_no_dollar (wikiReplaceMatch p) _ _ hF]
  rw [h1, h2, h3, List.map_map, List.map_map]
  refine congrArg (renderAll sep0) (map_congr_self _ _ bs (fun bp => ?_))
  show (wikiRwD p f (htmlRwD p f (mdRwD p f bp.1)), bp.2) = _
  rw [rwDownload_comp]

/-- C5 (amended): on a rendered document, `replaceImageLink` rewrites
every block whose raw path is the target — markdown and wiki forms to the
canonical `![](r)`, but the HTML form only to `<img src="r"` with the
tag's tail kept, not to the canonical form — and is idempotent there;
`replaceUrlWithRelative` rewrites all three forms to the canonical
`![[f]]` and is idempotent there.  (General idempotence on arbitrary
texts fails, see the counterexample.) -/
theorem c5_rewrite_render (sep0 p r f : Str) (bs : List (RefBlock × Str))
    (hsep0 : sep0.all sepChar = true) (hgood : goodBlocks bs = true)
    (hp : p.all pathChar = true) (hr : r.all pathChar = true) (hr0 : r ≠ [])
    (hrD : r.contains '$' = false)
    (hf : f.all pathChar = true) (hf0 : f ≠ [])
    (hfD : f.contains '$' = false) :
    replaceImageLink (renderAll sep0 bs) p r =
      renderAll sep0 (bs.map (fun bp => (rwUpload p r bp.1, bp.2))) ∧
    replaceImageLink (replaceImageLink (renderAll sep0 bs) p r) p r =
      replaceImageLink (renderAll sep0 bs) p r ∧
    replaceUrlWithRelative (renderAll sep0 bs) p f =
      renderAll sep0 (bs.map (fun bp => (rwDownload p f bp.1, bp.2))) ∧
    replaceUrlWithRelative (replaceUrlWithRelative (renderAll sep0 bs) p f) p f =
      replaceUrlWithRelative (renderAll sep0 bs) p f := by
  have hgU : ∀ b, goodBlock b = true → goodBlock (rwUpload p r b) = true := by
    intro b hb
    rw [← rwUpload_comp]
    exact goodBlock_wikiRwU p r hr hr0 _
      (goodBlock_htmlRwU p r hr hr0 _ (goodBlock_mdRwU p r hr hr0 _ hb))
  have hgD : ∀ b, goodBlock b = true → goodBlock (rwDownload p f b) = true := by
    intro b hb
    rw [← rwDownload_comp]
    exact goodBlock_wikiRwD p f hf hf0 _
      (goodBlock_htmlRwD p f hf hf0 _ (goodBlock_mdRwD p f hf hf0 _ hb))
  have hU1 := replaceImageLink_render sep0 p r bs hsep0 hgood hp hr hr0 hrD
  have hU2 := replaceImageLink_render sep0 p r
    (bs.map (fun bp => (rwUpload p r bp.1, bp.2))) hsep0
    (goodBlocks_map (rwUpload p r) hgU bs hgood) hp hr hr0 hrD
  have hD1 := replaceUrlWithRelative_render sep0 p f bs hsep0 hgood hp hf hf0 hfD
  have hD2 := replaceUrlWithRelative_render sep0 p f
    (bs.map (fun bp => (rwDownload p f bp.1, bp.2))) hsep0
    (goodBlocks_map (rwDownload p f) hgD bs hgood) hp hf hf0 hfD
  refine ⟨hU1, ?_, hD1, ?_⟩
  · rw [hU1, hU2, List.map_map]
    refine congrArg (renderAll sep0) (map_congr_self _ _ bs (fun bp => ?_))
    show (rwUpload p r (rwUpload p r bp.1), bp.2) = (rwUpload p r bp.1, bp.2)
    rw [rwUpload_idem]
  · rw [hD1, hD2, List.map_map]
    refine congrArg (renderAll sep0) (map_congr_self _ _ bs (fun bp => ?_))
    show (rwDownload p f (rwDownload p f bp.1), bp.2) = (rwDownload p f bp.1, bp.2)
    rw [rwDownload_idem]

/-- Closed instance of the C5 amendment: one reference of each form, all
with the same raw path. -/
theorem c5_rewrite_render_witness :
    replaceImageLink (renderAll (str "\n")
        [(.md (str "a") (str "p.png"), str "\n"),
         (.htmlTag [' '] (str "p.png") (str " w"), str "\n"),
         (.wiki (str "p.png"), str "\n")]) (str "p.png") (str "u.png") =
      str "\n![](u.png)\n<img src=\"u.png\" w>\n![](u.png)\n" ∧
    replaceUrlWithRelative (renderAll (str "\n")
        [(.md (str "a") (str "p.png"), str "\n"),
         (.htmlTag [' '] (str "p.png") (str " w"), str "\n"),
         (.wiki (str "p.png"), str "\n")]) (str "p.png") (str "n.png") =
      str "\n![[n.png]]\n![[n.png]]\n![[n.png]]\n" := by
  have h := c5_rewrite_render (str "\n") (str "p.png") (str "u.png") (str "n.png")
    [(.md (str "a") (str "p.png"), str "\n"),
     (.htmlTag [' '] (str "p.png") (str " w"), str "\n"),
     (.wiki (str "p.png"), str "\n")]
    (by decide) (by decide) (by decide) (by decide) (by decide) (by decide)
    (by decide) (by decide) (by decide)
  exact ⟨h.1.trans (by decide), h.2.2.1.trans (by decide)⟩

/-! ### Path resolution (C6)

`resolveImagePath`, `getAlternativePaths`, `findFileByBasename` and the
file-finding part of `uploadLocalImage` (src/src/features/upload.ts:51-123).
The vault is a list of entries `(path, isFile)`; `decodeURIComponent` is an
oracle `dec : Str → Option Str` (`none` = the platform function throws). -/

/-- A note's location: the containing folder's path (if the note has a
parent) and the note's basename. -/
structure NoteFile where
  parentPath : Option Str
  basename : Str
  deriving DecidableEq

/-- `imagePath.replace(/\\/g, '/')`. -/
def bslashToSlash (s : Str) : Str := s.map (fun c => if c = '\\' then '/' else c)

/-- Matcher of the literal `%20` for `.replace(/%20/g, ' ')`. -/
def pctMatch (u : Str) : Option (Nat × Unit) :=
  if (str "%20").isPrefixOf u then some (3, ()) else none

/-- `.replace(/%20/g, ' ')`. -/
def pctDecodeSpaces (s : Str) : Str := replAll pctMatch (str " ") s

/-- `.replace(/^\[\[|\]\]$/g, '')`: drop one leading `[[` and one
trailing `]]`. -/
def stripBrackets (s : Str) : Str :=
  let s1 := if (str "[[").isPrefixOf s then s.drop 2 else s
  if (str "]]").isSuffixOf s1 then s1.take (s1.length - 2) else s1

/-- `.replace(/^\.\//, '')`. -/
def stripDotSlash (s : Str) : Str :=
  if (str "./").isPrefixOf s then s.drop 2 else s

/-- The normalisation shared by `resolveImagePath` and
`getAlternativePaths` (upload.ts:52-57 and 64-69): backslashes to slashes,
`%20` to spaces, strip `[[`/`]]`, strip a leading `./`, trim. -/
def cleanRaw (s : Str) : Str :=
  jsTrim (stripDotSlash (stripBrackets (pctDecodeSpaces (bslashToSlash s))))

/-- `CustomUploader.resolveImagePath` (upload.ts:51-61). -/
def resolveImagePath (imagePath : Str) (note : NoteFile) : Str :=
  let cleanPath := cleanRaw imagePath
  if cleanPath.head? = some '/' then cleanPath.drop 1
  else
    match note.parentPath with
    | some nd => if nd.isEmpty then cleanPath else nd ++ '/' :: cleanPath
    | none => cleanPath

/-- JavaScript `s.split('/')` (always a nonempty list of segments). -/
def splitSlash : Str → List Str
  | [] => [[]]
  | c :: t =>
    match splitSlash t with
    | [] => [[]]
    | seg :: rest => if c = '/' then [] :: seg :: rest else (c :: seg) :: rest

/-- `s.split('/').pop()`. -/
def lastSeg (s : Str) : Str := (splitSlash s).getLastD []

/-- JavaScript `s.includes(pat)`. -/
def containsSub (pat : Str) : Str → Bool
  | [] => pat.isPrefixOf []
  | c :: t => pat.isPrefixOf (c :: t) || containsSub pat t

/-- JavaScript `s.replace(pat, repl)` with a plain-string pattern: replace
the first occurrence only. -/
def replaceFirstLit (pat repl : Str) : Str → Str
  | [] => []
  | c :: t =>
    if pat.isPrefixOf (c :: t) then repl ++ (c :: t).drop pat.length
    else c :: replaceFirstLit pat repl t

/-- The variant set of `getAlternativePaths` (upload.ts:70-72): the cleaned
raw path, then its percent-decoding when that differs and does not throw. -/
def variantsOf (dec : Str → Option Str) (raw : Str) : List Str :=
  match dec raw with
  | some d => if d = raw then [raw] else [raw, d]
  | none => [raw]

/-- The candidates pushed for one variant by the loop body of
`getAlternativePaths` (upload.ts:74-84), in push order. -/
def altPushes (note : NoteFile) (v : Str) : List Str :=
  [resolveImagePath v note] ++
  (if containsSub (str "attachments/") v then
    [replaceFirstLit (str "attachments/") [] v] else []) ++
  [v] ++
  (if (str "attachments/").isPrefixOf v then [] else [str "attachments/" ++ v]) ++
  (match note.parentPath with
   | some nd => if nd.isEmpty then [] else [nd ++ '/' :: v]
   | none => []) ++
  [str "Attachments/" ++ v] ++
  (let base := lastSeg v
   if base.isEmpty then []
   else [(match note.parentPath with | some nd => nd ++ ['/'] | none => []) ++
     (note.basename ++ '/' :: base)])

/-- `CustomUploader.getAlternativePaths` (upload.ts:63-86). -/
def getAlternativePaths (dec : Str → Option Str) (imagePath : Str)
    (note : NoteFile) : List Str :=
  dedupFirst (((variantsOf dec (cleanRaw imagePath)).flatMap (altPushes note)).filter
    (fun s => !s.isEmpty))

/-- The candidate list as the spec describes it: identical except that
step (2) strips an `attachments/` PREFIX when present, where the code
tests `v.includes('attachments/')` and removes the first occurrence
anywhere in the string. -/
def claimAltPushes (note : NoteFile) (v : Str) : List Str :=
  [resolveImagePath v note] ++
  (if (str "attachments/").isPrefixOf v then [v.drop (str "attachments/").length] else []) ++
  [v] ++
  (if (str "attachments/").isPrefixOf v then [] else [str "attachments/" ++ v]) ++
  (match note.parentPath with
   | some nd => if nd.isEmpty then [] else [nd ++ '/' :: v]
   | none => []) ++
  [str "Attachments/" ++ v] ++
  (let base := lastSeg v
   if base.isEmpty then []
   else [(match note.parentPath with | some nd => nd ++ ['/'] | none => []) ++
     (note.basename ++ '/' :: base)])

/-- The spec-side candidate list (see `claimAltPushes`). -/
def claimAlternativePaths (dec : Str → Option Str) (imagePath : Str)
    (note : NoteFile) : List Str :=
  dedupFirst (((variantsOf dec (cleanRaw imagePath)).flatMap (claimAltPushes note)).filter
    (fun s => !s.isEmpty))

/-- `vault.getAbstractFileByPath`. -/
def vaultGet (vault : List (Str × Bool)) (p : Str) : Option (Str × Bool) :=
  vault.find? (fun e => e.1 == p)

/-- `decoded` in `uploadLocalImage` (upload.ts:104): `decodeURIComponent`
falling back to the input when it throws. -/
def jsDecode (dec : Str → Option Str) (s : Str) : Str := (dec s).getD s

/-- `CustomUploader.findFileByBasename` (upload.ts:88-96): scan the
vault's files for an exact name match, then for the percent-decoded
name. -/
def findFileByBasename (vault : List (Str × Bool)) (dec : Str → Option Str)
    (base : Str) : Option Str :=
  let files := (vault.filter (fun e => e.2)).map (fun e => e.1)
  match files.find? (fun fp => lastSeg fp == base) with
  | some fp => some fp
  | none =>
    match dec base with
    | some d => files.find? (fun fp => lastSeg fp == d)
    | none => none

/-- The file-finding part of `uploadLocalImage` (upload.ts:104-117):
primary resolution, then the alternative candidates in order, then the
whole-vault basename search. -/
def resolveFile (vault : List (Str × Bool)) (dec : Str → Option Str)
    (imagePath : Str) (note : NoteFile) : Option (Str × Bool) :=
  let decoded := jsDecode dec imagePath
  match vaultGet vault (resolveImagePath decoded note) with
  | some f => some f
  | none =>
    match (getAlternativePaths dec decoded note).findSome? (fun a => vaultGet vault a) with
    | some f => some f
    | none =>
      match findFileByBasename vault dec
          (stripBrackets (lastSeg (bslashToSlash decoded))) with
      | some fp => some (fp, true)
      | none => none

/-- `uploadLocalImage` succeeds on the resolution step iff `resolveFile`
finds an entry that is a file (`file instanceof TFile`, upload.ts:118);
a folder at the resolved path makes it throw. -/
def uploadResolves (vault : List (Str × Bool)) (dec : Str → Option Str)
    (imagePath : Str) (note : NoteFile) : Option Str :=
  match resolveFile vault dec imagePath note with
  | some (fp, true) => some fp
  | _ => none

/-- C6 counterexample.  (A) The candidate list differs from the spec's:
for `img/attachments/a.png` the code's `includes`/first-occurrence
replacement manufactures the candidate `img/a.png`, which the spec's
prefix-strip never produces.  (B) Resolution can report NotFound although
a later candidate and the basename search both succeed: a FOLDER at an
earlier candidate path is picked up by `getAbstractFileByPath` and then
fails the `instanceof TFile` check, aborting the search. -/
theorem c6_counterexample :
    (str "img/a.png" ∈ getAlternativePaths some (str "img/attachments/a.png")
        ⟨some (str "n"), str "note"⟩ ∧
      str "img/a.png" ∉ claimAlternativePaths some (str "img/attachments/a.png")
        ⟨some (str "n"), str "note"⟩) ∧
    (uploadResolves [(str "attachments/a.png", false), (str "Attachments/a.png", true)]
        some (str "a.png") ⟨none, str "note"⟩ = none ∧
      str "Attachments/a.png" ∈ getAlternativePaths some (str "a.png") ⟨none, str "note"⟩ ∧
      vaultGet [(str "attachments/a.png", false), (str "Attachments/a.png", true)]
        (str "Attachments/a.png") = some (str "Attachments/a.png", true) ∧
      findFileByBasename [(str "attachments/a.png", false), (str "Attachments/a.png", true)]
        some (str "a.png") = some (str "Attachments/a.png")) := by
  decide

theorem pre_containsSub (pat s : Str) (h : pat.isPrefixOf s = true) :
    containsSub pat s = true := by
  cases s with
  | nil => exact h
  | cons c t => simp [containsSub, h]

theorem replaceFirstLit_pre (pat repl s : Str) (hpat : pat ≠ [])
    (h : pat.isPrefixOf s = true) :
    replaceFirstLit pat repl s = repl ++ s.drop pat.length := by
  cases s with
  | nil =>
    cases pat with
    | nil => exact absurd rfl hpat
    | cons a b => simp [List.isPrefixOf] at h
  | cons c t => simp [replaceFirstLit, h]

theorem flatMap_congr_mem (l : List α) (f g : α → List β)
    (h : ∀ a ∈ l, f a = g a) : l.flatMap f = l.flatMap g := by
  induction l with
  | nil => rfl
  | cons a t ih =>
    rw [List.flatMap_cons, List.flatMap_cons, h a (List.mem_cons_self a t),
      ih (fun b hb => h b (List.mem_cons_of_mem a hb))]

/-- C6 (amended): whenever `attachments/` occurs in a variant only as a
prefix (if at all), the code's candidate list coincides with the spec's
list — the divergence is exactly the `includes`/first-occurrence
replacement of step (2), see the counterexample; and resolution is the
first hit of `getAbstractFileByPath` over the primary path followed by
the alternative candidates in order, falling back to the basename search
only when NO candidate path exists at all: a hit that is a folder aborts
resolution with NotFound rather than trying the remaining candidates. -/
theorem c6_alternative_resolution (vault : List (Str × Bool)) (dec : Str → Option Str)
    (imagePath : Str) (note : NoteFile)
    (hpre : ∀ v ∈ variantsOf dec (cleanRaw imagePath),
      containsSub (str "attachments/") v = true →
        (str "attachments/").isPrefixOf v = true) :
    getAlternativePaths dec imagePath note = claimAlternativePaths dec imagePath note ∧
    uploadResolves vault dec imagePath note =
      (match (resolveImagePath (jsDecode dec imagePath) note ::
          getAlternativePaths dec (jsDecode dec imagePath) note).findSome?
          (fun a => vaultGet vault a) with
       | some (fp, true) => some fp
       | some (_, false) => none
       | none => findFileByBasename vault dec
           (stripBrackets (lastSeg (bslashToSlash (jsDecode dec imagePath))))) := by
  constructor
  · unfold getAlternativePaths claimAlternativePaths
    refine congrArg dedupFirst (congrArg _ (flatMap_congr_mem _ _ _ (fun v hv => ?_)))
    unfold altPushes claimAltPushes
    by_cases hcon : containsSub (str "attachments/") v = true
    · have hpref := hpre v hv hcon
      rw [replaceFirstLit_pre (str "attachments/") [] v (by decide) hpref]
      simp [hcon, hpref]
    · have hpref : (str "attachments/").isPrefixOf v = false := by
        cases hp2 : (str "attachments/").isPrefixOf v with
        | false => rfl
        | true => exact absurd (pre_containsSub _ v hp2) hcon
      simp [hcon, hpref]
  · unfold uploadResolves resolveFile
    simp only []
    rw [List.findSome?_cons]
    cases hv : vaultGet vault (resolveImagePath (jsDecode dec imagePath) note) with
    | some f =>
      obtain ⟨fp, isf⟩ := f
      cases isf <;> simp
    | none =>
      simp only []
      cases ha : (getAlternativePaths dec (jsDecode dec imagePath) note).findSome?
          (fun a => vaultGet vault a) with
      | some f =>
        obtain ⟨fp, isf⟩ := f
        cases isf <;> simp
      | none =>
        simp only []
        cases hb : findFileByBasename vault dec
            (stripBrackets (lastSeg (bslashToSlash (jsDecode dec imagePath)))) with
        | some fp => simp
        | none => simp

/-- Closed instance of the C6 amendment. -/
theorem c6_alternative_resolution_witness :
    getAlternativePaths some (str "pics/b.png") ⟨some (str "n"), str "note"⟩ =
      claimAlternativePaths some (str "pics/b.png") ⟨some (str "n"), str "note"⟩ ∧
    uploadResolves [(str "n/pics/b.png", true)] some (str "pics/b.png")
      ⟨some (str "n"), str "note"⟩ = some (str "n/pics/b.png") := by
  have h := c6_alternative_resolution [(str "n/pics/b.png", true)] some
    (str "pics/b.png") ⟨some (str "n"), str "note"⟩ (by decide)
  exact ⟨h.1, h.2.trans (by decide)⟩

/-! ### The upload orchestrator (C7)

`uploadAllLocalImages` (src/src/features/upload.ts:125-151).  The
per-image upload (resolution + network) is an oracle
`up : Str → Option Str`; `none` models the `catch` branch. -/

/-- The `for` loop of `uploadAllLocalImages` (upload.ts:136-147): on
success rewrite the working copy and bump the counter, on failure leave
both and continue with the next reference. -/
def uploadFold (up : Str → Option Str) : List Str → Str → Nat → Str × Nat
  | [], updated, success => (updated, success)
  | p :: ps, updated, success =>
    match up p with
    | some url => uploadFold up ps (replaceImageLink updated p url) (success + 1)
    | none => uploadFold up ps updated success

/-- Outcome of one `uploadAllLocalImages` run: the reported counts and
the text written back to the vault, if any write happened. -/
structure UploadReport where
  attempted : Nat
  succeeded : Nat
  persisted : Option Str
  deriving DecidableEq, Repr

/-- `CustomUploader.uploadAllLocalImages` (upload.ts:125-151): extract the
local paths, bail out when there are none, run the loop, and persist the
final text once iff at least one upload succeeded. -/
def uploadAllLocalImages (up : Str → Option Str) (content : Str) : UploadReport :=
  let localPaths := extractLocalImagePaths content
  if localPaths.isEmpty then ⟨0, 0, none⟩
  else
    let res := uploadFold up localPaths content 0
    ⟨localPaths.length, res.2, if 0 < res.2 then some res.1 else none⟩

theorem uploadFold_spec (up : Str → Option Str) (ps : List Str) :
    ∀ updated success, uploadFold up ps updated success =
      (ps.foldl (fun acc p =>
          match up p with
          | some url => replaceImageLink acc p url
          | none => acc) updated,
        success + (ps.filter (fun p => (up p).isSome)).length) := by
  induction ps with
  | nil => intro updated success; simp [uploadFold]
  | cons p ps2 ih =>
    intro updated success
    cases hup : up p with
    | some url =>
      simp only [uploadFold, hup, ih, List.foldl_cons, List.filter_cons,
        Option.isSome_some, if_true, List.length_cons, Prod.mk.injEq]
      exact ⟨trivial, by omega⟩
    | none =>
      simp only [uploadFold, hup, ih, List.foldl_cons, List.filter_cons,
        Option.isSome_none, Bool.false_eq_true, if_false, Prod.mk.injEq]

/-- C7: every extracted reference is attempted (a failure does not stop
the loop), the success count is the number of references whose upload
succeeded, the document is persisted exactly once at the end and only if
at least one upload succeeded, and the persisted text is the fold of the
successful rewrites over the original content in order. -/
theorem c7_upload_orchestration (up : Str → Option Str) (content : Str) :
    (uploadAllLocalImages up content).attempted =
      (extractLocalImagePaths content).length ∧
    (uploadAllLocalImages up content).succeeded =
      ((extractLocalImagePaths content).filter (fun p => (up p).isSome)).length ∧
    (uploadAllLocalImages up content).persisted =
      (if 0 < ((extractLocalImagePaths content).filter (fun p => (up p).isSome)).length
       then some ((extractLocalImagePaths content).foldl (fun acc p =>
          match up p with
          | some url => replaceImageLink acc p url
          | none => acc) content)
       else none) := by
  unfold uploadAllLocalImages
  simp only []
  cases hps : (extractLocalImagePaths content).isEmpty with
  | true =>
    have hnil : extractLocalImagePaths content = [] := by
      cases h : extractLocalImagePaths content with
      | nil => rfl
      | cons a t => rw [h] at hps; simp at hps
    simp [hps, hnil]
  | false =>
    simp only [hps, Bool.false_eq_true, if_false]
    rw [uploadFold_spec up (extractLocalImagePaths content) content 0]
    simp

/-! ### Server origin and the download orchestrators (C10)

`getServerOrigin` (src/unnamed/part_000:118-125) and the origin-guarded
entry points `downloadImagesForCurrentNote` / `downloadImagesForAllNotes`
(src/src/features/download.ts:45-116).  The platform's `new URL` is an
oracle `parse : Str → Option UrlParts` (`none` = the constructor throws),
`decodeURIComponent` the oracle `dec`, and the network fetch the oracle
`fetchOk`. -/

/-- The pieces of a parsed URL that the code reads. -/
structure UrlParts where
  protocol : Str
  host : Str
  pathname : Str
  deriving DecidableEq

/-- `getServerOrigin` (part_000:118-125): `` `${u.protocol}//${u.host}` ``
when the URL parses, `null` when the constructor throws. -/
def getServerOrigin (parse : Str → Option UrlParts) (serverUrl : Str) : Option Str :=
  match parse serverUrl with
  | some u => some (u.protocol ++ str "//" ++ u.host)
  | none => none

/-- `https?:\/\/` at the head: the optional `s` is tried first. -/
def httpPreLen (v : Str) : Option Nat :=
  if (str "https://").isPrefixOf v then some 8
  else if (str "http://").isPrefixOf v then some 7
  else none

/-- Tail of `/!\[.*?\]\((https?:\/\/[^\s)]+)\)/`: `](`, the scheme, the
greedy nonempty `[^\s)]+` run, `)`. -/
def mdRemoteHit (u : Str) : Option (Nat × Unit) :=
  if (str "](").isPrefixOf u then
    let v := u.drop 2
    match httpPreLen v with
    | some k =>
      let run := (v.drop k).takeWhile (fun c => !(isJsWS c || c = ')'))
      if run.isEmpty then none
      else if ((v.drop k).drop run.length).head? = some ')' then
        some (2 + k + run.length + 1, ())
      else none
    | none => none
  else none

/-- `/!\[.*?\]\((https?:\/\/[^\s)]+)\)/` at a position, yielding the whole
match (the `content.match(/…/g)` elements are full matches). -/
def mdRemoteMatch (s : Str) : Option (Nat × Str) :=
  if (str "![").isPrefixOf s then
    (lazyScan mdRemoteHit (s.drop 2)).map (fun r => (2 + r.1, s.take (2 + r.1)))
  else none

/-- Tail of `/<img[^>]+src="(https?:\/\/[^">]+)"/`: `src="`, the scheme,
the greedy nonempty `[^">]+` run, `"`. -/
def srcRemoteHit (u : Str) : Option (Nat × Unit) :=
  if (str "src=\"").isPrefixOf u then
    let v := u.drop 5
    match httpPreLen v with
    | some k =>
      let run := (v.drop k).takeWhile (fun c => c != '"' && c != '>')
      if run.isEmpty then none
      else if ((v.drop k).drop run.length).head? = some '"' then
        some (5 + k + run.length + 1, ())
      else none
    | none => none
  else none

/-- `/<img[^>]+src="(https?:\/\/[^">]+)"/` at a position, whole match. -/
def htmlRemoteMatch (s : Str) : Option (Nat × Str) :=
  if (str "<img").isPrefixOf s then
    let tl := s.drop 4
    (gBack srcRemoteHit tl (tl.takeWhile (fun c => c != '>')).length).map
      (fun r => (4 + r.1, s.take (4 + r.1)))
  else none

/-- `/!\[\[(https?:\/\/[^\]]+)\]\]/` at a position, whole match. -/
def wikiRemoteMatch (s : Str) : Option (Nat × Str) :=
  if (str "![[").isPrefixOf s then
    let v := s.drop 3
    match httpPreLen v with
    | some k =>
      let run := (v.drop k).takeWhile (fun c => c != ']')
      if run.isEmpty then none
      else if (str "]]").isPrefixOf ((v.drop k).drop run.length) then
        some (3 + k + run.length + 2, s.take (3 + k + run.length + 2))
      else none
    | none => none
  else none

/-- One alternative of the decoration-stripping replace
(download.ts:11): `!\[.*?\]\(` | `\)` | `<img[^>]+src="` | `"` | `![[` |
`]]`, tried in this order at each position. -/
def stripDecorMatch (u : Str) : Option (Nat × Unit) :=
  match (if (str "![").isPrefixOf u then
      (lazyScan (fun v => if (str "](").isPrefixOf v then some (2, ()) else none)
        (u.drop 2)).map (fun r => (2 + r.1, ()))
    else none) with
  | some r => some r
  | none =>
    if u.head? = some ')' then some (1, ())
    else
      match (if (str "<img").isPrefixOf u then
          (gBack (fun v => if (str "src=\"").isPrefixOf v then some (5, ()) else none)
            (u.drop 4) ((u.drop 4).takeWhile (fun c => c != '>')).length).map
            (fun r => (4 + r.1, ()))
        else none) with
      | some r => some r
      | none =>
        if u.head? = some '"' then some (1, ())
        else if (str "![[").isPrefixOf u then some (3, ())
        else if (str "]]").isPrefixOf u then some (2, ())
        else none

/-- `s.replace(/!\[.*?\]\(|\)|<img[^>]+src="|"|!\[\[|\]\]/g, '')`. -/
def stripDecor (s : Str) : Str := replAll stripDecorMatch [] s

/-- `extractRemoteImageUrls` (download.ts:5-15): collect the full matches
of the three remote-reference patterns, strip the decorations off each,
keep the nonempty ones starting with the origin, de-duplicate. -/
def extractRemoteImageUrls (content origin : Str) : List Str :=
  let md := scanAll mdRemoteMatch content
  let html := scanAll htmlRemoteMatch content
  let wiki := scanAll wikiRemoteMatch content
  dedupFirst (((md ++ html ++ wiki).map stripDecor).filter
    (fun url => !url.isEmpty && origin.isPrefixOf url))

/-- `fileNameFromUrl` (download.ts:17-24): last segment of the parsed
URL's pathname, percent-decoded, with `image` as the fallback. -/
def fileNameFromUrl (parse : Str → Option UrlParts) (dec : Str → Option Str)
    (url : Str) : Str :=
  match parse url with
  | none => str "image"
  | some u =>
    let name := if (lastSeg u.pathname).isEmpty then str "image" else lastSeg u.pathname
    match dec name with
    | some d => d
    | none => str "image"

/-- `` `${file.parent ? file.parent.path + '/' : ''}${file.basename}` ``
(download.ts:53, 94). -/
def noteFolder (note : NoteFile) : Str :=
  (match note.parentPath with | some nd => nd ++ ['/'] | none => []) ++ note.basename

/-- Effects of a download run: network fetches attempted, folders
created, binary files written, and document texts persisted. -/
structure DownloadTrace where
  fetches : List Str
  folderCreates : List Str
  fileWrites : List Str
  docWrites : List (NoteFile × Str)
  deriving DecidableEq

/-- Result of the per-note download loop. -/
structure DlLoopRes where
  fetches : List Str
  fileWrites : List Str
  updated : Str
  vault : List (Str × Bool)

/-- The `for (const url of urls)` loop (download.ts:59-76 and 96-110): a
fetch failure is caught and the loop continues; on success the binary is
written at `folder/name` (modify when a file already exists there,
create otherwise) and the working text is rewritten. -/
def dlLoop (parse : Str → Option UrlParts) (dec : Str → Option Str)
    (fetchOk : Str → Bool) (folder : Str) :
    List Str → List (Str × Bool) → Str → DlLoopRes
  | [], vault, updated => ⟨[], [], updated, vault⟩
  | url :: rest, vault, updated =>
    if fetchOk url then
      let name := fileNameFromUrl parse dec url
      let target := folder ++ '/' :: name
      let vault2 :=
        match vaultGet vault target with
        | some (_, true) => vault
        | _ => vault ++ [(target, true)]
      let r := dlLoop parse dec fetchOk folder rest vault2
        (replaceUrlWithRelative updated url name)
      ⟨url :: r.fetches, target :: r.fileWrites, r.updated, r.vault⟩
    else
      let r := dlLoop parse dec fetchOk folder rest vault updated
      ⟨url :: r.fetches, r.fileWrites, r.updated, r.vault⟩

/-- Download processing of one note (shared body of the two entry
points): extract the remote urls, return silently when there are none,
otherwise ensure the note's folder, run the loop, persist the rewritten
text once. -/
def dlNote (parse : Str → Option UrlParts) (dec : Str → Option Str)
    (fetchOk : Str → Bool) (origin : Str) (note : NoteFile) (content : Str)
    (vault : List (Str × Bool)) : DownloadTrace × List (Str × Bool) :=
  let urls := extractRemoteImageUrls content origin
  if urls.isEmpty then (⟨[], [], [], []⟩, vault)
  else
    let folder := noteFolder note
    let fc :=
      match vaultGet vault folder with
      | some _ => (vault, ([] : List Str))
      | none => (vault ++ [(folder, false)], [folder])
    let r := dlLoop parse dec fetchOk folder urls fc.1 content
    (⟨r.fetches, fc.2, r.fileWrites, [(note, r.updated)]⟩, r.vault)

/-- `downloadImagesForCurrentNote` (download.ts:45-80). -/
def downloadImagesForCurrentNote (parse : Str → Option UrlParts)
    (dec : Str → Option Str) (fetchOk : Str → Bool) (serverUrl : Str)
    (vault : List (Str × Bool)) (active : Option (NoteFile × Str)) : DownloadTrace :=
  match getServerOrigin parse serverUrl with
  | none => ⟨[], [], [], []⟩
  | some origin =>
    match active with
    | none => ⟨[], [], [], []⟩
    | some nc => (dlNote parse dec fetchOk origin nc.1 nc.2 vault).1

/-- `downloadImagesForAllNotes` (download.ts:82-116). -/
def downloadImagesForAllNotes (parse : Str → Option UrlParts)
    (dec : Str → Option Str) (fetchOk : Str → Bool) (serverUrl : Str)
    (vault : List (Str × Bool)) (files : List (NoteFile × Str)) : DownloadTrace :=
  match getServerOrigin parse serverUrl with
  | none => ⟨[], [], [], []⟩
  | some origin =>
    (files.foldl
      (fun (acc : DownloadTrace × List (Str × Bool)) nc =>
        let r := dlNote parse dec fetchOk origin nc.1 nc.2 acc.2
        (⟨acc.1.fetches ++ r.1.fetches, acc.1.folderCreates ++ r.1.folderCreates,
          acc.1.fileWrites ++ r.1.fileWrites, acc.1.docWrites ++ r.1.docWrites⟩, r.2))
      (⟨[], [], [], []⟩, vault)).1

/-- C10: `getServerOrigin` is total over the parse oracle — the
`scheme://host` origin when the URL parses, `null` otherwise — and a
`null` origin makes `cleanupUnusedImages` return without listing the
inventory or issuing a deletion, and makes both download entry points
return with a completely empty effect trace. -/
theorem c10_origin_guard (parse : Str → Option UrlParts) (dec : Str → Option Str)
    (fetchOk : Str → Bool) (serverUrl : Str) (vault : List (Str × Bool))
    (active : Option (NoteFile × Str)) (files : List (NoteFile × Str))
    (used : List Str) (inv : List LskyImageItem) (confirmed : Bool)
    (delOk : Str → Bool) :
    (∀ u, parse serverUrl = some u →
      getServerOrigin parse serverUrl = some (u.protocol ++ str "//" ++ u.host)) ∧
    (parse serverUrl = none → getServerOrigin parse serverUrl = none) ∧
    (getServerOrigin parse serverUrl = none →
      (cleanupUnusedImages (getServerOrigin parse serverUrl) used inv confirmed
        delOk).listedInventory = false ∧
      (cleanupUnusedImages (getServerOrigin parse serverUrl) used inv confirmed
        delOk).deleteRequests = [] ∧
      downloadImagesForCurrentNote parse dec fetchOk serverUrl vault active =
        ⟨[], [], [], []⟩ ∧
      downloadImagesForAllNotes parse dec fetchOk serverUrl vault files =
        ⟨[], [], [], []⟩) := by
  refine ⟨?_, ?_, ?_⟩
  · intro u hu
    unfold getServerOrigin
    rw [hu]
  · intro hn
    unfold getServerOrigin
    rw [hn]
  · intro hnone
    refine ⟨?_, ?_, ?_, ?_⟩
    · rw [hnone]; rfl
    · rw [hnone]; rfl
    · unfold downloadImagesForCurrentNote
      rw [hnone]
    · unfold downloadImagesForAllNotes
      rw [hnone]

/-- Closed instance of C10: a parse failure propagates to a `null` origin
and empty effect traces; a successful parse yields the origin. -/
theorem c10_origin_guard_witness :
    getServerOrigin (fun _ => none) (str "not a url") = none ∧
    downloadImagesForCurrentNote (fun _ => none) some (fun _ => true)
      (str "not a url") [] (some (⟨none, str "note"⟩, str "x")) = ⟨[], [], [], []⟩ ∧
    downloadImagesForAllNotes (fun _ => none) some (fun _ => true)
      (str "not a url") [] [(⟨none, str "note"⟩, str "x")] = ⟨[], [], [], []⟩ ∧
    getServerOrigin (fun _ => some ⟨str "https:", str "img.h.io", str "/"⟩)
      (str "https://img.h.io/x") = some (str "https://img.h.io") := by
  have h1 := c10_origin_guard (fun _ => none) some (fun _ => true) (str "not a url")
    [] (some (⟨none, str "note"⟩, str "x")) [(⟨none, str "note"⟩, str "x")]
    [] [] true (fun _ => true)
  have h2 := c10_origin_guard (fun _ => some ⟨str "https:", str "img.h.io", str "/"⟩)
    some (fun _ => true) (str "https://img.h.io/x") [] none [] [] [] true (fun _ => true)
  have hn := h1.2.1 rfl
  exact ⟨hn, (h1.2.2 hn).2.2.1, (h1.2.2 hn).2.2.2,
    (h2.1 ⟨str "https:", str "img.h.io", str "/"⟩ rfl).trans (by decide)⟩

end Lsky
